import Mathlib

/-!
# A shallow embedding of `mem_pool.c`

The pool manager of `src/mem_pool.c` is embedded as pure functions on an explicit
state.  Conventions of the embedding:

* A C array is a `List`; reading or writing it at an index that is not below its
  length is undefined behaviour in C and is `none` here.  So every operation
  returns an `Option`: `none` means "the C execution has undefined behaviour
  (out-of-bounds access, dereference of a null or indeterminate pointer,
  division by zero) or does not terminate"; `some r` means it returns `r`.
* `size_t` is a `Nat` reduced modulo `2 ^ 64`, `unsigned` a `Nat` reduced modulo
  `2 ^ 32` wherever the C code does arithmetic on it.
* A `node_pt` is `null`, the address `&node_heap[i]`, the address of the `i`-th
  node of the blocks that `_mem_resize_node_heap` obtains from `malloc`
  (these blocks are separate from `node_heap`), or an indeterminate value
  (a pointer field of `malloc`ed memory that was never written).
* `alloc_record.mem` and `pool.mem` only carry addresses of the backing region;
  no function of the file reads them, so they are left out.
* Whether a call of `malloc`, `calloc` or `realloc` succeeds is decided by the
  environment; a function that makes such a call takes the answer as an argument.
  The arrays of a pool manager exist (are not null) from `mem_pool_open` on.

The definitions come first: the embedding of the code, then the observations and
predicates in which the properties are stated.  The theorems follow.
-/

namespace MemPool

/-! ## Constants -/

/-- Initial capacity of the pool store (line 20). -/
def MEM_POOL_STORE_INIT_CAPACITY : Nat := 20

/-- Initial capacity of the node heap (line 24). -/
def MEM_NODE_HEAP_INIT_CAPACITY : Nat := 40

/-- Expansion factor of the node heap (line 26). -/
def MEM_NODE_HEAP_EXPAND_FACTOR : Nat := 2

/-- Initial capacity of the gap index (line 28). -/
def MEM_GAP_IX_INIT_CAPACITY : Nat := 40

/-- Expansion factor of the gap index (line 30). -/
def MEM_GAP_IX_EXPAND_FACTOR : Nat := 2

/-- Number of values of a `size_t`. -/
def SIZE_MOD : Nat := 2 ^ 64

/-- Number of values of an `unsigned`. -/
def UINT_MOD : Nat := 2 ^ 32

/-- Number of non-negative values of an `int`. -/
def INT_LIMIT : Nat := 2 ^ 31

/-- The value of `x - 1` for an `unsigned` `x`: zero wraps round to the largest
value.  (For `x < 2 ^ 32` this is `(x + 2 ^ 32 - 1) % 2 ^ 32`; the test on `x` keeps
the value easy to compute with when `x` is a variable.) -/
def uint_dec (x : Nat) : Nat :=
  if x = 0 then UINT_MOD - 1 else x - 1

/-! ## Types -/

/-- Modelled from the spec: `mem_pool.h` is not among the sources; these are the
four status codes that `mem_pool.c` returns. -/
inductive alloc_status where
  | ALLOC_OK
  | ALLOC_FAIL
  | ALLOC_CALLED_AGAIN
  | ALLOC_NOT_FREED
deriving DecidableEq

/-- Modelled from the spec: `mem_pool.h` is not among the sources; these are the
two placement policies that `mem_pool.c` tests for. -/
inductive alloc_policy where
  | FIRST_FIT
  | BEST_FIT
deriving DecidableEq

/-- A pointer to a node. -/
inductive node_pt where
  | null
  | heap (i : Nat)
  | ext (i : Nat)
  | wild
deriving DecidableEq

/-- The record `node_t` (lines 39-44); `size` is `alloc_record.size`. -/
structure node_t where
  size : Nat
  used : Nat
  allocated : Nat
  next : node_pt
  prev : node_pt
deriving DecidableEq

/-- The record `gap_t` (lines 46-49). -/
structure gap_t where
  size : Nat
  node : node_pt
deriving DecidableEq

/-- Modelled from the spec: `mem_pool.h` is not among the sources; these are the
fields of `pool_t` that `mem_pool.c` reads and writes (`total_size` and
`alloc_size` taken as `size_t`, the two counters as `unsigned`). -/
structure pool_t where
  policy : alloc_policy
  total_size : Nat
  alloc_size : Nat
  num_allocs : Nat
  num_gaps : Nat
deriving DecidableEq

/-- The record `pool_mgr_t` (lines 51-58).  `node_heap` is the block that
`mem_pool_open` obtains from `calloc`; `ext_nodes` holds, one after the other, the
blocks that `_mem_resize_node_heap` obtains from `malloc`. -/
structure pool_mgr_t where
  pool : pool_t
  node_heap : List node_t
  ext_nodes : List node_t
  total_nodes : Nat
  used_nodes : Nat
  gap_ix : List gap_t
  gap_ix_capacity : Nat
deriving DecidableEq

/-- The static variables `pool_store`, `pool_store_size`, `pool_store_capacity`
(lines 67-69).  A pool manager is named by its address, a `Nat`. -/
structure store_t where
  pool_store : Option (List (Option Nat))
  pool_store_size : Nat
  pool_store_capacity : Nat
deriving DecidableEq

/-! ## Memory access -/

/-- Read the node a pointer refers to. -/
def node_at (m : pool_mgr_t) : node_pt → Option node_t
  | .heap i => m.node_heap[i]?
  | .ext i => m.ext_nodes[i]?
  | .null => none
  | .wild => none

/-- Write through a pointer: replace the node it refers to by its image under `f`. -/
def node_upd (m : pool_mgr_t) (p : node_pt) (f : node_t → node_t) : Option pool_mgr_t :=
  match p with
  | .heap i =>
    match m.node_heap[i]? with
    | some n => some { m with node_heap := m.node_heap.set i (f n) }
    | none => none
  | .ext i =>
    match m.ext_nodes[i]? with
    | some n => some { m with ext_nodes := m.ext_nodes.set i (f n) }
    | none => none
  | .null => none
  | .wild => none

/-! ## Gap index (static functions, lines 821-947) -/

/-- The function `_mem_resize_gap_ix` (lines 821-848).  The test divides two
`unsigned` values, so the quotient exceeds `0.75` exactly when it is at least 1.
`realloc` is asked for `sizeof(pool_mgr->gap_ix) * 2` bytes, two pointers, which
is the size of one `gap_t`: only the first entry survives. -/
def _mem_resize_gap_ix (m : pool_mgr_t) : Option (pool_mgr_t × alloc_status) :=
  if m.gap_ix_capacity = 0 then none
  else if 1 ≤ m.pool.num_gaps / m.gap_ix_capacity then
    some ({ m with
              gap_ix := m.gap_ix.take 1
              gap_ix_capacity := (m.gap_ix_capacity * MEM_GAP_IX_EXPAND_FACTOR) % UINT_MOD },
          .ALLOC_OK)
  else some (m, .ALLOC_FAIL)

/-- The loop of `_mem_sort_gap_ix` (lines 936-944): `sort_loop (i + 1) g` runs the
body for `i`, `i - 1`, ..., `0`. -/
def sort_loop : Nat → List gap_t → Option (List gap_t)
  | 0, g => some g
  | i + 1, g =>
    match g[i]?, g[i + 1]? with
    | some a, some b =>
      sort_loop i (if a.size < b.size then (g.set i b).set (i + 1) a else g)
    | _, _ => none

/-- The function `_mem_sort_gap_ix` (lines 923-947).  `int i = num_gaps - 1` is
negative when the `unsigned` difference is `2 ^ 31` or more, and then the loop body
never runs. -/
def _mem_sort_gap_ix (m : pool_mgr_t) : Option (pool_mgr_t × alloc_status) :=
  let i := uint_dec m.pool.num_gaps
  if INT_LIMIT ≤ i then some (m, .ALLOC_OK)
  else
    match sort_loop (i + 1) m.gap_ix with
    | some g => some ({ m with gap_ix := g }, .ALLOC_OK)
    | none => none

/-- The loop `while (gap_ix[i].node != node) i += 1` (lines 868-871 with
`node = NULL`, lines 908-911): the first position at or after `i` whose entry refers
to `node`; running past the end of the array is undefined. -/
def gap_scan (node : node_pt) : List gap_t → Nat → Option Nat
  | [], _ => none
  | g :: rest, i => if g.node ≠ node then gap_scan node rest (i + 1) else some i

/-- The function `_mem_add_to_gap_ix` (lines 851-889). -/
def _mem_add_to_gap_ix (m : pool_mgr_t) (size : Nat) (node : node_pt) :
    Option (pool_mgr_t × alloc_status) :=
  match _mem_resize_gap_ix m with
  | none => none
  | some (m1, _) =>
    match gap_scan .null m1.gap_ix 0 with
    | none => none
    | some i =>
      let m2 : pool_mgr_t :=
        { m1 with
            gap_ix := m1.gap_ix.set i ⟨size, node⟩
            pool := { m1.pool with num_gaps := (m1.pool.num_gaps + 1) % UINT_MOD } }
      if node ≠ .null then
        match _mem_sort_gap_ix m2 with
        | some (m3, _) => some (m3, .ALLOC_OK)
        | none => none
      else some (m2, .ALLOC_FAIL)

/-- The function `_mem_remove_from_gap_ix` (lines 892-919): the entry of `node` is
zeroed in place; the entries after it are not moved. -/
def _mem_remove_from_gap_ix (m : pool_mgr_t) (_size : Nat) (node : node_pt) :
    Option (pool_mgr_t × alloc_status) :=
  match gap_scan node m.gap_ix 0 with
  | none => none
  | some i =>
    some ({ m with
              gap_ix := m.gap_ix.set i ⟨0, .null⟩
              pool := { m.pool with num_gaps := uint_dec m.pool.num_gaps } },
          .ALLOC_OK)

/-! ## Node heap growth (lines 759-818) -/

/-- The loop of lines 784-789, `for (node = node_heap; node->next != NULL;
node = node->next) last_node = node;`, started at `node` with the current value of
`last_node`; its result is the final `last_node`.  The bound is the number of
nodes that exist: a walk that needs more steps goes round a cycle and never ends. -/
def last_node_loop (m : pool_mgr_t) : Nat → node_pt → node_pt → Option node_pt
  | 0, _, _ => none
  | fuel + 1, node, last =>
    match node_at m node with
    | none => none
    | some n => if n.next = .null then some last else last_node_loop m fuel n.next node

/-- The `cnt` nodes that the loop of lines 796-810 initialises in a block that starts
at position `base` of `ext_nodes`.  The block comes from `malloc`, so the `prev` of
its first node and the `next` of its last node are never written. -/
def fresh_nodes (base cnt : Nat) : List node_t :=
  (List.range cnt).map fun k =>
    { size := 0
      used := 1
      allocated := 0
      next := if k + 1 < cnt then .ext (base + k + 1) else .wild
      prev := if 0 < k then .ext (base + k - 1) else .wild }

/-- The function `_mem_resize_node_heap` (lines 759-818).  `malloc_ok` tells whether
its call of `malloc` succeeds.  The test of line 772 is made on `float`s; here it
is the exact comparison `used_nodes / total_nodes > 3 / 4`.  The rounding of the
`float` quotient can make the two differ only for large counts with
`used_nodes < total_nodes`; `mem_new_alloc`, the only caller, reaches line 772 with
`used_nodes >= total_nodes` (line 395), where the quotient is at least 1 in both.
`new_node_count` is an `int`: when the doubled count does not fit, the loop of
line 797 does not run. -/
def _mem_resize_node_heap (malloc_ok : Bool) (m : pool_mgr_t) :
    Option (pool_mgr_t × alloc_status) :=
  if 3 * m.total_nodes < 4 * m.used_nodes then
    let new_node_count := (m.total_nodes * MEM_NODE_HEAP_EXPAND_FACTOR) % UINT_MOD
    if malloc_ok then
      let m1 : pool_mgr_t := { m with total_nodes := (m.total_nodes + new_node_count) % UINT_MOD }
      match last_node_loop m1 (m1.node_heap.length + m1.ext_nodes.length + 1) (.heap 0) (.heap 0) with
      | none => none
      | some last_node =>
        let base := m1.ext_nodes.length
        match node_upd m1 last_node (fun n => { n with next := .ext base }) with
        | none => none
        | some m2 =>
          some ({ m2 with
                    ext_nodes := m2.ext_nodes ++
                      fresh_nodes base (if new_node_count < INT_LIMIT then new_node_count else 0) },
                .ALLOC_OK)
    else some (m, .ALLOC_FAIL)
  else some (m, .ALLOC_OK)

/-! ## Allocation (lines 356-518) -/

/-- The loop of lines 418-426, run over the node heap from index `i` on (the list
argument holds `node_heap[i]`, `node_heap[i+1]`, ...).  It yields `null` where the
C code returns `NULL` from inside the loop, and the address of the node at which
the loop stops otherwise. -/
def first_fit_scan (gap_ix : List gap_t) (size : Nat) : List node_t → Nat → Option node_pt
  | [], _ => none
  | n :: rest, i =>
    if n.size < size ∨ (n.allocated ≠ 0 ∧ n.used ≠ 0) then
      match gap_ix[0]? with
      | none => none
      | some g0 =>
        if node_pt.heap i = g0.node ∧ n.size < size then some .null
        else first_fit_scan gap_ix size rest (i + 1)
    else some (.heap i)

/-- The loop of lines 440-443, `while (i < num_gaps && gap_ix[i+1].size >= size)
i += 1;`, from index `i` on (the list argument holds `gap_ix[i+1]`, `gap_ix[i+2]`,
...); its result is the final `i`. -/
def best_fit_scan (num_gaps size : Nat) : List gap_t → Nat → Option Nat
  | [], i => if i < num_gaps then none else some i
  | g :: rest, i =>
    if i < num_gaps then
      if size ≤ g.size then best_fit_scan num_gaps size rest (i + 1) else some i
    else some i

/-- Lines 409-451 of `mem_new_alloc`: the node chosen for the allocation, `null`
where the C code returns `NULL` or leaves a null `new_node`. -/
def select_node (m : pool_mgr_t) (size : Nat) : Option node_pt :=
  match m.pool.policy with
  | .FIRST_FIT => first_fit_scan m.gap_ix size m.node_heap 0
  | .BEST_FIT =>
    if 0 < m.pool.num_gaps then
      match best_fit_scan m.pool.num_gaps size (m.gap_ix.drop 1) 0 with
      | none => none
      | some i =>
        match m.gap_ix[i]? with
        | none => none
        | some g => some g.node
    else some .null

/-- The loop of lines 486-489, `while (node_heap[i].used != 0) i += 1;`, from index
`i` on. -/
def unused_scan : List node_t → Nat → Option Nat
  | [], _ => none
  | n :: rest, i => if n.used ≠ 0 then unused_scan rest (i + 1) else some i

/-- Lines 481-514 of `mem_new_alloc`: a new gap node of `remainder` bytes is put
into the list right after `new_node` and into the gap index. -/
def split_node (m : pool_mgr_t) (new_node : node_pt) (size remainder : Nat) :
    Option pool_mgr_t :=
  match unused_scan m.node_heap 0 with
  | none => none
  | some i =>
    let new_gap := node_pt.heap i
    (node_upd m new_gap (fun n => { n with used := 1, allocated := 0, size := remainder })).bind
    fun m1 =>
    let m2 : pool_mgr_t := { m1 with used_nodes := (m1.used_nodes + 1) % UINT_MOD }
    (node_upd m2 new_node (fun n => { n with size := size })).bind
    fun m3 =>
    (node_at m3 new_node).bind
    fun nn =>
    (if nn.next ≠ .null then node_upd m3 nn.next (fun n => { n with prev := new_gap })
     else some m3).bind
    fun m4 =>
    (node_at m4 new_node).bind
    fun nn1 =>
    (node_upd m4 new_gap (fun n => { n with next := nn1.next })).bind
    fun m5 =>
    (node_upd m5 new_node (fun n => { n with next := new_gap })).bind
    fun m6 =>
    (node_upd m6 new_gap (fun n => { n with prev := new_node })).bind
    fun m7 =>
    (_mem_add_to_gap_ix m7 remainder new_gap).bind
    fun r => some r.1

/-- Lines 460-517 of `mem_new_alloc`: the chosen node becomes an allocation of
`size` bytes, and what is left of it a new gap. -/
def place_alloc (m : pool_mgr_t) (new_node : node_pt) (size : Nat) :
    Option (pool_mgr_t × node_pt) :=
  let m1 : pool_mgr_t :=
    { m with pool := { m.pool with
                         alloc_size := (m.pool.alloc_size + size) % SIZE_MOD
                         num_allocs := (m.pool.num_allocs + 1) % UINT_MOD } }
  (node_at m1 new_node).bind
  fun n =>
  let remainder := (n.size + SIZE_MOD - size) % SIZE_MOD
  (_mem_remove_from_gap_ix m1 size new_node).bind
  fun r =>
  (node_upd r.1 new_node (fun n => { n with allocated := 1, used := 1, size := size })).bind
  fun m3 =>
  if remainder ≠ 0 then
    (split_node m3 new_node size remainder).bind fun m4 => some (m4, new_node)
  else some (m3, new_node)

/-- The function `mem_new_alloc` (lines 356-518) on the pool manager `m`;
`malloc_ok` tells whether the `malloc` of the node heap growth succeeds.  The
result is the manager after the call and the returned pointer.  The tests of
lines 389 and 428 are on pointers that are never null in a pool that
`mem_pool_open` returned.  The test of line 395 divides two `unsigned` values, so
the quotient exceeds `0.75` exactly when it is at least 1; `size` is a `size_t`. -/
def mem_new_alloc (malloc_ok : Bool) (m : pool_mgr_t) (size : Nat) :
    Option (pool_mgr_t × node_pt) :=
  if m.total_nodes = 0 then none
  else
    match (if 1 ≤ m.used_nodes / m.total_nodes then _mem_resize_node_heap malloc_ok m
           else some (m, alloc_status.ALLOC_OK)) with
    | none => none
    | some (m1, st) =>
      if st ≠ .ALLOC_OK then some (m1, .null)
      else if m1.total_nodes < m1.used_nodes then some (m1, .null)
      else
        match select_node m1 size with
        | none => none
        | some new_node =>
          if new_node = .null then some (m1, .null)
          else place_alloc m1 new_node size

/-! ## Deallocation (lines 523-672) -/

/-- Lines 610-632 of `mem_del_alloc`: the gap after `to_delete` is merged into it. -/
def merge_next (m : pool_mgr_t) (to_delete next : node_pt) : Option pool_mgr_t :=
  (_mem_remove_from_gap_ix m 0 next).bind
  fun r =>
  let m1 := r.1
  (node_at m1 next).bind
  fun nx =>
  (node_upd m1 to_delete (fun n => { n with size := (n.size + nx.size) % SIZE_MOD })).bind
  fun m2 =>
  (node_upd m2 next (fun n => { n with used := 0 })).bind
  fun m3 =>
  let m4 : pool_mgr_t := { m3 with used_nodes := uint_dec m3.used_nodes }
  (node_at m4 next).bind
  fun nx1 =>
  (if nx1.next ≠ .null then
     (node_upd m4 nx1.next (fun n => { n with prev := to_delete })).bind
     fun m5 =>
     (node_at m5 next).bind
     fun nx2 => node_upd m5 to_delete (fun n => { n with next := nx2.next })
   else node_upd m4 to_delete (fun n => { n with next := .null })).bind
  fun m6 =>
  (node_upd m6 next (fun n => { n with next := .null })).bind
  fun m7 => node_upd m7 next (fun n => { n with prev := .null })

/-- Lines 639-658 of `mem_del_alloc`: `to_delete` is merged into the gap before it. -/
def merge_prev (m : pool_mgr_t) (to_delete previous : node_pt) : Option pool_mgr_t :=
  (_mem_remove_from_gap_ix m 0 previous).bind
  fun r =>
  let m1 := r.1
  (node_at m1 to_delete).bind
  fun td =>
  (node_upd m1 previous (fun n => { n with size := (n.size + td.size) % SIZE_MOD })).bind
  fun m2 =>
  (node_upd m2 to_delete (fun n => { n with used := 0 })).bind
  fun m3 =>
  let m4 : pool_mgr_t := { m3 with used_nodes := uint_dec m3.used_nodes }
  (node_at m4 to_delete).bind
  fun td1 =>
  if td1.next ≠ .null then
    (node_upd m4 previous (fun n => { n with next := td1.next })).bind
    fun m5 =>
    (node_at m5 to_delete).bind
    fun td2 => node_upd m5 td2.next (fun n => { n with prev := previous })
  else node_upd m4 previous (fun n => { n with next := .null })

/-- Lines 607-633 of `mem_del_alloc`: the test for a gap after `to_delete`, and the
merge. -/
def del_next_step (m : pool_mgr_t) (to_delete : node_pt) : Option pool_mgr_t :=
  (node_at m to_delete).bind
  fun td =>
  if td.next ≠ .null then
    (node_at m td.next).bind
    fun nx => if nx.allocated = 0 then merge_next m to_delete td.next else some m
  else some m

/-- Lines 635-659 of `mem_del_alloc`: the test for a gap before `to_delete`, and the
merge; the result carries the final value of `to_delete`. -/
def del_prev_step (m : pool_mgr_t) (to_delete : node_pt) : Option (pool_mgr_t × node_pt) :=
  (node_at m to_delete).bind
  fun td =>
  if td.prev ≠ .null then
    (node_at m td.prev).bind
    fun pv =>
    if pv.allocated = 0 then
      (merge_prev m to_delete td.prev).bind fun m1 => some (m1, td.prev)
    else some (m, to_delete)
  else some (m, to_delete)

/-- The function `mem_del_alloc` (lines 523-672) on the pool manager `m`.  The loop
of lines 584-591 finds `alloc` when it is the address `&node_heap[i]` of an index
below `total_nodes`. -/
def mem_del_alloc (m : pool_mgr_t) (alloc : node_pt) : Option (pool_mgr_t × alloc_status) :=
  match alloc with
  | .heap i =>
    if i < m.total_nodes then
      let to_delete := node_pt.heap i
      (node_upd m to_delete (fun n => { n with allocated := 0 })).bind
      fun m1 =>
      (node_at m1 to_delete).bind
      fun td =>
      let m2 : pool_mgr_t :=
        { m1 with pool := { m1.pool with
                              num_allocs := uint_dec m1.pool.num_allocs
                              alloc_size := (m1.pool.alloc_size + SIZE_MOD - td.size) % SIZE_MOD } }
      (del_next_step m2 to_delete).bind
      fun m3 =>
      (del_prev_step m3 to_delete).bind
      fun r =>
      (node_at r.1 r.2).bind
      fun fin =>
      (_mem_add_to_gap_ix r.1 fin.size r.2).bind
      fun a =>
      if a.2 ≠ .ALLOC_OK then some (a.1, .ALLOC_FAIL) else some (a.1, .ALLOC_OK)
    else some (m, .ALLOC_FAIL)
  | _ => some (m, .ALLOC_FAIL)

/-! ## Inspection (lines 676-720) -/

/-- The loop of lines 703-709 of `mem_inspect_pool`: `k` segments are written,
starting with the node `p` and following `next`. -/
def inspect_loop (m : pool_mgr_t) : Nat → node_pt → Option (List (Nat × Nat))
  | 0, _ => some []
  | k + 1, p =>
    (node_at m p).bind fun n =>
      (inspect_loop m k n.next).map fun r => (n.size, n.allocated) :: r

/-- The function `mem_inspect_pool` (lines 676-720): what it stores in `*segments`
and `*num_segments`, or `none` inside when its `malloc` fails and it stores
nothing.  It writes to no field of the pool manager. -/
def mem_inspect_pool (malloc_ok : Bool) (m : pool_mgr_t) :
    Option (Option (List (Nat × Nat) × Nat)) :=
  if malloc_ok then
    (inspect_loop m m.used_nodes (.heap 0)).map fun segs => some (segs, m.used_nodes)
  else some none

/-! ## Pool store and pool life cycle (lines 92-352, 730-756) -/

/-- The function `mem_init` (lines 92-126); `calloc_ok` tells whether its `calloc`
succeeds. -/
def mem_init (calloc_ok : Bool) (g : store_t) : store_t × alloc_status :=
  match g.pool_store with
  | some _ => (g, .ALLOC_CALLED_AGAIN)
  | none =>
    if calloc_ok then
      ({ pool_store := some (List.replicate MEM_POOL_STORE_INIT_CAPACITY none)
         pool_store_size := 0
         pool_store_capacity := MEM_POOL_STORE_INIT_CAPACITY },
       .ALLOC_OK)
    else (g, .ALLOC_FAIL)

/-- The loop of lines 153-162 of `mem_free`: does one of the first `n` entries of
the pool store hold a pool manager?  Reading past the end of the array is
undefined. -/
def store_scan (ps : List (Option Nat)) : Nat → Option Bool
  | 0 => some false
  | i + 1 =>
    match store_scan ps i, ps[i]? with
    | some b, some e => some (b || e.isSome)
    | _, _ => none

/-- The function `mem_free` (lines 130-177). -/
def mem_free (g : store_t) : Option (store_t × alloc_status) :=
  match g.pool_store with
  | none => some (g, .ALLOC_CALLED_AGAIN)
  | some ps =>
    match store_scan ps g.pool_store_capacity with
    | none => none
    | some true => some (g, .ALLOC_FAIL)
    | some false =>
      some ({ pool_store := none, pool_store_size := 0, pool_store_capacity := 0 }, .ALLOC_OK)

/-- The pool manager that lines 236-287 of `mem_pool_open` build: node heap and gap
index come zeroed from `calloc`, and their first entries are initialised. -/
def new_pool_mgr (size : Nat) (policy : alloc_policy) : pool_mgr_t :=
  { pool := { policy := policy, total_size := size, alloc_size := 0, num_allocs := 0,
              num_gaps := 1 }
    node_heap :=
      { size := size, used := 0, allocated := 0, next := .null, prev := .null } ::
        List.replicate (MEM_NODE_HEAP_INIT_CAPACITY - 1)
          { size := 0, used := 0, allocated := 0, next := .null, prev := .null }
    ext_nodes := []
    total_nodes := MEM_NODE_HEAP_INIT_CAPACITY
    used_nodes := 1
    gap_ix :=
      { size := size, node := .heap 0 } ::
        List.replicate (MEM_GAP_IX_INIT_CAPACITY - 1) { size := 0, node := .null }
    gap_ix_capacity := MEM_GAP_IX_INIT_CAPACITY }

/-- The function `_mem_resize_pool_store` (lines 730-756).  `realloc_ok` tells
whether `realloc` succeeds; the entries that `realloc` adds are never written, and
`junk` gives what is found in them.  The function reaches its end without a
`return` after growing the store; its caller does not use the result. -/
def _mem_resize_pool_store (realloc_ok : Bool) (junk : Nat → Option Nat) (g : store_t) :
    store_t :=
  if g.pool_store_size = g.pool_store_capacity then
    if realloc_ok then
      let old := g.pool_store.getD []
      { g with
          pool_store :=
            some ((List.range (g.pool_store_capacity + MEM_POOL_STORE_INIT_CAPACITY)).map
              fun i => (old[i]?).getD (junk i))
          pool_store_capacity :=
            (g.pool_store_capacity + MEM_POOL_STORE_INIT_CAPACITY) % UINT_MOD }
    else { g with pool_store := none }
  else g

/-- The four allocations of `mem_pool_open` (lines 220, 227, 243, 255). -/
inductive open_alloc where
  | mgr
  | mem
  | node_heap
  | gap_ix
deriving DecidableEq

/-- What the environment answers to `mem_pool_open`: whether the `calloc` of
`mem_init` and the `realloc` of `_mem_resize_pool_store` succeed, what is found in
entries that `realloc` adds, the first of the four allocations of the pool that
fails, if one does, and the address of the new pool manager. -/
structure open_env where
  init_ok : Bool
  realloc_ok : Bool
  junk : Nat → Option Nat
  fails : Option open_alloc
  addr : Nat

/-- The function `mem_pool_open` (lines 181-296).  The result is the pool store
after the call and the returned pointer: null, or the address of the new pool
manager together with the manager.  When the gap index cannot be allocated,
lines 261-262 free the manager twice (`&new_pool_mgr->pool` is its address). -/
def mem_pool_open (e : open_env) (g : store_t) (size : Nat) (policy : alloc_policy) :
    Option (store_t × Option (Nat × pool_mgr_t)) :=
  let r := if g.pool_store.isNone then mem_init e.init_ok g else (g, alloc_status.ALLOC_OK)
  if g.pool_store.isNone ∧ r.2 = .ALLOC_FAIL then some (r.1, none)
  else
    match r.1.pool_store with
    | none => none
    | some _ =>
      let g2 := _mem_resize_pool_store e.realloc_ok e.junk r.1
      match e.fails with
      | some .gap_ix => none
      | some _ => some (g2, none)
      | none =>
        match g2.pool_store with
        | none => none
        | some ps =>
          if g2.pool_store_size < ps.length then
            some ({ g2 with
                      pool_store := some (ps.set g2.pool_store_size (some e.addr))
                      pool_store_size := 1 },
                  some (e.addr, new_pool_mgr size policy))
          else none

/-- The loop of lines 336-343 of `mem_pool_close`, from index `i` on (the list
argument holds `pool_store[i]`, ...; `n` is what is left of `pool_store_size - i`):
the first entry that equals `mgr` is set to null. -/
def store_clear (mgr : Nat) : List (Option Nat) → Nat → Option (List (Option Nat))
  | ps, 0 => some ps
  | [], _ + 1 => none
  | e :: rest, n + 1 =>
    if e = some mgr then some (none :: rest)
    else (store_clear mgr rest n).map fun r => e :: r

/-- The function `mem_pool_close` (lines 300-352).  The argument is null (`none`) or
the address of a pool manager together with the manager found there. -/
def mem_pool_close (g : store_t) (pool : Option (Nat × pool_mgr_t)) :
    Option (store_t × alloc_status) :=
  match pool with
  | none => some (g, .ALLOC_NOT_FREED)
  | some (addr, m) =>
    if m.pool.num_gaps ≠ 1 then some (g, .ALLOC_NOT_FREED)
    else if m.pool.num_allocs ≠ 0 then some (g, .ALLOC_NOT_FREED)
    else
      match g.pool_store with
      | none => if g.pool_store_size = 0 then some (g, .ALLOC_OK) else none
      | some ps =>
        match store_clear addr ps g.pool_store_size with
        | none => none
        | some ps1 => some ({ g with pool_store := some ps1 }, .ALLOC_OK)

/-! ## Observations on a pool -/

/-- The nodes met by following `next` from `p`, up to the first pointer that refers
to no node; `fuel` bounds the number of nodes visited. -/
def walk (m : pool_mgr_t) : Nat → node_pt → List node_pt
  | 0, _ => []
  | fuel + 1, p =>
    match node_at m p with
    | none => []
    | some n => p :: walk m fuel n.next

/-- The segment list of a pool: the nodes met by following `next` from the head,
which is `node_heap[0]`.  A list without a cycle has at most as many nodes as
exist. -/
def seg_list (m : pool_mgr_t) : List node_pt :=
  walk m (m.node_heap.length + m.ext_nodes.length) (.heap 0)

/-- The nodes of the segment list, in list order. -/
def seg_nodes (m : pool_mgr_t) : List node_t :=
  (seg_list m).filterMap (node_at m)

/-- The `(size, allocated)` pairs of the segment list, in list order. -/
def segments (m : pool_mgr_t) : List (Nat × Nat) :=
  (seg_nodes m).map fun n => (n.size, n.allocated)

/-- The sum of the sizes of the segments of the segment list. -/
def seg_total (m : pool_mgr_t) : Nat :=
  ((seg_nodes m).map fun n => n.size).sum

/-- The segments of the segment list with `allocated != 0`. -/
def allocated_segs (m : pool_mgr_t) : List node_t :=
  (seg_nodes m).filter fun n => n.allocated ≠ 0

/-- The segments of the segment list with `allocated == 0`. -/
def free_segs (m : pool_mgr_t) : List node_t :=
  (seg_nodes m).filter fun n => n.allocated = 0

/-- The entries of the gap index whose node is not null. -/
def live_gaps (m : pool_mgr_t) : List gap_t :=
  m.gap_ix.filter fun g => g.node ≠ .null

/-- Are two neighbours of the list both free (`allocated == 0`)? -/
def adjacent_free : List node_t → Bool
  | a :: b :: t =>
    (decide (a.allocated = 0) && decide (b.allocated = 0)) || adjacent_free (b :: t)
  | _ => false

/-- No two neighbours of the segment list are both free. -/
def no_adjacent_free (m : pool_mgr_t) : Prop :=
  adjacent_free (seg_nodes m) = false

instance (m : pool_mgr_t) : Decidable (no_adjacent_free m) :=
  inferInstanceAs (Decidable (_ = false))

/-- The segments that `mem_inspect_pool` reports when its `malloc` succeeds. -/
def inspected (m : pool_mgr_t) : Option (List (Nat × Nat)) :=
  (mem_inspect_pool true m).bind fun r => r.map Prod.fst

/-- A call of `mem_new_alloc` or of `mem_del_alloc` on a pool. -/
inductive call where
  | new_alloc (malloc_ok : Bool) (size : Nat)
  | del_alloc (alloc : node_pt)

/-- The pool manager after a sequence of calls, whatever they return. -/
def run : List call → pool_mgr_t → Option pool_mgr_t
  | [], m => some m
  | .new_alloc ok size :: cs, m => (mem_new_alloc ok m size).bind fun r => run cs r.1
  | .del_alloc p :: cs, m => (mem_del_alloc m p).bind fun r => run cs r.1

/-! ## Doubly linked lists in the node heap -/

/-- The address of the first node of `t`, or `q` when `t` is empty. -/
def first_ptr (t : List Nat) (q : node_pt) : node_pt :=
  match t with
  | [] => q
  | b :: _ => .heap b

/-- The address of the last node of `l`, or `p` when `l` is empty. -/
def last_ptr (l : List Nat) (p : node_pt) : node_pt :=
  match l with
  | [] => p
  | a :: t => last_ptr t (.heap a)

/-- Do the nodes `node_heap[a]`, for `a` in `l`, form a piece of a doubly linked
list: every `next` is the address of the node after it, or `q` for the last
node; every `prev` is the address of the node before it, or `p` for the first
node? -/
def linkedb (h : List node_t) : node_pt → List Nat → node_pt → Bool
  | _, [], _ => true
  | p, a :: t, q =>
    match h[a]? with
    | none => false
    | some n => decide (n.prev = p) && decide (n.next = first_ptr t q) && linkedb h (.heap a) t q

/-- The nodes `l` of the node heap `h` form a piece of a doubly linked list
between `p` and `q`.  `linked m.node_heap null l null` says that `l` is the whole
segment list of `m`, in list order. -/
def linked (h : List node_t) (p : node_pt) (l : List Nat) (q : node_pt) : Prop :=
  linkedb h p l q = true

instance (h : List node_t) (p : node_pt) (l : List Nat) (q : node_pt) :
    Decidable (linked h p l q) :=
  inferInstanceAs (Decidable (_ = true))

/-- The `prev` and `next` fields of a node. -/
def links (n : node_t) : node_pt × node_pt := (n.prev, n.next)

/-- The `allocated` field of a node. -/
def alloc_flag (n : node_t) : Nat := n.allocated

/-- What the first-fit scan of `mem_new_alloc` reads of a node. -/
def scan_key (n : node_t) : Nat × Nat × Nat := (n.size, n.allocated, n.used)

/-- The `allocated` fields of the nodes `l` of the node heap. -/
def flags (h : List node_t) (l : List Nat) : List Nat :=
  l.filterMap fun i => (h[i]?).map alloc_flag

/-- Two `allocated` fields that are not both zero. -/
def not_both_free (a b : Nat) : Prop := ¬ (a = 0 ∧ b = 0)

/-! ## The scenarios of the claims -/

/-- The calls that bring a fresh `BEST_FIT` pool of 100 bytes to the layout
`Free(10), Allocated(5), Free(20), Allocated(5), Allocated(55), Free(5)`. -/
def three_gaps : List call :=
  [.new_alloc true 10, .new_alloc true 5, .new_alloc true 20, .new_alloc true 5,
   .del_alloc (.heap 0), .del_alloc (.heap 2), .new_alloc true 55]

/-- Thirty-nine allocations of one byte each: on a fresh pool of 40 bytes they
leave forty segments, the last of them a gap of one byte, and no unused node. -/
def fill_heap : List call :=
  List.replicate 39 (.new_alloc true 1)

/-- The calls that bring a fresh `FIRST_FIT` pool of 100 bytes to the layout
`Free(10), Allocated(20), Free(70)`. -/
def gap_on_both_sides : List call :=
  [.new_alloc true 10, .new_alloc true 20, .new_alloc true 30, .del_alloc (.heap 0),
   .del_alloc (.heap 2)]

/-- The pool manager after the calls `cs` on a fresh pool; the fresh pool itself when
the calls have no defined result. -/
def pool_after (cs : List call) (size : Nat) (policy : alloc_policy) : pool_mgr_t :=
  (run cs (new_pool_mgr size policy)).getD (new_pool_mgr size policy)

/-- The pool manager that `mem_del_alloc` leaves; `m` itself when the call has no
defined result. -/
def after_del (m : pool_mgr_t) (alloc : node_pt) : pool_mgr_t :=
  ((mem_del_alloc m alloc).map Prod.fst).getD m

/-- The pool manager that `mem_new_alloc` leaves when its `malloc` succeeds; `m`
itself when the call has no defined result. -/
def after_new (m : pool_mgr_t) (size : Nat) : pool_mgr_t :=
  ((mem_new_alloc true m size).map Prod.fst).getD m

/-! ## Deallocation in the words of the specification -/

/-- The `(size, allocated)` pair of a node. -/
def seg_pair (n : node_t) : Nat × Nat := (n.size, n.allocated)

/-- The `(size, allocated)` pairs of the nodes `l` of the node heap. -/
def pairs (h : List node_t) (l : List Nat) : List (Nat × Nat) :=
  l.filterMap fun i => (h[i]?).map seg_pair

/-- The size of a segment that exists and is free. -/
def free_size (s : Option (Nat × Nat)) : Option Nat :=
  match s with
  | some (size, allocated) => if allocated = 0 then some size else none
  | none => none

/-- Deallocation in the words of the specification, on `(size, allocated)` pairs:
`before` holds the segments in front of the released segment, `size` is its size,
`after` holds the segments behind it.  The run made of the segment in front (if
there is one and it is free), the released segment, and the segment behind (if
there is one and it is free) is replaced by one free segment whose size is the sum
of the sizes of the run. -/
def merge_run (before : List (Nat × Nat)) (size : Nat) (after : List (Nat × Nat)) :
    List (Nat × Nat) :=
  let p := free_size before.getLast?
  let n := free_size after.head?
  (if p.isSome then before.dropLast else before) ++
    (p.getD 0 + size + n.getD 0, 0) :: (if n.isSome then after.tail else after)

/-! ## A gap index that is ready for a deallocation -/

/-- The gap index of `m` has room for one more entry: its capacity is positive and
an `unsigned`, `num_gaps` is below the capacity and is the number of live entries,
and the array has an entry after the first `num_gaps + 1`. -/
def gap_room (m : pool_mgr_t) : Prop :=
  0 < m.gap_ix_capacity ∧ m.gap_ix_capacity < UINT_MOD ∧
    m.pool.num_gaps < m.gap_ix_capacity ∧ m.pool.num_gaps + 1 < m.gap_ix.length ∧
    m.pool.num_gaps = (live_gaps m).length

instance (m : pool_mgr_t) : Decidable (gap_room m) :=
  inferInstanceAs (Decidable (_ ∧ _))

/-- Every free node among the nodes `l` of the node heap has an entry in the gap
index. -/
def gaps_listed (m : pool_mgr_t) (l : List Nat) : Prop :=
  ∀ j ∈ l, (m.node_heap[j]?).map alloc_flag = some 0 → ∃ e ∈ m.gap_ix, e.node = .heap j

instance (m : pool_mgr_t) (l : List Nat) : Decidable (gaps_listed m l) :=
  inferInstanceAs (Decidable (∀ j ∈ l, _))

/-! ## Sequences of calls on the pool store -/

/-- A call of `mem_pool_open` or of `mem_pool_close`.  A close names the pool by the
address of its manager and carries the manager that is found there at the time of
the call; `pool_close_null` is the call `mem_pool_close(NULL)`. -/
inductive store_call where
  | pool_open (e : open_env) (size : Nat) (policy : alloc_policy)
  | pool_close (addr : Nat) (m : pool_mgr_t)
  | pool_close_null

/-- One call on the pool store `s.1`; `s.2` lists the addresses of the pools that are
open.  An open that returns a pool adds its address, which is the address of no pool
that is open (`calloc` returns a block that is not in use); a close is made on a
pool that is open and removes it when it returns `ALLOC_OK`. -/
def store_step (s : store_t × List Nat) : store_call → Option (store_t × List Nat)
  | .pool_open e size policy =>
    match mem_pool_open e s.1 size policy with
    | none => none
    | some (g, none) => some (g, s.2)
    | some (g, some (a, _)) => if a ∈ s.2 then none else some (g, a :: s.2)
  | .pool_close addr m =>
    if addr ∈ s.2 then
      match mem_pool_close s.1 (some (addr, m)) with
      | none => none
      | some (g, st) => some (g, if st = .ALLOC_OK then s.2.erase addr else s.2)
    else none
  | .pool_close_null =>
    match mem_pool_close s.1 none with
    | none => none
    | some (g, _) => some (g, s.2)

/-- The pool store and the open pools after a sequence of calls. -/
def store_run : List store_call → store_t × List Nat → Option (store_t × List Nat)
  | [], s => some s
  | c :: cs, s => (store_step s c).bind (store_run cs)

/-- What the calls of `mem_pool_open` and `mem_pool_close` keep true of the pool
store `s.1` and the open pools `s.2`: without a store no pool is open; a store has
as many entries as its capacity says, two at least, and `pool_store_size` is 0 or 1;
and either entry 1 holds a pool manager, or entry 0 holds the only open pool, or
entry 0 is null and no pool is open. -/
def store_inv (s : store_t × List Nat) : Prop :=
  match s.1.pool_store with
  | none => s.2 = []
  | some ps =>
    s.1.pool_store_capacity = ps.length ∧ 2 ≤ ps.length ∧ s.1.pool_store_size ≤ 1 ∧
    ((∃ b, ps[1]? = some (some b)) ∨
     (s.1.pool_store_size = 1 ∧ ∃ a, ps[0]? = some (some a) ∧ s.2 = [a]) ∨
     (ps[0]? = some none ∧ s.2 = []))

/-! ## More scenarios -/

/-- The environment of a `mem_pool_open` in which every allocation succeeds and the
new pool manager is placed at address `addr`. -/
def plain_env (addr : Nat) : open_env :=
  { init_ok := true, realloc_ok := true, junk := fun _ => none, fails := none, addr := addr }

/-- The pool store before the first call of the library: the static variables hold
their initial values. -/
def store_start : store_t :=
  { pool_store := none, pool_store_size := 0, pool_store_capacity := 0 }

/-- The calls of the coalescing scenario: two allocations, of 300 and of 200 bytes,
then the release of the first (`&node_heap[0]`) and of the second (`&node_heap[1]`). -/
def coalescing : List call :=
  [.new_alloc true 300, .new_alloc true 200, .del_alloc (.heap 0), .del_alloc (.heap 1)]

/-- Two pools are opened one after the other, at the addresses 7 and 8, and then
both are closed, the first one first: the two handles returned, the statuses of the
two calls of `mem_pool_close`, and the pool store after them. -/
def two_pools_closed : Option ((Option Nat × Option Nat) × (alloc_status × alloc_status) × store_t) :=
  (mem_pool_open (plain_env 7) store_start 100 .FIRST_FIT).bind fun r1 =>
    (mem_pool_open (plain_env 8) r1.1 100 .FIRST_FIT).bind fun r2 =>
      (mem_pool_close r2.1 r1.2).bind fun c1 =>
        (mem_pool_close c1.1 r2.2).map fun c2 =>
          ((r1.2.map Prod.fst, r2.2.map Prod.fst), (c1.2, c2.2), c2.1)

/-! ## The order of the gap index -/

/-- Are the sizes of the entries in non-increasing order? -/
def size_descending : List gap_t → Bool
  | a :: b :: t => decide (b.size ≤ a.size) && size_descending (b :: t)
  | _ => true

/-- The gap index of `m` is dense and sorted: its first `num_gaps` entries are live
(their node is not null) and their sizes are in non-increasing order, and every
entry after them is zeroed (size 0, null node), as `calloc` and
`_mem_remove_from_gap_ix` leave an entry. -/
def dense_sorted (m : pool_mgr_t) : Prop :=
  m.pool.num_gaps ≤ m.gap_ix.length ∧
    (∀ e ∈ m.gap_ix.take m.pool.num_gaps, e.node ≠ .null) ∧
    (∀ e ∈ m.gap_ix.drop m.pool.num_gaps, e = ⟨0, .null⟩) ∧
    size_descending (m.gap_ix.take m.pool.num_gaps) = true

instance (m : pool_mgr_t) : Decidable (dense_sorted m) :=
  inferInstanceAs (Decidable (_ ∧ _))

/-! ## Scenarios on the gap index and on the growth of the arrays -/

/-- The calls that bring a fresh pool of 100 bytes to the layout
`Free(10), Allocated(10), Allocated(10), Free(70)`, with the gap index
`(70, node_heap[3]), (10, node_heap[0])`, and then allocate the 70 bytes. -/
def hole_in_index : List call :=
  [.new_alloc true 10, .new_alloc true 10, .new_alloc true 10, .del_alloc (.heap 0),
   .new_alloc true 70]

/-- The calls that bring a fresh pool of 100 bytes to the layout
`Free(10), Allocated(10), Allocated(10), Allocated(10), Free(60)`, with the gap index
`(60, node_heap[4]), (10, node_heap[0])`. -/
def equal_gaps : List call :=
  [.new_alloc true 10, .new_alloc true 10, .new_alloc true 10, .new_alloc true 10,
   .del_alloc (.heap 0)]

/-- Thirty allocations of one byte each: on a fresh pool of 100 bytes they leave 31
segments, in a node heap of 40 nodes. -/
def thirty_allocs : List call :=
  List.replicate 30 (.new_alloc true 1)

/-- One allocation of the whole of a pool of 100 bytes, and then 31 calls of
`mem_del_alloc` on its handle: each of them returns `ALLOC_OK` and adds an entry to
the gap index. -/
def repeated_release : List call :=
  .new_alloc true 100 :: List.replicate 31 (.del_alloc (.heap 0))

/-- The calls of `equal_gaps` and the release of `node_heap[2]`: the layout is
`Free(10), Allocated(10), Free(10), Allocated(10), Free(60)`, with the gap index
`(60, node_heap[4]), (10, node_heap[0]), (10, node_heap[2])`. -/
def two_equal_gaps : List call :=
  equal_gaps ++ [.del_alloc (.heap 2)]

/-! # Theorems -/

set_option maxRecDepth 100000

/-! ## The scenarios of the claims, evaluated -/

/-- C1: conservation fails on the code.  After `mem_pool_open(100, BEST_FIT)`,
`mem_new_alloc(pool, 40)` and `mem_new_alloc(pool, 70)` the segment list is
`Allocated(40), Allocated(70), Free(2^64 - 10)`: its sizes sum to `2^64 + 100`, not
to the 100 bytes of the pool. -/
theorem conservation_broken_by_oversize_best_fit :
    (run [.new_alloc true 40, .new_alloc true 70] (new_pool_mgr 100 .BEST_FIT)).map
        (fun m => (m.pool.total_size, segments m, seg_total m))
      = some (100, [(40, 1), (70, 1), (2 ^ 64 - 10, 0)], 2 ^ 64 + 100) := by
  decide

/-- C3: best-fit minimality fails on the code.  In the `BEST_FIT` pool reached by
`three_gaps` the free segments are `node_heap[0]` (10 bytes), `node_heap[2]`
(20 bytes) and `node_heap[5]` (5 bytes), the gap index holds them in the order
20, 5, 10, and a request of 8 bytes is given `node_heap[2]` although the free
segment `node_heap[0]` is large enough and strictly smaller. -/
theorem best_fit_picks_larger_gap :
    (run three_gaps (new_pool_mgr 100 .BEST_FIT)).bind
        (fun m => (mem_new_alloc true m 8).map fun r =>
          (seg_list m, segments m, live_gaps m, r.2))
      = some ([.heap 0, .heap 1, .heap 2, .heap 3, .heap 4, .heap 5],
              [(10, 0), (5, 1), (20, 0), (5, 1), (55, 1), (5, 0)],
              [⟨20, .heap 2⟩, ⟨5, .heap 5⟩, ⟨10, .heap 0⟩],
              .heap 2) := by
  decide

/-- C4: a best-fit request that no gap can hold is not refused.  On a `BEST_FIT`
pool of 100 bytes with 40 bytes allocated the only free segment has 60 bytes, and
`mem_new_alloc(pool, 70)` returns `&node_heap[1]`, that segment, instead of
`NULL`. -/
theorem best_fit_no_fit_not_refused :
    (run [.new_alloc true 40] (new_pool_mgr 100 .BEST_FIT)).bind
        (fun m => (mem_new_alloc true m 70).map fun r => (segments m, r.2))
      = some ([(40, 1), (60, 0)], .heap 1) := by
  decide

/-- C6: a first-fit request on a pool without a free segment is not answered with
`NULL`.  After `mem_pool_open(100, FIRST_FIT)` and `mem_new_alloc(pool, 100)` the
only segment is `Allocated(100)` and the gap index is empty; the scan of
`mem_new_alloc(pool, 1)` then finds no node to stop at and reads past the end of
the node heap, so the call has no defined result. -/
theorem first_fit_full_pool_overruns :
    (run [.new_alloc true 100] (new_pool_mgr 100 .FIRST_FIT)).map
        (fun m => (segments m, live_gaps m, mem_new_alloc true m 1))
      = some ([(100, 1)], [], none) := by
  decide

/-- C7: the round trip fails on the code.  In the `FIRST_FIT` pool of 40 bytes
reached by `fill_heap` there are forty segments and no unused node, so
`mem_new_alloc(pool, 1)` first grows the node heap; it returns `&node_heap[39]`,
`mem_del_alloc` on it returns `ALLOC_OK`, and the segment list then has 119
entries (the gap `node_heap[39]` is no longer reached, 80 new nodes are) where
it had 40.  `mem_inspect_pool`, which reports `used_nodes` segments, reports
`Free(0)` as the last of them where it reported `Free(1)`. -/
theorem round_trip_broken_by_heap_growth :
    (run fill_heap (new_pool_mgr 40 .FIRST_FIT)).bind
        (fun m => (mem_new_alloc true m 1).bind fun r =>
          (mem_del_alloc r.1 r.2).map fun q =>
            (segments m, r.2, q.2, (segments q.1).length,
             decide (segments q.1 = segments m),
             decide (node_pt.heap 39 ∈ seg_list q.1)))
      = some (List.replicate 39 (1, 1) ++ [(1, 0)], .heap 39, .ALLOC_OK, 119, false,
              false) ∧
    (run fill_heap (new_pool_mgr 40 .FIRST_FIT)).bind
        (fun m => (mem_new_alloc true m 1).bind fun r =>
          (mem_del_alloc r.1 r.2).map fun q => (inspected m, inspected q.1))
      = some (some (List.replicate 39 (1, 1) ++ [(1, 0)]),
              some (List.replicate 39 (1, 1) ++ [(0, 0)])) :=
  ⟨by decide, by decide⟩

/-- C8: the accounting of allocations fails on the code.  After `fill_heap` and
one more `mem_new_alloc(pool, 1)` on a `FIRST_FIT` pool of 40 bytes, `alloc_size`
and `num_allocs` are both 40, and the segment list holds 39 allocated segments,
of 39 bytes together; so does the list that `mem_inspect_pool` reports. -/
theorem alloc_accounting_broken_by_heap_growth :
    (run (fill_heap ++ [.new_alloc true 1]) (new_pool_mgr 40 .FIRST_FIT)).map
        (fun m => (m.pool.alloc_size, m.pool.num_allocs,
                   ((allocated_segs m).map fun n => n.size).sum, (allocated_segs m).length))
      = some (40, 40, 39, 39) ∧
    (run (fill_heap ++ [.new_alloc true 1]) (new_pool_mgr 40 .FIRST_FIT)).bind inspected
      = some (List.replicate 39 (1, 1) ++ [(0, 0)]) := by
  decide

/-- C9: the accounting of gaps fails on the code.  After `fill_heap` and one more
`mem_new_alloc(pool, 1)` on a `FIRST_FIT` pool of 40 bytes, `num_gaps` is 0 and the
gap index has no live entry, and the segment list holds 80 free segments; the
list that `mem_inspect_pool` reports holds one. -/
theorem gap_accounting_broken_by_heap_growth :
    (run (fill_heap ++ [.new_alloc true 1]) (new_pool_mgr 40 .FIRST_FIT)).map
        (fun m => (m.pool.num_gaps, (live_gaps m).length, (free_segs m).length))
      = some (0, 0, 80) ∧
    (run (fill_heap ++ [.new_alloc true 1]) (new_pool_mgr 40 .FIRST_FIT)).bind inspected
      = some (List.replicate 39 (1, 1) ++ [(0, 0)]) := by
  decide

/-! ## Closing a pool -/

/-- The loop of `mem_pool_close` stays inside a pool store that has at least
`pool_store_size` entries. -/
theorem store_clear_total (mgr : Nat) :
    ∀ (ps : List (Option Nat)) (n : Nat), n ≤ ps.length → ∃ r, store_clear mgr ps n = some r := by
  intro ps
  induction ps with
  | nil =>
    intro n hn
    have : n = 0 := by simpa using hn
    subst this
    exact ⟨[], rfl⟩
  | cons e rest ih =>
    intro n hn
    cases n with
    | zero => exact ⟨e :: rest, rfl⟩
    | succ k =>
      have hk : k ≤ rest.length := by simpa using hn
      obtain ⟨r, hr⟩ := ih k hk
      by_cases he : e = some mgr
      · exact ⟨none :: rest, by simp [store_clear, he]⟩
      · exact ⟨e :: r, by simp [store_clear, he, hr]⟩

/-- C10: on a non-null pool handle `mem_pool_close` returns `ALLOC_NOT_FREED`, and
leaves the pool store as it is, when `num_allocs > 0` or `num_gaps != 1`; in every
other state it does not return `ALLOC_NOT_FREED`, and it returns `ALLOC_OK` (the
pool store being an array of at least `pool_store_size` entries, as `mem_init`
makes it). -/
theorem mem_pool_close_status (g : store_t) (addr : Nat) (m : pool_mgr_t) :
    ((0 < m.pool.num_allocs ∨ m.pool.num_gaps ≠ 1) →
        mem_pool_close g (some (addr, m)) = some (g, .ALLOC_NOT_FREED)) ∧
    (¬ (0 < m.pool.num_allocs ∨ m.pool.num_gaps ≠ 1) →
        (∀ g', mem_pool_close g (some (addr, m)) ≠ some (g', .ALLOC_NOT_FREED)) ∧
        ∀ ps, g.pool_store = some ps → g.pool_store_size ≤ ps.length →
          ∃ g', mem_pool_close g (some (addr, m)) = some (g', .ALLOC_OK)) := by
  refine ⟨?_, ?_⟩
  · intro h
    by_cases hg : m.pool.num_gaps = 1
    · have ha : m.pool.num_allocs ≠ 0 := by
        rcases h with h | h
        · exact Nat.pos_iff_ne_zero.mp h
        · exact absurd hg h
      simp [mem_pool_close, hg, ha]
    · simp [mem_pool_close, hg]
  · intro h
    have hg : m.pool.num_gaps = 1 := by
      by_contra hc
      exact h (Or.inr hc)
    have ha : m.pool.num_allocs = 0 := by
      by_contra hc
      exact h (Or.inl (Nat.pos_iff_ne_zero.mpr hc))
    refine ⟨?_, ?_⟩
    · intro g' hcl
      simp only [mem_pool_close, hg, ha, ne_eq, not_true_eq_false, if_false] at hcl
      cases hps : g.pool_store with
      | none =>
        rw [hps] at hcl
        by_cases hz : g.pool_store_size = 0
        · simp [hz] at hcl
        · simp [hz] at hcl
      | some ps =>
        rw [hps] at hcl
        cases hc : store_clear addr ps g.pool_store_size with
        | none => simp [hc] at hcl
        | some r => simp [hc] at hcl
    · intro ps hps hle
      obtain ⟨r, hr⟩ := store_clear_total addr ps g.pool_store_size hle
      exact ⟨{ g with pool_store := some r }, by simp [mem_pool_close, hg, ha, hps, hr]⟩

/-! ## First fit -/

/-- Replacing an entry by one with the same key does not change the keys. -/
theorem map_set_same_key {α β : Type} (f : α → β) (g : α → α) (hg : ∀ a, f (g a) = f a) :
    ∀ (l : List α) (i : Nat) (a : α), l[i]? = some a → (l.set i (g a)).map f = l.map f := by
  intro l
  induction l with
  | nil => intro i a h; simp at h
  | cons x rest ih =>
    intro i a h
    cases i with
    | zero =>
      simp at h
      subst h
      simp [hg]
    | succ j =>
      simp at h
      simp [ih j a h]

/-- An update that keeps `size`, `allocated` and `used` keeps what the scan reads. -/
theorem node_upd_scan_key (m m' : pool_mgr_t) (p : node_pt) (f : node_t → node_t)
    (hf : ∀ n, scan_key (f n) = scan_key n) (h : node_upd m p f = some m') :
    m'.pool = m.pool ∧ m'.gap_ix = m.gap_ix ∧
      m'.node_heap.map scan_key = m.node_heap.map scan_key := by
  cases p with
  | null => simp [node_upd] at h
  | wild => simp [node_upd] at h
  | heap i =>
    unfold node_upd at h
    cases hn : m.node_heap[i]? with
    | none => simp [hn] at h
    | some n =>
      simp only [hn, Option.some.injEq] at h
      subst h
      exact ⟨rfl, rfl, map_set_same_key scan_key f hf _ _ _ hn⟩
  | ext i =>
    unfold node_upd at h
    cases hn : m.ext_nodes[i]? with
    | none => simp [hn] at h
    | some n =>
      simp only [hn, Option.some.injEq] at h
      subst h
      exact ⟨rfl, rfl, rfl⟩

/-- The growth of the node heap changes neither the pool record nor the gap index
nor what the first-fit scan reads of the node heap. -/
theorem resize_node_heap_scan_key (ok : Bool) (m m1 : pool_mgr_t) (st : alloc_status)
    (h : _mem_resize_node_heap ok m = some (m1, st)) :
    m1.pool = m.pool ∧ m1.gap_ix = m.gap_ix ∧
      m1.node_heap.map scan_key = m.node_heap.map scan_key := by
  unfold _mem_resize_node_heap at h
  by_cases hc : 3 * m.total_nodes < 4 * m.used_nodes
  · rw [if_pos hc] at h
    cases ok with
    | false =>
      simp at h
      obtain ⟨h1, _⟩ := h
      subst h1
      exact ⟨rfl, rfl, rfl⟩
    | true =>
      simp only [if_true] at h
      split at h
      · simp at h
      · rename_i last hl
        split at h
        · simp at h
        · rename_i m2 hu
          simp only [Option.some.injEq, Prod.mk.injEq] at h
          obtain ⟨h1, _⟩ := h
          subst h1
          have := node_upd_scan_key _ m2 last _ (by intro n; rfl) hu
          exact this
  · rw [if_neg hc] at h
    simp at h
    obtain ⟨h1, _⟩ := h
    subst h1
    exact ⟨rfl, rfl, rfl⟩

/-- The handle `place_alloc` returns is the node it was given. -/
theorem place_alloc_returns (m m' : pool_mgr_t) (p q : node_pt) (size : Nat)
    (h : place_alloc m p size = some (m', q)) : q = p := by
  unfold place_alloc at h
  simp only [Option.bind_eq_some] at h
  obtain ⟨n, _, r, _, m3, _, h⟩ := h
  split at h
  · simp only [Option.bind_eq_some] at h
    obtain ⟨m4, _, h⟩ := h
    simp only [Option.some.injEq, Prod.mk.injEq] at h
    exact h.2.symm
  · simp only [Option.some.injEq, Prod.mk.injEq] at h
    exact h.2.symm

/-- A non-null handle returned by `mem_new_alloc` is the node that `select_node`
chose, after the node heap was grown if it had to be. -/
theorem mem_new_alloc_selected (ok : Bool) (m m' : pool_mgr_t) (size : Nat) (p : node_pt)
    (hp : p ≠ .null) (h : mem_new_alloc ok m size = some (m', p)) :
    ∃ m1, m1.pool = m.pool ∧ m1.gap_ix = m.gap_ix ∧
      m1.node_heap.map scan_key = m.node_heap.map scan_key ∧
      select_node m1 size = some p := by
  unfold mem_new_alloc at h
  split at h
  · simp at h
  · split at h
    · simp at h
    · rename_i m1 st hres
      have hm1 : m1.pool = m.pool ∧ m1.gap_ix = m.gap_ix ∧
          m1.node_heap.map scan_key = m.node_heap.map scan_key := by
        split at hres
        · exact resize_node_heap_scan_key ok m m1 st hres
        · simp only [Option.some.injEq, Prod.mk.injEq] at hres
          obtain ⟨h1, _⟩ := hres
          subst h1
          exact ⟨rfl, rfl, rfl⟩
      split at h
      · simp only [Option.some.injEq, Prod.mk.injEq] at h
        exact absurd h.2.symm hp
      · split at h
        · simp only [Option.some.injEq, Prod.mk.injEq] at h
          exact absurd h.2.symm hp
        · split at h
          · simp at h
          · rename_i new_node hsel
            split at h
            · simp only [Option.some.injEq, Prod.mk.injEq] at h
              exact absurd h.2.symm hp
            · have := place_alloc_returns _ _ _ _ _ h
              subst this
              exact ⟨m1, hm1.1, hm1.2.1, hm1.2.2, hsel⟩

/-- The empty piece is linked. -/
theorem linked_nil (h : List node_t) (p q : node_pt) : linked h p [] q := by
  simp [linked, linkedb]

/-- Unfolding `linked` at the first node. -/
theorem linked_cons (h : List node_t) (p q : node_pt) (a : Nat) (t : List Nat) :
    linked h p (a :: t) q ↔
      ∃ n, h[a]? = some n ∧ n.prev = p ∧ n.next = first_ptr t q ∧ linked h (.heap a) t q := by
  unfold linked
  rw [linkedb]
  cases hn : h[a]? with
  | none => simp
  | some n => simp [and_assoc]

/-- A piece splits into two linked pieces at any place. -/
theorem linked_append (h : List node_t) (q : node_pt) (l2 : List Nat) :
    ∀ (l1 : List Nat) (p : node_pt),
      linked h p (l1 ++ l2) q ↔
        linked h p l1 (first_ptr l2 q) ∧ linked h (last_ptr l1 p) l2 q := by
  intro l1
  induction l1 with
  | nil =>
    intro p
    simp [linked_nil, last_ptr]
  | cons a t ih =>
    intro p
    have hf : first_ptr (t ++ l2) q = first_ptr t (first_ptr l2 q) := by
      cases t <;> simp [first_ptr]
    simp only [List.cons_append, linked_cons, ih, hf, last_ptr]
    constructor
    · rintro ⟨n, h1, h2, h3, h4, h5⟩
      exact ⟨⟨n, h1, h2, h3, h4⟩, h5⟩
    · rintro ⟨⟨n, h1, h2, h3, h4⟩, h5⟩
      exact ⟨n, h1, h2, h3, h4, h5⟩

/-- The nodes of a linked piece are inside the node heap. -/
theorem linked_valid (h : List node_t) (q : node_pt) :
    ∀ (l : List Nat) (p : node_pt), linked h p l q → ∀ a ∈ l, a < h.length := by
  intro l
  induction l with
  | nil => intro p _ a ha; simp at ha
  | cons b t ih =>
    intro p hl a ha
    rw [linked_cons] at hl
    obtain ⟨n, h1, _, _, h4⟩ := hl
    rcases List.mem_cons.mp ha with rfl | ha
    · exact (List.getElem?_eq_some.mp h1).1
    · exact ih _ h4 a ha

/-- Distinct numbers below `n` are at most `n`. -/
theorem nodup_bounded_length (n : Nat) (l : List Nat) (hnd : l.Nodup)
    (hb : ∀ a ∈ l, a < n) : l.length ≤ n := by
  have h1 : l.toFinset ⊆ Finset.range n := by
    intro a ha
    simp only [List.mem_toFinset] at ha
    simpa using hb a ha
  have h2 := Finset.card_le_card h1
  rw [List.toFinset_card_of_nodup hnd] at h2
  simpa using h2

/-- Following `next` through a linked list that ends with null visits exactly its
nodes. -/
theorem walk_linked (m : pool_mgr_t) :
    ∀ (l : List Nat) (p : node_pt) (fuel : Nat), l.length ≤ fuel →
      linked m.node_heap p l .null → walk m fuel (first_ptr l .null) = l.map node_pt.heap := by
  intro l
  induction l with
  | nil =>
    intro p fuel _ _
    cases fuel <;> simp [walk, first_ptr, node_at]
  | cons a t ih =>
    intro p fuel hf hl
    rw [linked_cons] at hl
    obtain ⟨n, h1, _, h3, h4⟩ := hl
    cases fuel with
    | zero => simp at hf
    | succ k =>
      have hk : t.length ≤ k := by simpa using hf
      have hfp : first_ptr (a :: t) .null = .heap a := rfl
      rw [hfp]
      simp only [walk, node_at, h1, List.map_cons]
      rw [h3, ih _ k hk h4]

/-- The node heap after a write through a pointer. -/
theorem node_upd_get (m m' : pool_mgr_t) (p : node_pt) (f : node_t → node_t)
    (h : node_upd m p f = some m') (j : Nat) :
    m'.node_heap[j]? =
      if node_pt.heap j = p then (m.node_heap[j]?).map f else m.node_heap[j]? := by
  cases p with
  | null => simp [node_upd] at h
  | wild => simp [node_upd] at h
  | ext i =>
    unfold node_upd at h
    cases hn : m.ext_nodes[i]? with
    | none => simp [hn] at h
    | some n =>
      simp only [hn, Option.some.injEq] at h
      subst h
      simp
  | heap i =>
    unfold node_upd at h
    cases hn : m.node_heap[i]? with
    | none => simp [hn] at h
    | some n =>
      simp only [hn, Option.some.injEq] at h
      subst h
      by_cases hji : j = i
      · subst hji
        have hlt : j < m.node_heap.length := (List.getElem?_eq_some.mp hn).1
        simp [hn, hlt]
      · have hne : i ≠ j := fun e => hji e.symm
        simp [hji, List.getElem?_set_ne hne]

/-- The removal from the gap index leaves the nodes as they are. -/
theorem remove_from_gap_ix_heap (m : pool_mgr_t) (size : Nat) (p : node_pt)
    (r : pool_mgr_t × alloc_status) (h : _mem_remove_from_gap_ix m size p = some r) :
    r.1.node_heap = m.node_heap ∧ r.1.ext_nodes = m.ext_nodes := by
  unfold _mem_remove_from_gap_ix at h
  split at h
  · simp at h
  · simp only [Option.some.injEq] at h
    subst h
    exact ⟨rfl, rfl⟩

/-- The growth of the gap index leaves the nodes as they are. -/
theorem resize_gap_ix_heap (m : pool_mgr_t) (r : pool_mgr_t × alloc_status)
    (h : _mem_resize_gap_ix m = some r) :
    r.1.node_heap = m.node_heap ∧ r.1.ext_nodes = m.ext_nodes := by
  unfold _mem_resize_gap_ix at h
  split at h
  · simp at h
  · split at h
    · simp only [Option.some.injEq] at h
      subst h
      exact ⟨rfl, rfl⟩
    · simp only [Option.some.injEq] at h
      subst h
      exact ⟨rfl, rfl⟩

/-- The sort of the gap index leaves the nodes as they are. -/
theorem sort_gap_ix_heap (m : pool_mgr_t) (r : pool_mgr_t × alloc_status)
    (h : _mem_sort_gap_ix m = some r) :
    r.1.node_heap = m.node_heap ∧ r.1.ext_nodes = m.ext_nodes := by
  unfold _mem_sort_gap_ix at h
  simp only at h
  split at h
  · simp only [Option.some.injEq] at h
    subst h
    exact ⟨rfl, rfl⟩
  · split at h
    · simp only [Option.some.injEq] at h
      subst h
      exact ⟨rfl, rfl⟩
    · simp at h

/-- The insertion into the gap index leaves the nodes as they are. -/
theorem add_to_gap_ix_heap (m : pool_mgr_t) (size : Nat) (p : node_pt)
    (r : pool_mgr_t × alloc_status) (h : _mem_add_to_gap_ix m size p = some r) :
    r.1.node_heap = m.node_heap ∧ r.1.ext_nodes = m.ext_nodes := by
  unfold _mem_add_to_gap_ix at h
  cases hres : _mem_resize_gap_ix m with
  | none => simp [hres] at h
  | some r1 =>
    have h1 := resize_gap_ix_heap m r1 hres
    simp only [hres] at h
    cases hsc : gap_scan .null r1.1.gap_ix 0 with
    | none => simp [hsc] at h
    | some i =>
      simp only [hsc] at h
      by_cases hp : p ≠ .null
      · simp only [hp, if_true, ne_eq, not_false_eq_true] at h
        split at h
        · rename_i m3 st3 hs
          simp only [Option.some.injEq] at h
          subst h
          have h3 := sort_gap_ix_heap _ _ hs
          exact ⟨h3.1.trans h1.1, h3.2.trans h1.2⟩
        · simp at h
      · simp only [hp, if_false] at h
        simp only [Option.some.injEq] at h
        subst h
        exact h1

/-- The node heap after `merge_next` of the node `x` with its successor `n`. -/
theorem merge_next_get (m m' : pool_mgr_t) (x n : Nat) (nn : node_t)
    (hxn : x ≠ n) (hn : m.node_heap[n]? = some nn)
    (hcx : nn.next ≠ .heap x) (hcn : nn.next ≠ .heap n)
    (h : merge_next m (.heap x) (.heap n) = some m') (j : Nat) :
    m'.node_heap[j]? =
      if j = n then some { nn with used := 0, next := .null, prev := .null }
      else if j = x then
        (m.node_heap[x]?).map fun r =>
          { r with size := (r.size + nn.size) % SIZE_MOD, next := nn.next }
      else if node_pt.heap j = nn.next then
        (m.node_heap[j]?).map fun r => { r with prev := .heap x }
      else m.node_heap[j]? := by
  unfold merge_next at h
  simp only [Option.bind_eq_some] at h
  obtain ⟨r, hr, nx, hnx, m2, hm2, m3, hm3, nx1, hnx1, m6, hm6, m7, hm7, hm8⟩ := h
  have er := (remove_from_gap_ix_heap _ _ _ _ hr).1
  have g2 := node_upd_get _ _ _ _ hm2
  have g3 := node_upd_get _ _ _ _ hm3
  have g7 := node_upd_get _ _ _ _ hm7
  have g8 := node_upd_get _ _ _ _ hm8
  simp only [node_at] at hnx hnx1
  rw [er] at hnx g2
  rw [hn] at hnx
  simp only [Option.some.injEq] at hnx
  subst hnx
  have hnx : x ≠ n := hxn
  have hnx' : n ≠ x := fun e => hxn e.symm
  rw [g3 n, g2 n] at hnx1
  simp only [node_pt.heap.injEq, hnx', if_false, if_true, hn, Option.map_some',
    Option.some.injEq] at hnx1
  subst hnx1
  simp only at hm6
  by_cases hc : nn.next = .null
  · simp only [hc, ne_eq, not_true_eq_false, if_false] at hm6
    have g6 := node_upd_get _ _ _ _ hm6
    rw [g8 j, g7 j, g6 j, g3 j, g2 j]
    by_cases hjn : j = n
    · subst hjn
      simp [hnx', hn]
    · by_cases hjx : j = x
      · subst hjx
        simp [hjn, hc]
        cases m.node_heap[j]? <;> simp
      · simp [hjn, hjx, hc]
  · simp only [hc, ne_eq, not_false_eq_true, if_true, Option.bind_eq_some] at hm6
    obtain ⟨m5, hm5, nx2, hnx2, hm6⟩ := hm6
    have g5 := node_upd_get _ _ _ _ hm5
    have g6 := node_upd_get _ _ _ _ hm6
    simp only [node_at] at hnx2
    rw [g5 n, g3 n, g2 n] at hnx2
    have hcn' : ¬ node_pt.heap n = nn.next := fun e => hcn e.symm
    simp only [node_pt.heap.injEq, hnx', if_false, if_true, hn, Option.map_some',
      Option.some.injEq, hcn'] at hnx2
    subst hnx2
    rw [g8 j, g7 j, g6 j, g5 j, g3 j, g2 j]
    by_cases hjn : j = n
    · subst hjn
      simp [hnx', hn, hcn']
    · by_cases hjx : j = x
      · subst hjx
        have hcx' : ¬ node_pt.heap j = nn.next := fun e => hcx e.symm
        simp [hjn, hcx']
        cases m.node_heap[j]? <;> simp
      · simp [hjn, hjx]

/-- The node heap after `merge_prev` of the node `x` into its predecessor `p`. -/
theorem merge_prev_get (m m' : pool_mgr_t) (x p : Nat) (nx : node_t)
    (hpx : p ≠ x) (hx : m.node_heap[x]? = some nx)
    (hcp : nx.next ≠ .heap p) (hcx : nx.next ≠ .heap x)
    (h : merge_prev m (.heap x) (.heap p) = some m') (j : Nat) :
    m'.node_heap[j]? =
      if j = x then some { nx with used := 0 }
      else if j = p then
        (m.node_heap[p]?).map fun r =>
          { r with size := (r.size + nx.size) % SIZE_MOD, next := nx.next }
      else if node_pt.heap j = nx.next then
        (m.node_heap[j]?).map fun r => { r with prev := .heap p }
      else m.node_heap[j]? := by
  unfold merge_prev at h
  simp only [Option.bind_eq_some] at h
  obtain ⟨r, hr, td, htd, m2, hm2, m3, hm3, td1, htd1, hm6⟩ := h
  have er := (remove_from_gap_ix_heap _ _ _ _ hr).1
  have g2 := node_upd_get _ _ _ _ hm2
  have g3 := node_upd_get _ _ _ _ hm3
  simp only [node_at] at htd htd1
  rw [er] at htd g2
  rw [hx] at htd
  simp only [Option.some.injEq] at htd
  subst htd
  have hxp : x ≠ p := fun e => hpx e.symm
  rw [g3 x, g2 x] at htd1
  simp only [node_pt.heap.injEq, hxp, if_false, if_true, hx, Option.map_some',
    Option.some.injEq] at htd1
  subst htd1
  simp only at hm6
  by_cases hc : nx.next = .null
  · simp only [hc, ne_eq, not_true_eq_false, if_false] at hm6
    have g6 := node_upd_get _ _ _ _ hm6
    rw [g6 j, g3 j, g2 j]
    by_cases hjx : j = x
    · subst hjx
      simp [hxp, hx]
    · by_cases hjp : j = p
      · subst hjp
        simp [hjx, hc]
        cases m.node_heap[j]? <;> simp
      · simp [hjx, hjp, hc]
  · simp only [hc, ne_eq, not_false_eq_true, if_true, Option.bind_eq_some] at hm6
    obtain ⟨m5, hm5, td2, htd2, hm6⟩ := hm6
    have g5 := node_upd_get _ _ _ _ hm5
    have g6 := node_upd_get _ _ _ _ hm6
    simp only [node_at] at htd2
    rw [g5 x, g3 x, g2 x] at htd2
    simp only [node_pt.heap.injEq, hxp, if_false, if_true, hx, Option.map_some',
      Option.some.injEq] at htd2
    subst htd2
    simp only at g6
    rw [g6 j, g5 j, g3 j, g2 j]
    have hcx' : ¬ node_pt.heap x = nx.next := fun e => hcx e.symm
    have hcp' : ¬ node_pt.heap p = nx.next := fun e => hcp e.symm
    by_cases hjx : j = x
    · subst hjx
      simp [hxp, hx, hcx']
    · by_cases hjp : j = p
      · subst hjp
        simp [hjx, hcp']
        cases m.node_heap[j]? <;> simp
      · simp [hjx, hjp]

/-- A piece stays linked when the `prev` and `next` of its nodes stay the same. -/
theorem linked_congr_links (h h' : List node_t) (q : node_pt) :
    ∀ (l : List Nat) (p : node_pt), (∀ a ∈ l, (h'[a]?).map links = (h[a]?).map links) →
      linked h p l q → linked h' p l q := by
  intro l
  induction l with
  | nil => intro p _ _; exact linked_nil _ _ _
  | cons a t ih =>
    intro p hs hl
    rw [linked_cons] at hl ⊢
    obtain ⟨n, h1, h2, h3, h4⟩ := hl
    have ha := hs a (List.mem_cons_self _ _)
    rw [h1] at ha
    cases hn' : h'[a]? with
    | none => rw [hn'] at ha; simp at ha
    | some n' =>
      rw [hn'] at ha
      simp only [Option.map_some', Option.some.injEq, links, Prod.mk.injEq] at ha
      refine ⟨n', rfl, ha.1.trans h2, ha.2.trans h3,
        ih _ (fun b hb => hs b (List.mem_cons_of_mem _ hb)) h4⟩

/-- The last pointer of a list that ends with `a`. -/
theorem last_ptr_append_singleton (l : List Nat) (a : Nat) (p : node_pt) :
    last_ptr (l ++ [a]) p = .heap a := by
  induction l generalizing p with
  | nil => rfl
  | cons b t ih => simp only [List.cons_append, last_ptr]; exact ih _

/-- Taking the node `d` out of the list, after the node `k`. -/
theorem linked_unlink (h h' : List node_t) (k d : Nat) (pre post : List Nat) (nd : node_t)
    (hl : linked h .null (pre ++ k :: d :: post) .null)
    (hnd : (pre ++ k :: d :: post).Nodup)
    (hd : h[d]? = some nd)
    (hk : (h'[k]?).map links = (h[k]?).map fun r => (r.prev, nd.next))
    (ho : ∀ j, j ≠ k → j ≠ d → h'[j]? =
      if node_pt.heap j = nd.next then (h[j]?).map fun r => { r with prev := .heap k }
      else h[j]?) :
    linked h' .null (pre ++ k :: post) .null := by
  rw [linked_append] at hl ⊢
  obtain ⟨hpre, hrest⟩ := hl
  rw [linked_cons] at hrest
  obtain ⟨nk, hnk, hkp, hkn, hrest⟩ := hrest
  rw [linked_cons] at hrest
  obtain ⟨nd', hnd', hdp, hdn, hpost⟩ := hrest
  rw [hd] at hnd'
  simp only [Option.some.injEq] at hnd'
  subst hnd'
  have hnd1 : ∀ a ∈ pre, a ≠ k ∧ a ≠ d ∧ a ∉ post := by
    intro a ha
    rw [List.nodup_append] at hnd
    have := hnd.2.2 ha
    simp only [List.mem_cons] at this
    exact ⟨fun e => this (Or.inl e), fun e => this (Or.inr (Or.inl e)),
      fun e => this (Or.inr (Or.inr e))⟩
  have hnd2 : k ≠ d ∧ k ∉ post ∧ d ∉ post ∧ post.Nodup := by
    rw [List.nodup_append] at hnd
    have := hnd.2.1
    simp only [List.nodup_cons, List.mem_cons, not_or] at this
    exact ⟨this.1.1, this.1.2, this.2.1, this.2.2⟩
  refine ⟨?_, ?_⟩
  · have hfp : first_ptr (k :: post) .null = first_ptr (k :: d :: post) .null := rfl
    rw [hfp]
    refine linked_congr_links h h' _ pre _ ?_ hpre
    intro a ha
    obtain ⟨h1, h2, h3⟩ := hnd1 a ha
    rw [ho a h1 h2]
    have : ¬ node_pt.heap a = nd.next := by
      rw [hdn]
      cases post with
      | nil => simp [first_ptr]
      | cons b t =>
        simp only [first_ptr, node_pt.heap.injEq]
        intro e
        exact h3 (e ▸ List.mem_cons_self _ _)
    simp [this]
  · rw [linked_cons]
    rw [hnk] at hk
    cases hk' : h'[k]? with
    | none => rw [hk'] at hk; simp at hk
    | some nk' =>
      rw [hk'] at hk
      simp only [Option.map_some', Option.some.injEq, links, Prod.mk.injEq] at hk
      refine ⟨nk', rfl, hk.1.trans hkp, hk.2.trans hdn, ?_⟩
      cases post with
      | nil => exact linked_nil _ _ _
      | cons b t =>
        rw [linked_cons] at hpost ⊢
        obtain ⟨nb, hnb, _, hbn, ht⟩ := hpost
        have hbk : b ≠ k := fun e => hnd2.2.1 (e ▸ List.mem_cons_self _ _)
        have hbd : b ≠ d := fun e => hnd2.2.2.1 (e ▸ List.mem_cons_self _ _)
        have hb := ho b hbk hbd
        have hdn' : node_pt.heap b = nd.next := by rw [hdn]; rfl
        rw [if_pos hdn', hnb] at hb
        refine ⟨_, hb, rfl, hbn, ?_⟩
        refine linked_congr_links h h' _ t _ ?_ ht
        intro a ha
        have hak : a ≠ k := fun e => hnd2.2.1 (e ▸ List.mem_cons_of_mem _ ha)
        have had : a ≠ d := fun e => hnd2.2.2.1 (e ▸ List.mem_cons_of_mem _ ha)
        have hab : a ≠ b := by
          intro e
          have := hnd2.2.2.2
          rw [List.nodup_cons] at this
          exact this.1 (e ▸ ha)
        rw [ho a hak had]
        have : ¬ node_pt.heap a = nd.next := by
          rw [← hdn']
          simpa using hab
        simp [this]

/-! ## Deallocation on a well-formed segment list -/

/-- The links of a node in the middle of a linked piece. -/
theorem linked_mid (h : List node_t) (p q : node_pt) (pre post : List Nat) (x : Nat)
    (hl : linked h p (pre ++ x :: post) q) :
    ∃ nx, h[x]? = some nx ∧ nx.prev = last_ptr pre p ∧ nx.next = first_ptr post q ∧
      linked h (.heap x) post q ∧ linked h p pre (.heap x) := by
  rw [linked_append, linked_cons] at hl
  obtain ⟨hpre, nx, h1, h2, h3, h4⟩ := hl
  exact ⟨nx, h1, h2, h3, h4, hpre⟩

/-- A list without repetition, split at one of its elements. -/
theorem nodup_mid (pre post : List Nat) (x : Nat) (hnd : (pre ++ x :: post).Nodup) :
    x ∉ pre ∧ x ∉ post ∧ pre.Nodup ∧ post.Nodup ∧ ∀ a ∈ pre, a ∉ post := by
  rw [List.nodup_append] at hnd
  obtain ⟨h1, h2, h3⟩ := hnd
  rw [List.nodup_cons] at h2
  refine ⟨fun hx => h3 hx (List.mem_cons_self _ _), h2.1, h1, h2.2, ?_⟩
  intro a ha hb
  exact h3 ha (List.mem_cons_of_mem _ hb)

/-- What `del_next_step` does on a well-formed segment list. -/
theorem del_next_step_spec (m m3 : pool_mgr_t) (x : Nat) (pre post : List Nat)
    (hl : linked m.node_heap .null (pre ++ x :: post) .null)
    (hnd : (pre ++ x :: post).Nodup)
    (h : del_next_step m (.heap x) = some m3) :
    (m3 = m ∧ ∀ b nb, post.head? = some b → m.node_heap[b]? = some nb → nb.allocated ≠ 0) ∨
    (∃ n nn B, post = n :: B ∧ m.node_heap[n]? = some nn ∧ nn.allocated = 0 ∧
      ∀ j, m3.node_heap[j]? =
        if j = n then some { nn with used := 0, next := .null, prev := .null }
        else if j = x then
          (m.node_heap[x]?).map fun r =>
            { r with size := (r.size + nn.size) % SIZE_MOD, next := nn.next }
        else if node_pt.heap j = nn.next then
          (m.node_heap[j]?).map fun r => { r with prev := .heap x }
        else m.node_heap[j]?) := by
  obtain ⟨nx, hx, _, hxn, hpost, _⟩ := linked_mid _ _ _ _ _ _ hl
  obtain ⟨hxpre, hxpost, _, hpnd, _⟩ := nodup_mid _ _ _ hnd
  unfold del_next_step at h
  simp only [node_at, hx, Option.some_bind] at h
  cases post with
  | nil =>
    simp only [first_ptr] at hxn
    simp only [hxn, ne_eq, not_true_eq_false, if_false, Option.some.injEq] at h
    left
    exact ⟨h.symm, by intro b nb hb; simp at hb⟩
  | cons n B =>
    simp only [first_ptr] at hxn
    rw [linked_cons] at hpost
    obtain ⟨nn, hn, _, hnn, _⟩ := hpost
    simp only [hxn, ne_eq, not_false_eq_true, if_true, node_at, hn, Option.some_bind,
      reduceCtorEq] at h
    by_cases ha : nn.allocated = 0
    · right
      simp only [ha, if_true] at h
      have hxn' : x ≠ n := fun e => hxpost (e ▸ List.mem_cons_self _ _)
      rw [List.nodup_cons] at hpnd
      have hcx : nn.next ≠ .heap x := by
        rw [hnn]
        cases B with
        | nil => simp [first_ptr]
        | cons b t =>
          simp only [first_ptr, ne_eq, node_pt.heap.injEq]
          intro e
          exact hxpost (e ▸ List.mem_cons_of_mem _ (List.mem_cons_self _ _))
      have hcn : nn.next ≠ .heap n := by
        rw [hnn]
        cases B with
        | nil => simp [first_ptr]
        | cons b t =>
          simp only [first_ptr, ne_eq, node_pt.heap.injEq]
          intro e
          exact hpnd.1 (e ▸ List.mem_cons_self _ _)
      exact ⟨n, nn, B, rfl, hn, ha, merge_next_get m m3 x n nn hxn' hn hcx hcn h⟩
    · left
      simp only [ha, if_false, Option.some.injEq] at h
      refine ⟨h.symm, ?_⟩
      intro b nb hb hnb
      simp only [List.head?_cons, Option.some.injEq] at hb
      subst hb
      rw [hn] at hnb
      simp only [Option.some.injEq] at hnb
      subst hnb
      exact ha

/-- What `del_prev_step` does on a well-formed segment list. -/
theorem del_prev_step_spec (m m4 : pool_mgr_t) (c : node_pt) (x : Nat) (pre post : List Nat)
    (hl : linked m.node_heap .null (pre ++ x :: post) .null)
    (hnd : (pre ++ x :: post).Nodup)
    (h : del_prev_step m (.heap x) = some (m4, c)) :
    (m4 = m ∧ c = .heap x ∧
      ∀ p np, pre.getLast? = some p → m.node_heap[p]? = some np → np.allocated ≠ 0) ∨
    (∃ A p np nx, pre = A ++ [p] ∧ m.node_heap[p]? = some np ∧ np.allocated = 0 ∧
      c = .heap p ∧ m.node_heap[x]? = some nx ∧
      ∀ j, m4.node_heap[j]? =
        if j = x then some { nx with used := 0 }
        else if j = p then
          (m.node_heap[p]?).map fun r =>
            { r with size := (r.size + nx.size) % SIZE_MOD, next := nx.next }
        else if node_pt.heap j = nx.next then
          (m.node_heap[j]?).map fun r => { r with prev := .heap p }
        else m.node_heap[j]?) := by
  obtain ⟨nx, hx, hxp, hxn, _, hpre⟩ := linked_mid _ _ _ _ _ _ hl
  obtain ⟨hxpre, hxpost, _, _, hdisj⟩ := nodup_mid _ _ _ hnd
  unfold del_prev_step at h
  simp only [node_at, hx, Option.some_bind] at h
  rcases List.eq_nil_or_concat pre with hnil | ⟨A, p, hcat⟩
  · subst hnil
    simp only [last_ptr] at hxp
    simp only [hxp, ne_eq, not_true_eq_false, if_false, Option.some.injEq,
      Prod.mk.injEq] at h
    left
    exact ⟨h.1.symm, h.2.symm, by intro p np hp; simp at hp⟩
  · rw [List.concat_eq_append] at hcat
    subst hcat
    rw [last_ptr_append_singleton] at hxp
    obtain ⟨np, hp, _, _, _, _⟩ := linked_mid _ _ _ _ _ _ hpre
    simp only [hxp, ne_eq, not_false_eq_true, if_true, node_at, hp, Option.some_bind,
      reduceCtorEq] at h
    by_cases ha : np.allocated = 0
    · right
      simp only [ha, if_true, Option.bind_eq_some, Option.some.injEq, Prod.mk.injEq] at h
      obtain ⟨m1, hm1, e1, e2⟩ := h
      subst e1
      have hpx : p ≠ x := fun e => hxpre (e ▸ by simp)
      have hcp : nx.next ≠ .heap p := by
        rw [hxn]
        cases post with
        | nil => simp [first_ptr]
        | cons b t =>
          simp only [first_ptr, ne_eq, node_pt.heap.injEq]
          intro e
          exact hdisj p (by simp) (e ▸ List.mem_cons_self _ _)
      have hcx : nx.next ≠ .heap x := by
        rw [hxn]
        cases post with
        | nil => simp [first_ptr]
        | cons b t =>
          simp only [first_ptr, ne_eq, node_pt.heap.injEq]
          intro e
          exact hxpost (e ▸ List.mem_cons_self _ _)
      exact ⟨A, p, np, nx, rfl, hp, ha, e2.symm, hx,
        merge_prev_get m m1 x p nx hpx hx hcp hcx hm1⟩
    · left
      simp only [ha, if_false, Option.some.injEq, Prod.mk.injEq] at h
      refine ⟨h.1.symm, h.2.symm, ?_⟩
      intro p' np' hp' hnp'
      simp only [List.getLast?_append, List.getLast?_singleton, Option.or,
        Option.some.injEq] at hp'
      subst hp'
      rw [hp] at hnp'
      simp only [Option.some.injEq] at hnp'
      subst hnp'
      exact ha

/-- Dropping an element keeps a list free of repetitions. -/
theorem nodup_drop_next (pre B : List Nat) (x n : Nat) (hnd : (pre ++ x :: n :: B).Nodup) :
    (pre ++ x :: B).Nodup := by
  refine hnd.sublist ?_
  exact List.Sublist.append (List.Sublist.refl _)
    (List.Sublist.cons₂ _ (List.sublist_cons_self _ _))

/-- The segment list after `del_next_step`. -/
theorem del_next_step_list (m m3 : pool_mgr_t) (x : Nat) (pre post : List Nat)
    (hl : linked m.node_heap .null (pre ++ x :: post) .null)
    (hnd : (pre ++ x :: post).Nodup)
    (h : del_next_step m (.heap x) = some m3) :
    ∃ B, linked m3.node_heap .null (pre ++ x :: B) .null ∧ (pre ++ x :: B).Nodup ∧
      (∀ j : Nat, (m3.node_heap[j]?).map alloc_flag = (m.node_heap[j]?).map alloc_flag) ∧
      ((B = post ∧
          ∀ b nb, post.head? = some b → m.node_heap[b]? = some nb → nb.allocated ≠ 0) ∨
        ∃ n nn, post = n :: B ∧ m.node_heap[n]? = some nn ∧ nn.allocated = 0) := by
  rcases del_next_step_spec m m3 x pre post hl hnd h with ⟨e, hfree⟩ | ⟨n, nn, B, hp, hn, ha, hg⟩
  · subst e
    exact ⟨post, hl, hnd, fun _ => rfl, Or.inl ⟨rfl, hfree⟩⟩
  · subst hp
    obtain ⟨hxpre, hxpost, _, _, _⟩ := nodup_mid _ _ _ hnd
    have hxn : x ≠ n := fun e => hxpost (e ▸ List.mem_cons_self _ _)
    refine ⟨B, ?_, nodup_drop_next _ _ _ _ hnd, ?_, Or.inr ⟨n, nn, rfl, hn, ha⟩⟩
    · refine linked_unlink m.node_heap m3.node_heap x n pre B nn hl hnd hn ?_ ?_
      · rw [hg x]
        simp only [hxn, if_false, if_true]
        cases m.node_heap[x]? <;> simp [links]
      · intro j hjx hjn
        rw [hg j]
        simp only [hjn, hjx, if_false]
    · intro j
      rw [hg j]
      by_cases hjn : j = n
      · subst hjn
        simp [hn, alloc_flag]
      · by_cases hjx : j = x
        · subst hjx
          simp only [hjn, if_false, if_true]
          cases m.node_heap[j]? <;> simp [alloc_flag]
        · simp only [hjn, hjx, if_false]
          split
          · cases m.node_heap[j]? <;> simp [alloc_flag]
          · rfl

/-- The segment list after `del_prev_step`. -/
theorem del_prev_step_list (m m4 : pool_mgr_t) (c : node_pt) (x : Nat) (pre post : List Nat)
    (hl : linked m.node_heap .null (pre ++ x :: post) .null)
    (hnd : (pre ++ x :: post).Nodup)
    (h : del_prev_step m (.heap x) = some (m4, c)) :
    ∃ A k, c = .heap k ∧ linked m4.node_heap .null (A ++ k :: post) .null ∧
      (A ++ k :: post).Nodup ∧
      (∀ j : Nat, (m4.node_heap[j]?).map alloc_flag = (m.node_heap[j]?).map alloc_flag) ∧
      ((A = pre ∧ k = x ∧
          ∀ p np, pre.getLast? = some p → m.node_heap[p]? = some np → np.allocated ≠ 0) ∨
        ∃ np, pre = A ++ [k] ∧ m.node_heap[k]? = some np ∧ np.allocated = 0) := by
  rcases del_prev_step_spec m m4 c x pre post hl hnd h with
    ⟨e, hc, hfree⟩ | ⟨A, p, np, nx, hp, hnp, ha, hc, hx, hg⟩
  · subst e
    exact ⟨pre, x, hc, hl, hnd, fun _ => rfl, Or.inl ⟨rfl, rfl, hfree⟩⟩
  · subst hp
    have hl' : linked m.node_heap .null (A ++ p :: x :: post) .null := by
      simpa using hl
    have hnd' : (A ++ p :: x :: post).Nodup := by
      simpa using hnd
    obtain ⟨_, hppost, _, _, _⟩ := nodup_mid _ _ _ hnd'
    have hpx : p ≠ x := fun e => hppost (e ▸ List.mem_cons_self _ _)
    refine ⟨A, p, hc, ?_, nodup_drop_next _ _ _ _ hnd', ?_, Or.inr ⟨np, rfl, hnp, ha⟩⟩
    · refine linked_unlink m.node_heap m4.node_heap p x A post nx hl' hnd' hx ?_ ?_
      · rw [hg p]
        simp only [hpx, if_false, if_true]
        cases m.node_heap[p]? <;> simp [links]
      · intro j hjp hjx
        rw [hg j]
        simp only [hjp, hjx, if_false]
    · intro j
      rw [hg j]
      by_cases hjx : j = x
      · subst hjx
        simp [hx, alloc_flag]
      · by_cases hjp : j = p
        · subst hjp
          simp only [hjx, if_false, if_true]
          cases m.node_heap[j]? <;> simp [alloc_flag]
        · simp only [hjp, hjx, if_false]
          split
          · cases m.node_heap[j]? <;> simp [alloc_flag]
          · rfl

/-- The `allocated` fields after a deallocation: a zero between what is left of
the fields before and after it, once zeros next to it are absorbed. -/
theorem chain_after_free (FA FB F0A F0B : List Nat) (fx : Nat)
    (h0 : List.Chain' not_both_free (F0A ++ fx :: F0B))
    (hA : (FA = F0A ∧ (F0A = [] ∨ ∃ T a, F0A = T ++ [a] ∧ a ≠ 0)) ∨ F0A = FA ++ [0])
    (hB : (FB = F0B ∧ (F0B = [] ∨ ∃ b T, F0B = b :: T ∧ b ≠ 0)) ∨ F0B = 0 :: FB) :
    List.Chain' not_both_free (FA ++ 0 :: FB) := by
  rw [List.chain'_split] at h0 ⊢
  obtain ⟨h1, h2⟩ := h0
  refine ⟨?_, ?_⟩
  · rcases hA with ⟨e, hlast⟩ | e
    · subst e
      rcases hlast with e | ⟨T, a, e, ha⟩
      · subst e
        exact List.chain'_singleton _
      · subst e
        rw [List.chain'_append] at h1 ⊢
        refine ⟨h1.1, List.chain'_singleton _, ?_⟩
        intro u hu v hv
        simp only [List.getLast?_append, List.getLast?_singleton, Option.or, Option.mem_def,
          Option.some.injEq] at hu
        subst hu
        intro hc
        exact ha hc.1
    · subst e
      rw [List.chain'_append] at h1
      exact h1.1
  · rcases hB with ⟨e, hhead⟩ | e
    · subst e
      rcases hhead with e | ⟨b, T, e, hb⟩
      · subst e
        exact List.chain'_singleton _
      · subst e
        rw [List.chain'_cons] at h2 ⊢
        refine ⟨?_, h2.2⟩
        intro hc
        exact hb hc.2
    · subst e
      rw [List.chain'_cons] at h2
      exact h2.2

/-- The flags of a list depend only on the `allocated` fields of its nodes. -/
theorem flags_congr (h h' : List node_t) (l : List Nat)
    (hs : ∀ a ∈ l, (h'[a]?).map alloc_flag = (h[a]?).map alloc_flag) :
    flags h' l = flags h l := by
  induction l with
  | nil => rfl
  | cons a t ih =>
    have h1 := hs a (List.mem_cons_self _ _)
    have h2 := ih (fun b hb => hs b (List.mem_cons_of_mem _ hb))
    simp only [flags, List.filterMap_cons] at h2 ⊢
    rw [h1, h2]

/-- The flags of a concatenation. -/
theorem flags_append (h : List node_t) (l1 l2 : List Nat) :
    flags h (l1 ++ l2) = flags h l1 ++ flags h l2 := by
  simp [flags, List.filterMap_append]

/-- The flags of a list whose first node is known. -/
theorem flags_cons (h : List node_t) (a : Nat) (l : List Nat) (n : node_t)
    (hn : h[a]? = some n) : flags h (a :: l) = n.allocated :: flags h l := by
  simp [flags, List.filterMap_cons, hn, alloc_flag]

/-- The flags of a list whose first flag is known. -/
theorem flags_cons_flag (h : List node_t) (a : Nat) (l : List Nat) (f : Nat)
    (hn : (h[a]?).map alloc_flag = some f) : flags h (a :: l) = f :: flags h l := by
  simp [flags, List.filterMap_cons, hn]

/-- The nodes of the segment list of a pool whose list is `node_heap[0] :: l`. -/
theorem seg_nodes_linked (m : pool_mgr_t) (l : List Nat)
    (hl : linked m.node_heap .null (0 :: l) .null) (hnd : (0 :: l).Nodup) :
    seg_nodes m = (0 :: l).filterMap fun i => m.node_heap[i]? := by
  have hlen : (0 :: l).length ≤ m.node_heap.length + m.ext_nodes.length := by
    have := nodup_bounded_length m.node_heap.length (0 :: l) hnd
      (linked_valid _ _ _ _ hl)
    omega
  have hw := walk_linked m (0 :: l) .null _ hlen hl
  unfold seg_nodes seg_list
  have hfp : first_ptr (0 :: l) .null = .heap 0 := rfl
  rw [hfp] at hw
  rw [hw, List.filterMap_map]
  rfl

/-- The check `adjacent_free` fails exactly on the lists whose neighbours are never
both free. -/
theorem adjacent_free_iff_chain : ∀ l : List node_t,
    adjacent_free l = false ↔
      List.Chain' (fun a b => not_both_free (alloc_flag a) (alloc_flag b)) l
  | [] => by simp [adjacent_free]
  | [a] => by simp [adjacent_free]
  | a :: b :: t => by
    have ih := adjacent_free_iff_chain (b :: t)
    rw [List.chain'_cons, ← ih]
    simp [adjacent_free, not_both_free, alloc_flag]

/-- No-adjacent-free, stated on the flags of the segment list. -/
theorem naf_iff_flags (m : pool_mgr_t) (l : List Nat)
    (hl : linked m.node_heap .null (0 :: l) .null) (hnd : (0 :: l).Nodup) :
    no_adjacent_free m ↔ List.Chain' not_both_free (flags m.node_heap (0 :: l)) := by
  unfold no_adjacent_free
  rw [adjacent_free_iff_chain, seg_nodes_linked m l hl hnd]
  have : flags m.node_heap (0 :: l) =
      ((0 :: l).filterMap fun i => m.node_heap[i]?).map alloc_flag := by
    unfold flags
    rw [List.map_filterMap]
  rw [this, List.chain'_map]

/-- A known flag is the `allocated` field of a node that exists. -/
theorem flag_eq_some (h : List node_t) (j f : Nat) :
    (h[j]?).map alloc_flag = some f ↔ ∃ n, h[j]? = some n ∧ n.allocated = f := by
  cases h[j]? with
  | none => simp
  | some n => simp [alloc_flag]

/-- The segment list after a successful `mem_del_alloc`. -/
theorem mem_del_alloc_list (m m' : pool_mgr_t) (x : Nat) (pre post : List Nat)
    (hl : linked m.node_heap .null (pre ++ x :: post) .null)
    (hnd : (pre ++ x :: post).Nodup)
    (h : mem_del_alloc m (.heap x) = some (m', .ALLOC_OK)) :
    ∃ A k B, linked m'.node_heap .null (A ++ k :: B) .null ∧ (A ++ k :: B).Nodup ∧
      (∀ j : Nat, (m'.node_heap[j]?).map alloc_flag =
          if j = x then (m.node_heap[x]?).map (fun _ => 0)
          else (m.node_heap[j]?).map alloc_flag) ∧
      ((A = pre ∧ k = x ∧
          ∀ p, pre.getLast? = some p → (m.node_heap[p]?).map alloc_flag ≠ some 0) ∨
        (pre = A ++ [k] ∧ (m.node_heap[k]?).map alloc_flag = some 0)) ∧
      ((B = post ∧
          ∀ b, post.head? = some b → (m.node_heap[b]?).map alloc_flag ≠ some 0) ∨
        ∃ n, post = n :: B ∧ (m.node_heap[n]?).map alloc_flag = some 0) := by
  obtain ⟨hxpre, hxpost, _, _, _⟩ := nodup_mid _ _ _ hnd
  unfold mem_del_alloc at h
  by_cases hlt : x < m.total_nodes
  · simp only [hlt, if_true, Option.bind_eq_some] at h
    obtain ⟨m1, hm1, td, _, m3, hm3, r, hr, fin, _, a, ha, hres⟩ := h
    have g1 := node_upd_get _ _ _ _ hm1
    have hf1 : ∀ j : Nat, (m1.node_heap[j]?).map alloc_flag =
        if j = x then (m.node_heap[x]?).map (fun _ => 0)
        else (m.node_heap[j]?).map alloc_flag := by
      intro j
      rw [g1 j]
      by_cases hjx : j = x
      · subst hjx
        simp only [if_true]
        cases m.node_heap[j]? <;> simp [alloc_flag]
      · simp [hjx]
    have hl1 : linked m1.node_heap .null (pre ++ x :: post) .null := by
      refine linked_congr_links m.node_heap m1.node_heap _ _ _ ?_ hl
      intro b _
      rw [g1 b]
      split
      · cases m.node_heap[b]? <;> simp [links]
      · rfl
    obtain ⟨B, hl3, hnd3, hf3, hB⟩ := del_next_step_list _ m3 x pre post (by exact hl1) hnd hm3
    have hr' : del_prev_step m3 (.heap x) = some (r.1, r.2) := hr
    obtain ⟨A, k, hc, hl4, hnd4, hf4, hA⟩ := del_prev_step_list m3 r.1 r.2 x pre B hl3 hnd3 hr'
    have ea := (add_to_gap_ix_heap _ _ _ _ ha).1
    have em : m' = a.1 := by
      split at hres
      · simp at hres
      · simp only [Option.some.injEq, Prod.mk.injEq] at hres
        exact hres.1.symm
    have hf : ∀ j : Nat, (m'.node_heap[j]?).map alloc_flag =
        if j = x then (m.node_heap[x]?).map (fun _ => 0)
        else (m.node_heap[j]?).map alloc_flag := by
      intro j
      rw [em, ea, hf4 j, hf3 j]
      exact hf1 j
    have hother : ∀ j : Nat, j ≠ x →
        (m3.node_heap[j]?).map alloc_flag = (m.node_heap[j]?).map alloc_flag := by
      intro j hj
      rw [hf3 j]
      have := hf1 j
      rw [if_neg hj] at this
      exact this
    have hother1 : ∀ j : Nat, j ≠ x →
        (m1.node_heap[j]?).map alloc_flag = (m.node_heap[j]?).map alloc_flag := by
      intro j hj
      have := hf1 j
      rw [if_neg hj] at this
      exact this
    refine ⟨A, k, B, ?_, hnd4, hf, ?_, ?_⟩
    · rw [em, ea]
      exact hl4
    · rcases hA with ⟨e1, e2, hfree⟩ | ⟨np, e, hnp, hz⟩
      · left
        refine ⟨e1, e2, ?_⟩
        intro p hp hflag
        have hpx : p ≠ x := by
          intro e
          apply hxpre
          rw [← e]
          exact List.mem_of_mem_getLast? hp
        rw [← hother p hpx, flag_eq_some] at hflag
        obtain ⟨n, hn, hz⟩ := hflag
        exact hfree p n hp hn hz
      · right
        refine ⟨e, ?_⟩
        have hkx : k ≠ x := by
          intro e'
          apply hxpre
          rw [e, ← e']
          simp
        rw [← hother k hkx, flag_eq_some]
        exact ⟨np, hnp, hz⟩
    · rcases hB with ⟨e, hfree⟩ | ⟨n, nn, e, hn, hz⟩
      · left
        refine ⟨e, ?_⟩
        intro b hb hflag
        have hbx : b ≠ x := by
          intro e'
          apply hxpost
          rw [← e']
          exact List.mem_of_mem_head? hb
        rw [← hother1 b hbx, flag_eq_some] at hflag
        obtain ⟨n, hn, hz⟩ := hflag
        exact hfree b n hb hn hz
      · right
        refine ⟨n, e, ?_⟩
        have hnx : n ≠ x := by
          intro e'
          apply hxpost
          rw [e, ← e']
          exact List.mem_cons_self _ _
        rw [← hother1 n hnx, flag_eq_some]
        exact ⟨nn, hn, hz⟩
  · simp [hlt] at h

/-- The flags of a single node. -/
theorem flags_singleton (h : List node_t) (a f : Nat)
    (hf : (h[a]?).map alloc_flag = some f) : flags h [a] = [f] := by
  simp [flags, List.filterMap_cons, hf]

/-- Every node of a linked piece exists. -/
theorem linked_get (h : List node_t) (p q : node_pt) (l : List Nat)
    (hl : linked h p l q) (a : Nat) (ha : a ∈ l) : ∃ n, h[a]? = some n := by
  have hlt := linked_valid h q l p hl a ha
  exact ⟨h[a], List.getElem?_eq_getElem hlt⟩

/-- C2: no-adjacent-free is restored by deallocation.  Let the segment list of `m` be
the doubly linked list `node_heap[0] :: l` (distinct nodes, `prev` and `next`
consistent, null at both ends), with no two neighbours both free, and let
`node_heap[x]` be one of its segments.  If `mem_del_alloc` on that handle returns
`ALLOC_OK`, then no two neighbours of the segment list of the resulting pool are
both free.  (That the segment is allocated is not needed.) -/
theorem del_alloc_no_adjacent_free (m m' : pool_mgr_t) (l : List Nat) (x : Nat)
    (hl : linked m.node_heap .null (0 :: l) .null) (hnd : (0 :: l).Nodup)
    (hnaf : no_adjacent_free m) (hx : x ∈ 0 :: l)
    (hdel : mem_del_alloc m (.heap x) = some (m', .ALLOC_OK)) :
    no_adjacent_free m' := by
  rw [naf_iff_flags m l hl hnd] at hnaf
  obtain ⟨pre, post, hsplit⟩ := List.append_of_mem hx
  rw [hsplit] at hl hnd hnaf
  obtain ⟨A, k, B, hl', hnd', hf, hA, hB⟩ := mem_del_alloc_list m m' x pre post hl hnd hdel
  obtain ⟨hxpre, hxpost, _, _, _⟩ := nodup_mid _ _ _ hnd
  obtain ⟨nx, hnx⟩ := linked_get _ _ _ _ hl x (by simp)
  -- the head of the list is still `node_heap[0]`
  have hhead : ∃ l', A ++ k :: B = 0 :: l' := by
    rcases hA with ⟨e1, e2, _⟩ | ⟨e, _⟩
    · subst e1; subst e2
      cases A with
      | nil =>
        simp only [List.nil_append, List.cons.injEq] at hsplit
        exact ⟨B, by rw [← hsplit.1]; rfl⟩
      | cons a t =>
        simp only [List.cons_append, List.cons.injEq] at hsplit
        exact ⟨t ++ k :: B, by rw [← hsplit.1]; rfl⟩
    · subst e
      cases A with
      | nil =>
        simp only [List.nil_append, List.cons_append, List.cons.injEq] at hsplit
        exact ⟨B, by rw [← hsplit.1]; rfl⟩
      | cons a t =>
        simp only [List.cons_append, List.cons.injEq] at hsplit
        exact ⟨t ++ k :: B, by rw [← hsplit.1]; rfl⟩
  obtain ⟨l', hl'eq⟩ := hhead
  have hl2 := hl'
  have hnd2 := hnd'
  rw [hl'eq] at hl2 hnd2
  rw [naf_iff_flags m' l' hl2 hnd2, ← hl'eq]
  -- the flags of the new list
  have hAsub : ∀ a ∈ A, a ∈ pre := by
    intro a ha
    rcases hA with ⟨e1, _, _⟩ | ⟨e, _⟩
    · rw [← e1]; exact ha
    · rw [e]; exact List.mem_append_left _ ha
  have hBsub : ∀ b ∈ B, b ∈ post := by
    intro b hb
    rcases hB with ⟨e1, _⟩ | ⟨n, e, _⟩
    · rw [← e1]; exact hb
    · rw [e]; exact List.mem_cons_of_mem _ hb
  have hfA : flags m'.node_heap A = flags m.node_heap A := by
    refine flags_congr _ _ _ ?_
    intro a ha
    have hax : a ≠ x := fun e => hxpre (e ▸ hAsub a ha)
    rw [hf a, if_neg hax]
  have hfB : flags m'.node_heap B = flags m.node_heap B := by
    refine flags_congr _ _ _ ?_
    intro b hb
    have hbx : b ≠ x := fun e => hxpost (e ▸ hBsub b hb)
    rw [hf b, if_neg hbx]
  have hfk : (m'.node_heap[k]?).map alloc_flag = some 0 := by
    rcases hA with ⟨_, e2, _⟩ | ⟨e, hz⟩
    · subst e2
      rw [hf k, if_pos rfl, hnx]
      rfl
    · have hkx : k ≠ x := by
        intro e'
        apply hxpre
        rw [e, ← e']
        simp
      rw [hf k, if_neg hkx]
      exact hz
  rw [flags_append, flags_cons_flag _ _ _ _ hfk, hfA, hfB]
  rw [flags_append, flags_cons _ _ _ _ hnx] at hnaf
  refine chain_after_free _ _ _ _ _ hnaf ?_ ?_
  · rcases hA with ⟨e1, _, hfree⟩ | ⟨e, hz⟩
    · left
      subst e1
      refine ⟨rfl, ?_⟩
      rcases List.eq_nil_or_concat A with hnil | ⟨T, p, hcat⟩
      · left
        rw [hnil]
        rfl
      · right
        rw [List.concat_eq_append] at hcat
        obtain ⟨np, hnp⟩ := linked_get _ _ _ _ hl p (by rw [hcat]; simp)
        refine ⟨flags m.node_heap T, np.allocated, ?_, ?_⟩
        · rw [hcat, flags_append, flags_cons _ _ _ _ hnp]
          rfl
        · intro hz
          apply hfree p (by rw [hcat]; simp)
          rw [flag_eq_some]
          exact ⟨np, hnp, hz⟩
    · right
      rw [e, flags_append, flags_singleton _ _ _ hz]
  · rcases hB with ⟨e1, hfree⟩ | ⟨n, e, hz⟩
    · left
      subst e1
      refine ⟨rfl, ?_⟩
      cases B with
      | nil => left; rfl
      | cons b T =>
        right
        obtain ⟨nb, hnb⟩ := linked_get _ _ _ _ hl b (by simp)
        refine ⟨nb.allocated, flags m.node_heap T, flags_cons _ _ _ _ hnb, ?_⟩
        intro hz
        apply hfree b rfl
        rw [flag_eq_some]
        exact ⟨nb, hnb, hz⟩
    · right
      rw [e, flags_cons_flag _ _ _ _ hz]

/-! ## More scenarios, evaluated -/

/-- C11: the coalescing scenario.  On a `FIRST_FIT` pool of 1000 bytes,
`mem_new_alloc(pool, 300)` returns `&node_heap[0]` and leaves
`Allocated(300), Free(700)`; `mem_new_alloc(pool, 200)` returns `&node_heap[1]` and
leaves `Allocated(300), Allocated(200), Free(500)`; releasing the first returns
`ALLOC_OK` and leaves `Free(300), Allocated(200), Free(500)`; releasing the second
returns `ALLOC_OK` and leaves `Free(1000)` with `num_gaps == 1` and
`num_allocs == 0`; and `mem_pool_close` on the pool, opened by `mem_pool_open` and
taken through these calls, returns `ALLOC_OK`. -/
theorem coalescing_scenario :
    (mem_new_alloc true (new_pool_mgr 1000 .FIRST_FIT) 300).map (fun r => (r.2, segments r.1))
      = some (.heap 0, [(300, 1), (700, 0)]) ∧
    (run (coalescing.take 1) (new_pool_mgr 1000 .FIRST_FIT)).bind
        (fun m => (mem_new_alloc true m 200).map fun r => (r.2, segments r.1))
      = some (.heap 1, [(300, 1), (200, 1), (500, 0)]) ∧
    (run (coalescing.take 2) (new_pool_mgr 1000 .FIRST_FIT)).bind
        (fun m => (mem_del_alloc m (.heap 0)).map fun r => (r.2, segments r.1))
      = some (.ALLOC_OK, [(300, 0), (200, 1), (500, 0)]) ∧
    (run (coalescing.take 3) (new_pool_mgr 1000 .FIRST_FIT)).bind
        (fun m => (mem_del_alloc m (.heap 1)).map fun r =>
          (r.2, segments r.1, r.1.pool.num_gaps, r.1.pool.num_allocs))
      = some (.ALLOC_OK, [(1000, 0)], 1, 0) ∧
    (mem_pool_open (plain_env 7) store_start 1000 .FIRST_FIT).bind
        (fun o => o.2.bind fun pm => (run coalescing pm.2).bind fun m =>
          (mem_pool_close o.1 (some (pm.1, m))).map Prod.snd)
      = some .ALLOC_OK :=
  ⟨by decide, by decide, by decide, by decide, by decide⟩

/-- C12, as stated, fails on the code.  After `mem_pool_open(100, FIRST_FIT)`,
`mem_new_alloc(pool, 40)` and `mem_del_alloc` on the handle `&node_heap[0]` it
returned, the only segment is `Free(100)`, with `num_allocs == 0` and
`num_gaps == 1`.  A second `mem_del_alloc` on the same handle, which no longer
names an allocated segment, returns `ALLOC_OK`; after it `num_allocs` is
`2^32 - 1`, `alloc_size` is `2^64 - 100`, `num_gaps` is 2 and the gap index holds
the segment twice. -/
theorem double_free_accepted :
    (run [.new_alloc true 40, .del_alloc (.heap 0)] (new_pool_mgr 100 .FIRST_FIT)).bind
        (fun m => (mem_del_alloc m (.heap 0)).map fun r =>
          (segments m, m.pool.num_allocs, m.pool.num_gaps, r.2))
      = some ([(100, 0)], 0, 1, .ALLOC_OK) ∧
    (run [.new_alloc true 40, .del_alloc (.heap 0), .del_alloc (.heap 0)]
        (new_pool_mgr 100 .FIRST_FIT)).map
        (fun m => (m.pool.num_allocs, m.pool.num_gaps, m.pool.alloc_size, live_gaps m))
      = some (2 ^ 32 - 1, 2, 2 ^ 64 - 100, [⟨100, .heap 0⟩, ⟨100, .heap 0⟩]) :=
  ⟨by decide, by decide⟩

/-- C13: the split postcondition fails on the code.  In the `FIRST_FIT` pool of 40
bytes reached by `fill_heap` the segment list is 39 times `Allocated(1)` and then
`Free(1)`, and no node is unused.  `mem_new_alloc(pool, 1)` selects that free
segment, `node_heap[39]`, of exactly the size asked for; the list after the call
should be 40 times `Allocated(1)`.  It has 119 entries instead, and
`mem_inspect_pool` reports `Free(0)` as the last of its 40 segments. -/
theorem split_broken_by_heap_growth :
    (run fill_heap (new_pool_mgr 40 .FIRST_FIT)).bind
        (fun m => (mem_new_alloc true m 1).map fun r =>
          (segments m, r.2, (segments r.1).length,
           decide (segments r.1 = List.replicate 40 (1, 1))))
      = some (List.replicate 39 (1, 1) ++ [(1, 0)], .heap 39, 119, false) ∧
    (run fill_heap (new_pool_mgr 40 .FIRST_FIT)).bind
        (fun m => (mem_new_alloc true m 1).bind fun r => inspected r.1)
      = some (List.replicate 39 (1, 1) ++ [(0, 0)]) :=
  ⟨by decide, by decide⟩

/-- C15, as stated, fails on the code.  In the `FIRST_FIT` pool of 40 bytes reached
by `fill_heap`, `mem_new_alloc(pool, 2)` returns `NULL`: no segment has 2 bytes.
But the call has grown the node heap before it looked for a segment:
`total_nodes` is 120 where it was 40, the segment list has 119 entries where it
had 40, and `mem_inspect_pool` reports `Free(0)` as the last segment where it
reported `Free(1)`. -/
theorem null_alloc_after_heap_growth :
    (run fill_heap (new_pool_mgr 40 .FIRST_FIT)).bind
        (fun m => (mem_new_alloc true m 2).map fun r =>
          (r.2, m.total_nodes, r.1.total_nodes, (segments m).length, (segments r.1).length))
      = some (.null, 40, 120, 40, 119) ∧
    (run fill_heap (new_pool_mgr 40 .FIRST_FIT)).bind
        (fun m => (mem_new_alloc true m 2).map fun r => (inspected m, inspected r.1))
      = some (some (List.replicate 39 (1, 1) ++ [(1, 0)]),
              some (List.replicate 39 (1, 1) ++ [(0, 0)])) :=
  ⟨by decide, by decide⟩

/-- C16: `mem_free` fails although every pool was closed.  Two pools are opened
(the handles are the addresses 7 and 8) and both are closed with `ALLOC_OK`;
`mem_free` then returns `ALLOC_FAIL` and leaves the pool store as it is.  Entry 1
of the store still holds the address 8: `mem_pool_open` put the second manager
there and left `pool_store_size` at 1, so `mem_pool_close` looked at entry 0
only. -/
theorem mem_free_fails_after_two_pools :
    two_pools_closed.map (fun r => (r.1, r.2.1))
      = some ((some 7, some 8), (.ALLOC_OK, .ALLOC_OK)) ∧
    two_pools_closed.bind (fun r => (mem_free r.2.2).map fun f => (f.2, decide (f.1 = r.2.2)))
      = some (.ALLOC_FAIL, true) ∧
    two_pools_closed.map (fun r => (r.2.2.pool_store.getD []).take 3)
      = some [none, some 8, none] :=
  ⟨by decide, by decide, by decide⟩

/-- C19: the report of `mem_inspect_pool` fails on the code.  After `fill_heap` and
one more `mem_new_alloc(pool, 1)` on a `FIRST_FIT` pool of 40 bytes, the call
reports `num_segments == 40` while the segment list has 119 entries; 40
allocations are live (`num_allocs == 40`) and the report shows 39 allocated
segments: the allocated `node_heap[39]` is missing, and the last entry is a
`Free(0)`. -/
theorem inspect_broken_by_heap_growth :
    (run (fill_heap ++ [.new_alloc true 1]) (new_pool_mgr 40 .FIRST_FIT)).bind
        (fun m => (mem_inspect_pool true m).map fun r =>
          (r.map Prod.snd, (segments m).length, m.pool.num_allocs,
           r.map fun s => (s.1.filter fun e => e.2 ≠ 0).length))
      = some (some 40, 119, 40, some 39) ∧
    (run (fill_heap ++ [.new_alloc true 1]) (new_pool_mgr 40 .FIRST_FIT)).bind inspected
      = some (List.replicate 39 (1, 1) ++ [(0, 0)]) :=
  ⟨by decide, by decide⟩

/-- C20: the content of the gap index fails on the code.  After `fill_heap` and one
more `mem_new_alloc(pool, 1)` on a `FIRST_FIT` pool of 40 bytes, the gap index has
no live entry, and the segment list, of 119 entries, holds 80 free segments; the
list that `mem_inspect_pool` reports holds one. -/
theorem gap_index_broken_by_heap_growth :
    (run (fill_heap ++ [.new_alloc true 1]) (new_pool_mgr 40 .FIRST_FIT)).map
        (fun m => (live_gaps m, (free_segs m).length, (segments m).length))
      = some ([], 80, 119) ∧
    (run (fill_heap ++ [.new_alloc true 1]) (new_pool_mgr 40 .FIRST_FIT)).bind inspected
      = some (List.replicate 39 (1, 1) ++ [(0, 0)]) :=
  ⟨by decide, by decide⟩

/-! ## Handles that `mem_del_alloc` rejects -/

/-- C12, amended: `mem_del_alloc` rejects the handles that are not the address of
one of the first `total_nodes` nodes of the node heap (a null pointer, a pointer
to something else, a node past `total_nodes`).  On such a handle it returns
`ALLOC_FAIL` and leaves the pool manager, with the segment list, the gap index and
the counters, as it was.  It makes no other test of the handle. -/
theorem del_alloc_rejects_foreign_handle (m : pool_mgr_t) (alloc : node_pt)
    (h : ∀ i, alloc = .heap i → m.total_nodes ≤ i) :
    mem_del_alloc m alloc = some (m, .ALLOC_FAIL) := by
  cases alloc with
  | heap i =>
    have hi : ¬ i < m.total_nodes := Nat.not_lt.mpr (h i rfl)
    simp [mem_del_alloc, hi]
  | null => rfl
  | ext i => rfl
  | wild => rfl

/-! ## Allocation that returns `NULL` -/

/-- A write through a node pointer changes only nodes. -/
theorem node_upd_frame (m m' : pool_mgr_t) (p : node_pt) (f : node_t → node_t)
    (h : node_upd m p f = some m') :
    m'.pool = m.pool ∧ m'.gap_ix = m.gap_ix ∧ m'.gap_ix_capacity = m.gap_ix_capacity ∧
      m'.used_nodes = m.used_nodes ∧ m'.total_nodes = m.total_nodes := by
  cases p with
  | null => simp [node_upd] at h
  | wild => simp [node_upd] at h
  | heap i =>
    unfold node_upd at h
    cases hn : m.node_heap[i]? with
    | none => simp [hn] at h
    | some n =>
      simp only [hn, Option.some.injEq] at h
      subst h
      exact ⟨rfl, rfl, rfl, rfl, rfl⟩
  | ext i =>
    unfold node_upd at h
    cases hn : m.ext_nodes[i]? with
    | none => simp [hn] at h
    | some n =>
      simp only [hn, Option.some.injEq] at h
      subst h
      exact ⟨rfl, rfl, rfl, rfl, rfl⟩

/-- The growth of the node heap changes neither the pool record, nor the gap index,
nor `used_nodes`; it changes nothing at all when its `malloc` fails. -/
theorem resize_node_heap_frame (ok : Bool) (m m1 : pool_mgr_t) (st : alloc_status)
    (h : _mem_resize_node_heap ok m = some (m1, st)) :
    m1.pool = m.pool ∧ m1.gap_ix = m.gap_ix ∧ m1.gap_ix_capacity = m.gap_ix_capacity ∧
      m1.used_nodes = m.used_nodes ∧ (ok = false → m1 = m) := by
  unfold _mem_resize_node_heap at h
  by_cases hc : 3 * m.total_nodes < 4 * m.used_nodes
  · rw [if_pos hc] at h
    cases ok with
    | false =>
      simp at h
      obtain ⟨h1, _⟩ := h
      subst h1
      exact ⟨rfl, rfl, rfl, rfl, fun _ => rfl⟩
    | true =>
      simp only [if_true] at h
      split at h
      · simp at h
      · rename_i last hl
        split at h
        · simp at h
        · rename_i m2 hu
          simp only [Option.some.injEq, Prod.mk.injEq] at h
          obtain ⟨h1, _⟩ := h
          subst h1
          obtain ⟨e1, e2, e3, e4, _⟩ := node_upd_frame _ m2 last _ hu
          exact ⟨e1, e2, e3, e4, fun hf => by cases hf⟩
  · rw [if_neg hc] at h
    simp at h
    obtain ⟨h1, _⟩ := h
    subst h1
    exact ⟨rfl, rfl, rfl, rfl, fun _ => rfl⟩

/-- C15, amended: whenever `mem_new_alloc` returns `NULL`, the pool record (with
`num_allocs`, `alloc_size` and `num_gaps`), the gap index, its capacity and
`used_nodes` are what they were before the call; and when the call did not grow
the node heap, because `used_nodes < total_nodes` before the call or because the
`malloc` of the growth failed, the pool manager as a whole, with the segment list
and the node heap, is what it was. -/
theorem new_alloc_null_frame (ok : Bool) (m m' : pool_mgr_t) (size : Nat)
    (h : mem_new_alloc ok m size = some (m', .null)) :
    m'.pool = m.pool ∧ m'.gap_ix = m.gap_ix ∧ m'.gap_ix_capacity = m.gap_ix_capacity ∧
      m'.used_nodes = m.used_nodes ∧
      ((m.used_nodes < m.total_nodes ∨ ok = false) → m' = m) := by
  unfold mem_new_alloc at h
  split at h
  · simp at h
  · split at h
    · simp at h
    · rename_i m1 st hres
      have hm1 : m1.pool = m.pool ∧ m1.gap_ix = m.gap_ix ∧
          m1.gap_ix_capacity = m.gap_ix_capacity ∧ m1.used_nodes = m.used_nodes ∧
          ((m.used_nodes < m.total_nodes ∨ ok = false) → m1 = m) := by
        split at hres
        · rename_i hdiv
          obtain ⟨e1, e2, e3, e4, e5⟩ := resize_node_heap_frame ok m m1 st hres
          refine ⟨e1, e2, e3, e4, ?_⟩
          intro hor
          rcases hor with hlt | hf
          · rw [Nat.div_eq_of_lt hlt] at hdiv
            omega
          · exact e5 hf
        · simp only [Option.some.injEq, Prod.mk.injEq] at hres
          obtain ⟨h1, _⟩ := hres
          subst h1
          exact ⟨rfl, rfl, rfl, rfl, fun _ => rfl⟩
      split at h
      · simp only [Option.some.injEq, Prod.mk.injEq] at h
        obtain ⟨h1, _⟩ := h
        subst h1
        exact hm1
      · split at h
        · simp only [Option.some.injEq, Prod.mk.injEq] at h
          obtain ⟨h1, _⟩ := h
          subst h1
          exact hm1
        · split at h
          · simp at h
          · rename_i new_node hsel
            split at h
            · simp only [Option.some.injEq, Prod.mk.injEq] at h
              obtain ⟨h1, _⟩ := h
              subst h1
              exact hm1
            · rename_i hnn
              have := place_alloc_returns _ _ _ _ _ h
              exact absurd this.symm hnn

/-! ## Opening a pool -/

/-- The results of `mem_pool_open`: `g1` is the pool store it works on, the one
`mem_init` makes when there is none yet.  Either the call returns `NULL`, with the
store `g1` or what `_mem_resize_pool_store` makes of it, or it returns the address
given by the environment, with the manager `new_pool_mgr`, and has written the
address into entry `pool_store_size` and set `pool_store_size` to 1. -/
theorem mem_pool_open_cases (e : open_env) (g g' : store_t) (size : Nat) (policy : alloc_policy)
    (res : Option (Nat × pool_mgr_t))
    (h : mem_pool_open e g size policy = some (g', res)) :
    ∃ g1, g1 = (if g.pool_store.isNone then mem_init e.init_ok g else (g, alloc_status.ALLOC_OK)).1 ∧
      ((res = none ∧ g' = g1) ∨
       ∃ ps0, g1.pool_store = some ps0 ∧
        ((res = none ∧ g' = _mem_resize_pool_store e.realloc_ok e.junk g1) ∨
         ∃ ps, (_mem_resize_pool_store e.realloc_ok e.junk g1).pool_store = some ps ∧
           (_mem_resize_pool_store e.realloc_ok e.junk g1).pool_store_size < ps.length ∧
           g' = { _mem_resize_pool_store e.realloc_ok e.junk g1 with
                    pool_store := some (ps.set
                      (_mem_resize_pool_store e.realloc_ok e.junk g1).pool_store_size (some e.addr))
                    pool_store_size := 1 } ∧
           res = some (e.addr, new_pool_mgr size policy))) := by
  unfold mem_pool_open at h
  simp only [] at h
  generalize (if g.pool_store.isNone = true then mem_init e.init_ok g
    else (g, alloc_status.ALLOC_OK)) = r at h ⊢
  refine ⟨r.1, rfl, ?_⟩
  by_cases hc : g.pool_store.isNone = true ∧ r.2 = .ALLOC_FAIL
  · rw [if_pos hc] at h
    simp only [Option.some.injEq, Prod.mk.injEq] at h
    exact Or.inl ⟨h.2.symm, h.1.symm⟩
  · rw [if_neg hc] at h
    cases hps : r.1.pool_store with
    | none => simp [hps] at h
    | some ps0 =>
      simp only [hps] at h
      refine Or.inr ⟨ps0, rfl, ?_⟩
      cases hf : e.fails with
      | some a =>
        cases a <;> simp [hf] at h
        all_goals exact Or.inl ⟨h.2.symm, h.1.symm⟩
      | none =>
        simp only [hf] at h
        cases hps2 : (_mem_resize_pool_store e.realloc_ok e.junk r.1).pool_store with
        | none => simp [hps2] at h
        | some ps =>
          simp only [hps2] at h
          by_cases hlt : (_mem_resize_pool_store e.realloc_ok e.junk r.1).pool_store_size < ps.length
          · rw [if_pos hlt] at h
            simp only [Option.some.injEq, Prod.mk.injEq] at h
            exact Or.inr ⟨ps, rfl, hlt, h.1.symm, h.2.symm⟩
          · rw [if_neg hlt] at h
            simp at h

/-- What `mem_pool_open` returns with a pool is the manager `new_pool_mgr`. -/
theorem mem_pool_open_mgr (e : open_env) (g g' : store_t) (size : Nat) (policy : alloc_policy)
    (addr : Nat) (m : pool_mgr_t)
    (h : mem_pool_open e g size policy = some (g', some (addr, m))) :
    m = new_pool_mgr size policy ∧ addr = e.addr := by
  obtain ⟨g1, _, hc⟩ := mem_pool_open_cases e g g' size policy _ h
  rcases hc with ⟨hn, _⟩ | ⟨ps0, _, ⟨hn, _⟩ | ⟨ps, _, _, _, hres⟩⟩
  · simp at hn
  · simp at hn
  · simp only [Option.some.injEq, Prod.mk.injEq] at hres
    exact ⟨hres.2, hres.1⟩

/-- C18: the pool that a successful `mem_pool_open(size, policy)` returns.  Its
segment list is the single node `node_heap[0]`, a free segment of `size` bytes with
null `prev` and `next`; the gap index has exactly one live entry, `size` bytes at
that node; and `total_size == size`, `policy` is the one asked for,
`alloc_size == 0`, `num_allocs == 0`, `num_gaps == 1`, `used_nodes == 1`. -/
theorem mem_pool_open_post (e : open_env) (g g' : store_t) (size : Nat) (policy : alloc_policy)
    (addr : Nat) (m : pool_mgr_t)
    (h : mem_pool_open e g size policy = some (g', some (addr, m))) :
    seg_list m = [.heap 0] ∧ segments m = [(size, 0)] ∧
    (node_at m (.heap 0)).map (fun n => (n.prev, n.next)) = some (.null, .null) ∧
    live_gaps m = [⟨size, .heap 0⟩] ∧
    m.pool.total_size = size ∧ m.pool.policy = policy ∧ m.pool.alloc_size = 0 ∧
    m.pool.num_allocs = 0 ∧ m.pool.num_gaps = 1 ∧ m.used_nodes = 1 := by
  obtain ⟨hm, _⟩ := mem_pool_open_mgr e g g' size policy addr m h
  subst hm
  exact ⟨rfl, rfl, rfl, rfl, rfl, rfl, rfl, rfl, rfl, rfl⟩

/-! ## The pool store across calls -/

/-- The pool store that `mem_init` makes when there is none satisfies `store_inv`. -/
theorem store_inv_init (ok : Bool) (g : store_t) (ops : List Nat) (h : store_inv (g, ops)) :
    store_inv ((if g.pool_store.isNone then mem_init ok g else (g, alloc_status.ALLOC_OK)).1, ops) := by
  cases hps : g.pool_store with
  | some ps => simpa [hps] using h
  | none =>
    have hops : ops = [] := by simpa [store_inv, hps] using h
    cases ok with
    | false =>
      simp only [Option.isNone_none, if_true, mem_init, hps]
      simpa [store_inv, hps] using hops
    | true =>
      simp only [Option.isNone_none, if_true, mem_init, hps]
      simp [store_inv, MEM_POOL_STORE_INIT_CAPACITY, hops]

/-- A pool store that satisfies `store_inv` is not full. -/
theorem store_inv_resize (ok : Bool) (junk : Nat → Option Nat) (g : store_t) (ops : List Nat)
    (ps : List (Option Nat)) (hps : g.pool_store = some ps) (h : store_inv (g, ops)) :
    _mem_resize_pool_store ok junk g = g := by
  simp only [store_inv, hps] at h
  obtain ⟨hcap, h2, hsz, _⟩ := h
  have : g.pool_store_size ≠ g.pool_store_capacity := by omega
  simp [_mem_resize_pool_store, this]

/-- A call of `mem_pool_open` keeps `store_inv`. -/
theorem store_inv_open (e : open_env) (size : Nat) (policy : alloc_policy)
    (s s' : store_t × List Nat) (h : store_inv s)
    (hs : store_step s (.pool_open e size policy) = some s') : store_inv s' := by
  obtain ⟨g, ops⟩ := s
  simp only [store_step] at hs
  cases hop : mem_pool_open e g size policy with
  | none => simp [hop] at hs
  | some r =>
    obtain ⟨g', res⟩ := r
    obtain ⟨g1, hg1, hcases⟩ := mem_pool_open_cases e g g' size policy res hop
    have hinv1 : store_inv (g1, ops) := by
      rw [hg1]
      exact store_inv_init e.init_ok g ops h
    rcases hcases with ⟨hres, hg'⟩ | ⟨ps0, hps0, hcases⟩
    · subst hres; subst hg'
      simp only [hop] at hs
      cases hs
      exact hinv1
    · have hrs := store_inv_resize e.realloc_ok e.junk g1 ops ps0 hps0 hinv1
      rw [hrs] at hcases
      rcases hcases with ⟨hres, hg'⟩ | ⟨ps, hps, hlt, hg', hres⟩
      · subst hres; subst hg'
        simp only [hop] at hs
        cases hs
        exact hinv1
      · subst hres
        simp only [hop] at hs
        by_cases hmem : e.addr ∈ ops
        · simp [hmem] at hs
        · simp only [hmem, if_false, Option.some.injEq] at hs
          subst hs
          rw [hps0] at hps
          cases hps
          simp only [store_inv, hps0] at hinv1
          obtain ⟨hcap, h2, hsz, hd⟩ := hinv1
          subst hg'
          simp only [store_inv, List.length_set]
          refine ⟨hcap, h2, le_refl _, ?_⟩
          have hsz01 : g1.pool_store_size = 0 ∨ g1.pool_store_size = 1 := by omega
          rcases hsz01 with h0 | h1
          · rw [h0]
            rcases hd with ⟨b, hb⟩ | ⟨h1, _⟩ | ⟨hz, hops⟩
            · left
              exact ⟨b, by simpa [List.getElem?_set] using hb⟩
            · omega
            · right; left
              have hpos : 0 < ps0.length := by omega
              refine ⟨by simp, e.addr, ?_, by rw [hops]⟩
              simp [List.getElem?_set, hpos]
          · rw [h1]
            left
            refine ⟨e.addr, ?_⟩
            have : 1 < ps0.length := by omega
            simp [List.getElem?_set, this]

/-- The loop of `mem_pool_close` over at most one entry: only entry 0 can change, and
it is cleared when it holds the manager. -/
theorem store_clear_one (addr : Nat) (ps ps1 : List (Option Nat)) (n : Nat) (hn : n ≤ 1)
    (h : store_clear addr ps n = some ps1) :
    ps1.length = ps.length ∧ ps1[1]? = ps[1]? ∧
      (n = 0 → ps1 = ps) ∧
      (n = 1 → ps[0]? = some (some addr) → ps1[0]? = some none) := by
  have hn01 : n = 0 ∨ n = 1 := by omega
  rcases hn01 with h0 | h1
  · subst h0
    have : ps1 = ps := by
      cases ps <;> simpa [store_clear] using h.symm
    subst this
    exact ⟨rfl, rfl, fun _ => rfl, fun hc => by omega⟩
  · subst h1
    cases ps with
    | nil => simp [store_clear] at h
    | cons e rest =>
      by_cases he : e = some addr
      · simp only [store_clear, he, if_true, Option.some.injEq] at h
        subst h
        exact ⟨rfl, rfl, fun hc => by omega, fun _ _ => by simp⟩
      · have hr : store_clear addr rest 0 = some rest := by cases rest <;> rfl
        simp only [store_clear, he, if_false, hr, Option.map_some', Option.some.injEq] at h
        subst h
        refine ⟨rfl, rfl, fun hc => by omega, fun _ hc => ?_⟩
        simp at hc
        exact absurd hc he

/-- A call of `mem_pool_close` keeps `store_inv`. -/
theorem store_inv_close (addr : Nat) (m : pool_mgr_t)
    (s s' : store_t × List Nat) (h : store_inv s)
    (hs : store_step s (.pool_close addr m) = some s') : store_inv s' := by
  obtain ⟨g, ops⟩ := s
  simp only [store_step] at hs
  by_cases hmem : addr ∈ ops
  · simp only [hmem, if_true] at hs
    cases hcl : mem_pool_close g (some (addr, m)) with
    | none => simp [hcl] at hs
    | some r =>
      obtain ⟨g', st⟩ := r
      simp only [hcl, Option.some.injEq] at hs
      subst hs
      unfold mem_pool_close at hcl
      simp only at hcl
      by_cases hg : m.pool.num_gaps ≠ 1
      · rw [if_pos hg] at hcl
        simp only [Option.some.injEq, Prod.mk.injEq] at hcl
        obtain ⟨e1, e2⟩ := hcl
        subst e1; subst e2
        simpa using h
      · rw [if_neg hg] at hcl
        by_cases ha : m.pool.num_allocs ≠ 0
        · rw [if_pos ha] at hcl
          simp only [Option.some.injEq, Prod.mk.injEq] at hcl
          obtain ⟨e1, e2⟩ := hcl
          subst e1; subst e2
          simpa using h
        · rw [if_neg ha] at hcl
          cases hps : g.pool_store with
          | none =>
            have : ops = [] := by simpa [store_inv, hps] using h
            rw [this] at hmem
            simp at hmem
          | some ps =>
            simp only [hps] at hcl
            cases hc : store_clear addr ps g.pool_store_size with
            | none => simp [hc] at hcl
            | some ps1 =>
              simp only [hc, Option.some.injEq, Prod.mk.injEq] at hcl
              obtain ⟨e1, e2⟩ := hcl
              subst e1; subst e2
              simp only [store_inv, hps] at h
              obtain ⟨hcap, h2, hsz, hd⟩ := h
              obtain ⟨hlen, hone, hzero, hclr⟩ := store_clear_one addr ps ps1 _ hsz hc
              simp only [store_inv, if_true]
              refine ⟨by rw [hlen]; exact hcap, by rw [hlen]; exact h2, hsz, ?_⟩
              rcases hd with ⟨b, hb⟩ | ⟨h1, a, ha0, hops⟩ | ⟨_, hops⟩
              · left
                exact ⟨b, by rw [hone]; exact hb⟩
              · right; right
                rw [hops] at hmem
                have : addr = a := by simpa using hmem
                subst this
                refine ⟨hclr h1 ha0, ?_⟩
                rw [hops]
                simp
              · rw [hops] at hmem
                simp at hmem
  · simp [hmem] at hs

/-- A sequence of calls keeps `store_inv`. -/
theorem store_inv_run : ∀ (cs : List store_call) (s s' : store_t × List Nat),
    store_inv s → store_run cs s = some s' → store_inv s' := by
  intro cs
  induction cs with
  | nil =>
    intro s s' h hr
    simp only [store_run, Option.some.injEq] at hr
    subst hr
    exact h
  | cons c cs ih =>
    intro s s' h hr
    simp only [store_run, Option.bind_eq_some] at hr
    obtain ⟨s1, hs1, hr⟩ := hr
    refine ih s1 s' ?_ hr
    cases c with
    | pool_open e size policy => exact store_inv_open e size policy s s1 h hs1
    | pool_close addr m => exact store_inv_close addr m s s1 h hs1
    | pool_close_null =>
      simp only [store_step, mem_pool_close, Option.some.injEq] at hs1
      subst hs1
      exact h

/-- The loop of `mem_free` stays inside a pool store of at least `n` entries. -/
theorem store_scan_total (ps : List (Option Nat)) :
    ∀ n, n ≤ ps.length → ∃ b, store_scan ps n = some b := by
  intro n
  induction n with
  | zero => intro _; exact ⟨false, rfl⟩
  | succ k ih =>
    intro hk
    obtain ⟨b, hb⟩ := ih (by omega)
    have hlt : k < ps.length := by omega
    exact ⟨b || (ps[k]).isSome, by simp [store_scan, hb, List.getElem?_eq_getElem hlt]⟩

/-- The loop of `mem_free` finds a pool manager that is among the entries it reads. -/
theorem store_scan_true (ps : List (Option Nat)) (i a : Nat) (hi : ps[i]? = some (some a)) :
    ∀ n, n ≤ ps.length → i < n → store_scan ps n = some true := by
  intro n
  induction n with
  | zero => intro _ h; omega
  | succ k ih =>
    intro hk hik
    obtain ⟨b, hb⟩ := store_scan_total ps k (by omega)
    have hlt : k < ps.length := by omega
    by_cases hek : i = k
    · subst hek
      simp [store_scan, hb, hi]
    · have := ih (by omega) (by omega)
      simp [store_scan, this, List.getElem?_eq_getElem hlt]

/-- C17: `mem_free` is refused while a pool is open.  Take any sequence of calls of
`mem_pool_open` and `mem_pool_close`, on the pool store as it is at program start
or as `mem_init` has made it, with whatever the environment answers, and closes
made on open pools in whatever state, or on a null handle.  If a pool is open after the sequence
(opened, and not closed with `ALLOC_OK`), then `mem_free` returns `ALLOC_FAIL` and
leaves the store, its size and its capacity as they are. -/
theorem mem_free_refused_while_open (cs : List store_call) (g0 g : store_t) (ops : List Nat)
    (hstart : g0 = store_start ∨ g0 = (mem_init true store_start).1)
    (hrun : store_run cs (g0, []) = some (g, ops)) (hopen : ops ≠ []) :
    mem_free g = some (g, .ALLOC_FAIL) := by
  have h0 : store_inv (g0, []) := by
    rcases hstart with e | e
    · subst e
      simp [store_inv, store_start]
    · subst e
      simp [store_inv, store_start, mem_init, MEM_POOL_STORE_INIT_CAPACITY]
  have hinv := store_inv_run cs _ _ h0 hrun
  cases hps : g.pool_store with
  | none =>
    simp only [store_inv, hps] at hinv
    exact absurd hinv hopen
  | some ps =>
    simp only [store_inv, hps] at hinv
    obtain ⟨hcap, h2, hsz, hd⟩ := hinv
    have hscan : store_scan ps g.pool_store_capacity = some true := by
      rcases hd with ⟨b, hb⟩ | ⟨_, a, ha, _⟩ | ⟨_, hops⟩
      · exact store_scan_true ps 1 b hb _ (by omega) (by omega)
      · exact store_scan_true ps 0 a ha _ (by omega) (by omega)
      · exact absurd hops hopen
    simp [mem_free, hps, hscan]

/-! ## Deallocation: the merged segment -/

/-- The segment list after `del_next_step`, with the sizes: only the node `x` can
change its size, and it takes up the size of a free node behind it, which is
marked unused. -/
theorem del_next_step_sizes (m m3 : pool_mgr_t) (x : Nat) (pre post : List Nat) (nx : node_t)
    (hl : linked m.node_heap .null (pre ++ x :: post) .null)
    (hnd : (pre ++ x :: post).Nodup)
    (hx : m.node_heap[x]? = some nx)
    (h : del_next_step m (.heap x) = some m3) :
    ∃ B s3, linked m3.node_heap .null (pre ++ x :: B) .null ∧ (pre ++ x :: B).Nodup ∧
      (∀ j : Nat, j ≠ x → (m3.node_heap[j]?).map seg_pair = (m.node_heap[j]?).map seg_pair) ∧
      (m3.node_heap[x]?).map seg_pair = some (s3, nx.allocated) ∧
      ((B = post ∧ s3 = nx.size ∧
          ∀ b nb, post.head? = some b → m.node_heap[b]? = some nb → nb.allocated ≠ 0) ∨
        ∃ n nn, post = n :: B ∧ m.node_heap[n]? = some nn ∧ nn.allocated = 0 ∧
          s3 = (nx.size + nn.size) % SIZE_MOD ∧
          (m3.node_heap[n]?).map (fun r => r.used) = some 0) := by
  rcases del_next_step_spec m m3 x pre post hl hnd h with ⟨e, hfree⟩ | ⟨n, nn, B, hp, hn, ha, hg⟩
  · subst e
    exact ⟨post, nx.size, hl, hnd, fun _ _ => rfl, by simp [hx, seg_pair],
      Or.inl ⟨rfl, rfl, hfree⟩⟩
  · subst hp
    obtain ⟨hxpre, hxpost, _, _, _⟩ := nodup_mid _ _ _ hnd
    have hxn : x ≠ n := fun e => hxpost (e ▸ List.mem_cons_self _ _)
    refine ⟨B, (nx.size + nn.size) % SIZE_MOD, ?_, nodup_drop_next _ _ _ _ hnd, ?_, ?_,
      Or.inr ⟨n, nn, rfl, hn, ha, rfl, ?_⟩⟩
    · refine linked_unlink m.node_heap m3.node_heap x n pre B nn hl hnd hn ?_ ?_
      · rw [hg x]
        simp only [hxn, if_false, if_true]
        cases m.node_heap[x]? <;> simp [links]
      · intro j hjx hjn
        rw [hg j]
        simp only [hjn, hjx, if_false]
    · intro j hjx
      rw [hg j]
      by_cases hjn : j = n
      · subst hjn
        simp [hn, seg_pair]
      · simp only [hjn, hjx, if_false]
        split
        · cases m.node_heap[j]? <;> simp [seg_pair]
        · rfl
    · rw [hg x]
      simp [hxn, hx, seg_pair]
    · rw [hg n]
      simp

/-- The segment list after `del_prev_step`, with the sizes: a free node in front of
`x` takes up the size of `x`, which is marked unused. -/
theorem del_prev_step_sizes (m m4 : pool_mgr_t) (c : node_pt) (x : Nat) (pre post : List Nat)
    (nx : node_t)
    (hl : linked m.node_heap .null (pre ++ x :: post) .null)
    (hnd : (pre ++ x :: post).Nodup)
    (hx : m.node_heap[x]? = some nx)
    (h : del_prev_step m (.heap x) = some (m4, c)) :
    ∃ A k, c = .heap k ∧ linked m4.node_heap .null (A ++ k :: post) .null ∧
      (A ++ k :: post).Nodup ∧
      ((A = pre ∧ k = x ∧ m4 = m ∧
          ∀ p np, pre.getLast? = some p → m.node_heap[p]? = some np → np.allocated ≠ 0) ∨
        ∃ np, pre = A ++ [k] ∧ m.node_heap[k]? = some np ∧ np.allocated = 0 ∧
          (∀ j : Nat, j ≠ k → j ≠ x →
            (m4.node_heap[j]?).map scan_key = (m.node_heap[j]?).map scan_key) ∧
          (m4.node_heap[k]?).map seg_pair = some ((np.size + nx.size) % SIZE_MOD, 0) ∧
          (m4.node_heap[x]?).map (fun r => r.used) = some 0) := by
  rcases del_prev_step_spec m m4 c x pre post hl hnd h with
    ⟨e, hc, hfree⟩ | ⟨A, p, np, nx', hp, hnp, ha, hc, hx', hg⟩
  · subst e
    exact ⟨pre, x, hc, hl, hnd, Or.inl ⟨rfl, rfl, rfl, hfree⟩⟩
  · subst hp
    have hnx : nx' = nx := by
      rw [hx] at hx'
      exact (Option.some.inj hx').symm
    subst hnx
    have hl' : linked m.node_heap .null (A ++ p :: x :: post) .null := by
      simpa using hl
    have hnd' : (A ++ p :: x :: post).Nodup := by
      simpa using hnd
    obtain ⟨_, hppost, _, _, _⟩ := nodup_mid _ _ _ hnd'
    have hpx : p ≠ x := fun e => hppost (e ▸ List.mem_cons_self _ _)
    refine ⟨A, p, hc, ?_, nodup_drop_next _ _ _ _ hnd', Or.inr ⟨np, rfl, hnp, ha, ?_, ?_, ?_⟩⟩
    · refine linked_unlink m.node_heap m4.node_heap p x A post nx' hl' hnd' hx ?_ ?_
      · rw [hg p]
        simp only [hpx, if_false, if_true]
        cases m.node_heap[p]? <;> simp [links]
      · intro j hjp hjx
        rw [hg j]
        simp only [hjp, hjx, if_false]
    · intro j hjp hjx
      rw [hg j]
      simp only [hjp, hjx, if_false]
      split
      · cases m.node_heap[j]? <;> simp [scan_key]
      · rfl
    · rw [hg p]
      simp [hpx, hnp, seg_pair, ha]
    · rw [hg x]
      simp

/-- Nodes with the same size, flag and use mark have the same size and flag. -/
theorem pair_of_key (a b : Option node_t) (h : a.map scan_key = b.map scan_key) :
    a.map seg_pair = b.map seg_pair := by
  cases a <;> cases b <;> simp_all [scan_key, seg_pair]

/-- Nodes with the same size, flag and use mark have the same use mark. -/
theorem used_of_key (a b : Option node_t) (h : a.map scan_key = b.map scan_key) :
    a.map (fun r => r.used) = b.map (fun r => r.used) := by
  cases a <;> cases b <;> simp_all [scan_key]

/-- A node whose size and flag are known exists. -/
theorem pair_eq_some (h : List node_t) (j : Nat) (p : Nat × Nat) :
    (h[j]?).map seg_pair = some p ↔ ∃ n, h[j]? = some n ∧ n.size = p.1 ∧ n.allocated = p.2 := by
  cases h[j]? with
  | none => simp
  | some n =>
    obtain ⟨a, b⟩ := p
    simp [seg_pair]

/-- The nodes after a successful `mem_del_alloc` on a node `x` of the segment list
`pre ++ x :: post`: the new list, the sizes and flags of its nodes, and the nodes
that the call has marked unused. -/
theorem mem_del_alloc_nodes (m m' : pool_mgr_t) (x : Nat) (pre post : List Nat) (nx : node_t)
    (hl : linked m.node_heap .null (pre ++ x :: post) .null)
    (hnd : (pre ++ x :: post).Nodup)
    (hx : m.node_heap[x]? = some nx)
    (h : mem_del_alloc m (.heap x) = some (m', .ALLOC_OK)) :
    ∃ A k B s3 s4, linked m'.node_heap .null (A ++ k :: B) .null ∧ (A ++ k :: B).Nodup ∧
      (∀ j : Nat, j ≠ x → j ≠ k →
        (m'.node_heap[j]?).map seg_pair = (m.node_heap[j]?).map seg_pair) ∧
      (m'.node_heap[k]?).map seg_pair = some (s4, 0) ∧
      ((B = post ∧ s3 = nx.size ∧
          ∀ b nb, post.head? = some b → m.node_heap[b]? = some nb → nb.allocated ≠ 0) ∨
        ∃ n nn, post = n :: B ∧ m.node_heap[n]? = some nn ∧ nn.allocated = 0 ∧
          s3 = (nx.size + nn.size) % SIZE_MOD ∧
          (m'.node_heap[n]?).map (fun r => r.used) = some 0) ∧
      ((A = pre ∧ k = x ∧ s4 = s3 ∧
          ∀ p np, pre.getLast? = some p → m.node_heap[p]? = some np → np.allocated ≠ 0) ∨
        ∃ np, pre = A ++ [k] ∧ m.node_heap[k]? = some np ∧ np.allocated = 0 ∧
          s4 = (np.size + s3) % SIZE_MOD ∧
          (m'.node_heap[x]?).map (fun r => r.used) = some 0) := by
  obtain ⟨hxpre, hxpost, _, _, hdisj⟩ := nodup_mid _ _ _ hnd
  unfold mem_del_alloc at h
  by_cases hlt : x < m.total_nodes
  · simp only [hlt, if_true, Option.bind_eq_some] at h
    obtain ⟨m1, hm1, td, _, m3, hm3, r, hr, fin, _, a, ha, hres⟩ := h
    have g1 := node_upd_get _ _ _ _ hm1
    have hx1 : m1.node_heap[x]? = some { nx with allocated := 0 } := by
      rw [g1 x, if_pos rfl, hx]
      rfl
    have ho1 : ∀ j : Nat, j ≠ x → m1.node_heap[j]? = m.node_heap[j]? := by
      intro j hj
      rw [g1 j]
      simp [hj]
    have hl1 : linked m1.node_heap .null (pre ++ x :: post) .null := by
      refine linked_congr_links m.node_heap m1.node_heap _ _ _ ?_ hl
      intro b _
      rw [g1 b]
      split
      · cases m.node_heap[b]? <;> simp [links]
      · rfl
    obtain ⟨B, s3, hl3, hnd3, hf3, hp3, hB⟩ :=
      del_next_step_sizes _ m3 x pre post _ (by exact hl1) hnd (by exact hx1) hm3
    obtain ⟨n3, hn3, hs3, ha3⟩ := (pair_eq_some _ _ _).mp hp3
    simp only at hs3 ha3
    have hr' : del_prev_step m3 (.heap x) = some (r.1, r.2) := hr
    obtain ⟨A, k, hc, hl4, hnd4, hA⟩ :=
      del_prev_step_sizes m3 r.1 r.2 x pre B n3 hl3 hnd3 hn3 hr'
    have ea := (add_to_gap_ix_heap _ _ _ _ ha).1
    have em : m' = a.1 := by
      split at hres
      · simp at hres
      · simp only [Option.some.injEq, Prod.mk.injEq] at hres
        exact hres.1.symm
    have e' : m'.node_heap = r.1.node_heap := by rw [em, ea]
    have hpair31 : ∀ j : Nat, j ≠ x →
        (m3.node_heap[j]?).map seg_pair = (m.node_heap[j]?).map seg_pair := by
      intro j hj
      rw [hf3 j hj]
      exact congrArg _ (ho1 j hj)
    -- the facts on the node behind `x`, in terms of the pool before the call
    have hB' : (B = post ∧ s3 = nx.size ∧
          ∀ b nb, post.head? = some b → m.node_heap[b]? = some nb → nb.allocated ≠ 0) ∨
        ∃ n nn, post = n :: B ∧ m.node_heap[n]? = some nn ∧ nn.allocated = 0 ∧
          s3 = (nx.size + nn.size) % SIZE_MOD ∧
          (m3.node_heap[n]?).map (fun r => r.used) = some 0 := by
      rcases hB with ⟨e1, e2, hfree⟩ | ⟨n, nn, e, hn, hz, e2, hu⟩
      · left
        refine ⟨e1, e2, ?_⟩
        intro b nb hb hnb
        have hbx : b ≠ x := fun e' => hxpost (e' ▸ List.mem_of_mem_head? hb)
        exact hfree b nb hb (by rw [← hnb]; exact ho1 b hbx)
      · right
        have hnx : n ≠ x := fun e' => hxpost (by rw [e, ← e']; exact List.mem_cons_self _ _)
        exact ⟨n, nn, e, by rw [← hn]; exact (ho1 n hnx).symm, hz, e2, hu⟩
    rcases hA with ⟨e1, e2, e3, hfree⟩ | ⟨np3, e, hnp3, hz3, hframe, hpk, hux⟩
    · -- nothing is merged in front
      refine ⟨A, k, B, s3, s3, by rw [e']; exact hl4, hnd4, ?_, ?_, ?_, ?_⟩
      · intro j hjx _
        rw [e', e3]
        exact hpair31 j hjx
      · rw [e', e3, e2]
        exact hp3
      · rcases hB' with hB' | ⟨n, nn, e, hn, hz, e2', hu⟩
        · exact Or.inl hB'
        · exact Or.inr ⟨n, nn, e, hn, hz, e2', by rw [e', e3]; exact hu⟩
      · left
        refine ⟨e1, e2, rfl, ?_⟩
        intro p np hp hnp
        have hpx : p ≠ x := fun ec => hxpre (ec ▸ List.mem_of_mem_getLast? hp)
        have hpp := hpair31 p hpx
        rw [hnp] at hpp
        obtain ⟨np3, hnp3, _, hal⟩ := (pair_eq_some _ _ _).mp hpp
        have := hfree p np3 hp hnp3
        simp only [seg_pair] at hal
        rw [hal] at this
        exact this
    · -- the free node `k` in front takes up `x`
      have hkx : k ≠ x := by
        intro ec
        apply hxpre
        rw [e, ← ec]
        simp
      have hpk3 := hpair31 k hkx
      rw [hnp3] at hpk3
      obtain ⟨np, hnp, hsz, hal⟩ := (pair_eq_some _ _ _).mp hpk3.symm
      simp only [seg_pair] at hsz hal
      refine ⟨A, k, B, s3, (np.size + s3) % SIZE_MOD, by rw [e']; exact hl4, hnd4, ?_, ?_, ?_, ?_⟩
      · intro j hjx hjk
        rw [e', pair_of_key _ _ (hframe j hjk hjx)]
        exact hpair31 j hjx
      · rw [e', hpk, hsz, hs3]
      · rcases hB' with hB' | ⟨n, nn, e2, hn, hz, e2', hu⟩
        · exact Or.inl hB'
        · right
          have hnx : n ≠ x := fun ec => hxpost (by rw [e2, ← ec]; exact List.mem_cons_self _ _)
          have hnk : n ≠ k := by
            intro ec
            apply hdisj k (by rw [e]; simp)
            rw [e2, ← ec]
            exact List.mem_cons_self _ _
          exact ⟨n, nn, e2, hn, hz, e2', by
            rw [e', used_of_key _ _ (hframe n hnk hnx)]; exact hu⟩
      · right
        exact ⟨np, e, hnp, by rw [hal]; exact hz3, rfl, by rw [e']; exact hux⟩
  · simp [hlt] at h

/-- The pairs of a list depend only on the sizes and flags of its nodes. -/
theorem pairs_congr (h h' : List node_t) (l : List Nat)
    (hs : ∀ a ∈ l, (h'[a]?).map seg_pair = (h[a]?).map seg_pair) :
    pairs h' l = pairs h l := by
  induction l with
  | nil => rfl
  | cons a t ih =>
    have h1 := hs a (List.mem_cons_self _ _)
    have h2 := ih (fun b hb => hs b (List.mem_cons_of_mem _ hb))
    simp only [pairs, List.filterMap_cons] at h2 ⊢
    rw [h1, h2]

/-- The pairs of a concatenation. -/
theorem pairs_append (h : List node_t) (l1 l2 : List Nat) :
    pairs h (l1 ++ l2) = pairs h l1 ++ pairs h l2 := by
  simp [pairs, List.filterMap_append]

/-- The pairs of a list whose first pair is known. -/
theorem pairs_cons (h : List node_t) (a : Nat) (l : List Nat) (p : Nat × Nat)
    (hn : (h[a]?).map seg_pair = some p) : pairs h (a :: l) = p :: pairs h l := by
  simp [pairs, List.filterMap_cons, hn]

/-- The node pointers of the segment list of a pool whose list is `node_heap[0] :: l`. -/
theorem seg_list_linked (m : pool_mgr_t) (l : List Nat)
    (hl : linked m.node_heap .null (0 :: l) .null) (hnd : (0 :: l).Nodup) :
    seg_list m = (0 :: l).map node_pt.heap := by
  have hlen : (0 :: l).length ≤ m.node_heap.length + m.ext_nodes.length := by
    have := nodup_bounded_length m.node_heap.length (0 :: l) hnd
      (linked_valid _ _ _ _ hl)
    omega
  exact walk_linked m (0 :: l) .null _ hlen hl

/-- The segments of a pool whose list is `node_heap[0] :: l`. -/
theorem segments_linked (m : pool_mgr_t) (l : List Nat)
    (hl : linked m.node_heap .null (0 :: l) .null) (hnd : (0 :: l).Nodup) :
    segments m = pairs m.node_heap (0 :: l) := by
  unfold segments pairs
  rw [seg_nodes_linked m l hl hnd, List.map_filterMap]
  rfl

/-- The sum of the sizes of the segments, on the pairs. -/
theorem seg_total_pairs (m : pool_mgr_t) : seg_total m = ((segments m).map Prod.fst).sum := by
  unfold seg_total segments
  rw [List.map_map]
  rfl

/-- A free segment at the end of a list is no larger than the sizes of the list
together. -/
theorem free_size_getLast_le (l : List (Nat × Nat)) (s : Nat)
    (h : free_size l.getLast? = some s) : s ≤ (l.map Prod.fst).sum := by
  rcases List.eq_nil_or_concat l with e | ⟨T, p, e⟩
  · subst e
    simp [free_size] at h
  · rw [List.concat_eq_append] at e
    subst e
    obtain ⟨a, b⟩ := p
    simp only [List.getLast?_append, List.getLast?_singleton, Option.or, free_size] at h
    split at h
    · simp only [Option.some.injEq] at h
      subst h
      simp
    · simp at h

/-- A free segment at the head of a list is no larger than the sizes of the list
together. -/
theorem free_size_head_le (l : List (Nat × Nat)) (s : Nat)
    (h : free_size l.head? = some s) : s ≤ (l.map Prod.fst).sum := by
  cases l with
  | nil => simp [free_size] at h
  | cons p T =>
    obtain ⟨a, b⟩ := p
    simp only [List.head?_cons, free_size] at h
    split at h
    · simp only [Option.some.injEq] at h
      subst h
      simp
    · simp at h

/-- The segments after a successful `mem_del_alloc` on the node `x` of the segment
list `node_heap[0] :: l = pre ++ x :: post`: they are `merge_run` of the segments
before, and every node of the old list that is no longer in the list is marked
unused. -/
theorem mem_del_alloc_segments (m m' : pool_mgr_t) (l pre post : List Nat) (x : Nat)
    (hl : linked m.node_heap .null (0 :: l) .null) (hnd : (0 :: l).Nodup)
    (hsplit : 0 :: l = pre ++ x :: post)
    (hsz : seg_total m < SIZE_MOD)
    (hdel : mem_del_alloc m (.heap x) = some (m', .ALLOC_OK)) :
    ∃ nx, m.node_heap[x]? = some nx ∧
      segments m = pairs m.node_heap pre ++ seg_pair nx :: pairs m.node_heap post ∧
      segments m' = merge_run (pairs m.node_heap pre) nx.size (pairs m.node_heap post) ∧
      ∀ j ∈ 0 :: l, node_pt.heap j ∉ seg_list m' →
        (m'.node_heap[j]?).map (fun r => r.used) = some 0 := by
  have hseg := segments_linked m l hl hnd
  rw [hsplit] at hl hnd hseg
  obtain ⟨nx, hnx⟩ := linked_get _ _ _ _ hl x (by simp)
  have hpx : (m.node_heap[x]?).map seg_pair = some (seg_pair nx) := by rw [hnx]; rfl
  rw [pairs_append, pairs_cons _ _ _ _ hpx] at hseg
  have htot : ((pairs m.node_heap pre).map Prod.fst).sum + nx.size +
      ((pairs m.node_heap post).map Prod.fst).sum < SIZE_MOD := by
    rw [seg_total_pairs, hseg] at hsz
    simp only [List.map_append, List.map_cons, List.sum_append, List.sum_cons, seg_pair] at hsz
    omega
  obtain ⟨A, k, B, s3, s4, hl', hnd', hframe, hpk, hB, hA⟩ :=
    mem_del_alloc_nodes m m' x pre post nx hl hnd hnx hdel
  obtain ⟨hxpre, hxpost, _, _, hdisj⟩ := nodup_mid _ _ _ hnd
  obtain ⟨hkA, hkB, _, _, _⟩ := nodup_mid _ _ _ hnd'
  -- the head of the list is still `node_heap[0]`
  have hhead : ∃ l', A ++ k :: B = 0 :: l' := by
    rcases hA with ⟨e1, e2, _⟩ | ⟨np, e, _⟩
    · subst e1; subst e2
      cases A with
      | nil =>
        simp only [List.nil_append, List.cons.injEq] at hsplit
        exact ⟨B, by rw [← hsplit.1]; rfl⟩
      | cons a t =>
        simp only [List.cons_append, List.cons.injEq] at hsplit
        exact ⟨t ++ k :: B, by rw [← hsplit.1]; rfl⟩
    · subst e
      cases A with
      | nil =>
        simp only [List.nil_append, List.cons_append, List.cons.injEq] at hsplit
        exact ⟨B, by rw [← hsplit.1]; rfl⟩
      | cons a t =>
        simp only [List.cons_append, List.cons.injEq] at hsplit
        exact ⟨t ++ k :: B, by rw [← hsplit.1]; rfl⟩
  obtain ⟨l', hl'eq⟩ := hhead
  have hl2 := hl'
  have hnd2 := hnd'
  rw [hl'eq] at hl2 hnd2
  have hseg' := segments_linked m' l' hl2 hnd2
  have hlist' := seg_list_linked m' l' hl2 hnd2
  rw [← hl'eq] at hseg' hlist'
  have hAsub : ∀ a ∈ A, a ∈ pre := by
    intro a ha
    rcases hA with ⟨e1, _, _⟩ | ⟨np, e, _⟩
    · rw [← e1]; exact ha
    · rw [e]; exact List.mem_append_left _ ha
  have hBsub : ∀ b ∈ B, b ∈ post := by
    intro b hb
    rcases hB with ⟨e1, _⟩ | ⟨n, nn, e, _⟩
    · rw [← e1]; exact hb
    · rw [e]; exact List.mem_cons_of_mem _ hb
  have hpA : pairs m'.node_heap A = pairs m.node_heap A := by
    refine pairs_congr _ _ _ ?_
    intro a ha
    exact hframe a (fun e => hxpre (e ▸ hAsub a ha)) (fun e => hkA (e ▸ ha))
  have hpB : pairs m'.node_heap B = pairs m.node_heap B := by
    refine pairs_congr _ _ _ ?_
    intro b hb
    exact hframe b (fun e => hxpost (e ▸ hBsub b hb)) (fun e => hkB (e ▸ hb))
  rw [pairs_append, pairs_cons _ _ _ _ hpk, hpA, hpB] at hseg'
  -- the segment in front
  have hfront : (free_size (pairs m.node_heap pre).getLast? = none ∧
        pairs m.node_heap A = pairs m.node_heap pre ∧ s4 = s3) ∨
      ∃ sp, free_size (pairs m.node_heap pre).getLast? = some sp ∧
        pairs m.node_heap A = (pairs m.node_heap pre).dropLast ∧
        s4 = (sp + s3) % SIZE_MOD := by
    rcases hA with ⟨e1, _, e3, hfree⟩ | ⟨np, e, hnp, hz, e3, _⟩
    · left
      refine ⟨?_, by rw [e1], e3⟩
      rcases List.eq_nil_or_concat pre with hnil | ⟨T, p, hcat⟩
      · rw [hnil]
        rfl
      · rw [List.concat_eq_append] at hcat
        obtain ⟨np, hnp⟩ := linked_get _ _ _ _ hl p (by rw [hcat]; simp)
        have hpp : (m.node_heap[p]?).map seg_pair = some (seg_pair np) := by rw [hnp]; rfl
        have hne := hfree p np (by rw [hcat]; simp) hnp
        rw [hcat, pairs_append, pairs_cons _ _ _ _ hpp]
        simp [pairs, free_size, seg_pair, hne]
    · right
      have hpp : (m.node_heap[k]?).map seg_pair = some (seg_pair np) := by rw [hnp]; rfl
      refine ⟨np.size, ?_, ?_, e3⟩
      · rw [e, pairs_append, pairs_cons _ _ _ _ hpp]
        simp [pairs, free_size, seg_pair, hz]
      · rw [e, pairs_append, pairs_cons _ _ _ _ hpp]
        simp [pairs]
  -- the segment behind
  have hback : (free_size (pairs m.node_heap post).head? = none ∧
        pairs m.node_heap B = pairs m.node_heap post ∧ s3 = nx.size) ∨
      ∃ sn, free_size (pairs m.node_heap post).head? = some sn ∧
        pairs m.node_heap B = (pairs m.node_heap post).tail ∧
        s3 = (nx.size + sn) % SIZE_MOD := by
    rcases hB with ⟨e1, e3, hfree⟩ | ⟨n, nn, e, hn, hz, e3, _⟩
    · left
      refine ⟨?_, by rw [e1], e3⟩
      cases hpost : post with
      | nil => rfl
      | cons b T =>
        obtain ⟨nb, hnb⟩ := linked_get _ _ _ _ hl b (by rw [hpost]; simp)
        have hpp : (m.node_heap[b]?).map seg_pair = some (seg_pair nb) := by rw [hnb]; rfl
        have hne := hfree b nb (by rw [hpost]; rfl) hnb
        rw [pairs_cons _ _ _ _ hpp]
        simp [free_size, seg_pair, hne]
    · right
      have hpp : (m.node_heap[n]?).map seg_pair = some (seg_pair nn) := by rw [hn]; rfl
      refine ⟨nn.size, ?_, ?_, e3⟩
      · rw [e, pairs_cons _ _ _ _ hpp]
        simp [free_size, seg_pair, hz]
      · rw [e, pairs_cons _ _ _ _ hpp]
        rfl
  refine ⟨nx, hnx, hseg, ?_, ?_⟩
  · rw [hseg']
    unfold merge_run
    rcases hfront with ⟨f1, f2, f3⟩ | ⟨sp, f1, f2, f3⟩
    · rcases hback with ⟨b1, b2, b3⟩ | ⟨sn, b1, b2, b3⟩
      · simp only [f1, b1, f2, b2, f3, b3]
        simp
      · have hle := free_size_head_le _ _ b1
        have hmod : (nx.size + sn) % SIZE_MOD = nx.size + sn := Nat.mod_eq_of_lt (by omega)
        simp only [f1, b1, f2, b2, f3, b3, hmod]
        simp
    · have hlep := free_size_getLast_le _ _ f1
      rcases hback with ⟨b1, b2, b3⟩ | ⟨sn, b1, b2, b3⟩
      · have hmod : (sp + nx.size) % SIZE_MOD = sp + nx.size := Nat.mod_eq_of_lt (by omega)
        simp only [f1, b1, f2, b2, f3, b3, hmod]
        simp
      · have hle := free_size_head_le _ _ b1
        have hmod1 : (nx.size + sn) % SIZE_MOD = nx.size + sn := Nat.mod_eq_of_lt (by omega)
        have hmod2 : (sp + (nx.size + sn)) % SIZE_MOD = sp + (nx.size + sn) :=
          Nat.mod_eq_of_lt (by omega)
        simp only [f1, b1, f2, b2, f3, b3, hmod1, hmod2]
        simp [Nat.add_assoc]
  · intro j hj hnot
    rw [hlist'] at hnot
    have hjn : j ∉ A ++ k :: B := fun hc => hnot (List.mem_map_of_mem _ hc)
    rw [hsplit] at hj
    simp only [List.mem_append, List.mem_cons, not_or] at hjn hj
    obtain ⟨hjA, hjk, hjB⟩ := hjn
    rcases hj with hj | hj | hj
    · rcases hA with ⟨e1, _, _⟩ | ⟨np, e, _⟩
      · exact absurd (e1 ▸ hj) hjA
      · rw [e] at hj
        simp only [List.mem_append, List.mem_singleton] at hj
        rcases hj with hj | hj
        · exact absurd hj hjA
        · exact absurd hj hjk
    · rcases hA with ⟨_, e2, _⟩ | ⟨np, _, _, _, _, hu⟩
      · exact absurd (hj.trans e2.symm) hjk
      · rw [hj]
        exact hu
    · rcases hB with ⟨e1, _⟩ | ⟨n, nn, e, _, _, _, hu⟩
      · exact absurd (e1 ▸ hj) hjB
      · rw [e] at hj
        simp only [List.mem_cons] at hj
        rcases hj with hj | hj
        · rw [hj]
          exact hu
        · exact absurd hj hjB

/-! ## Deallocation returns -/

/-- The scan of the gap index finds a node that has an entry. -/
theorem gap_scan_some (q : node_pt) :
    ∀ (G : List gap_t) (k : Nat), (∃ e ∈ G, e.node = q) →
      ∃ i, gap_scan q G k = some i ∧ k ≤ i ∧ ∃ e, G[i - k]? = some e ∧ e.node = q := by
  intro G
  induction G with
  | nil => intro k h; obtain ⟨e, he, _⟩ := h; simp at he
  | cons g rest ih =>
    intro k h
    by_cases hg : g.node = q
    · exact ⟨k, by simp [gap_scan, hg], le_refl _, g, by simp, hg⟩
    · have hrest : ∃ e ∈ rest, e.node = q := by
        obtain ⟨e, he, heq⟩ := h
        rcases List.mem_cons.mp he with e1 | e1
        · subst e1; exact absurd heq hg
        · exact ⟨e, e1, heq⟩
      obtain ⟨i, hi, hle, e, he, heq⟩ := ih (k + 1) hrest
      refine ⟨i, by simp [gap_scan, hg, hi], by omega, e, ?_, heq⟩
      have : i - k = (i - (k + 1)) + 1 := by omega
      rw [this]
      simpa using he

/-- Zeroing a live entry leaves one live entry fewer. -/
theorem live_count_set (z : gap_t) (hz : z.node = .null) :
    ∀ (G : List gap_t) (i : Nat) (e : gap_t), G[i]? = some e → e.node ≠ .null →
      ((G.set i z).filter fun g => g.node ≠ .null).length + 1 =
        (G.filter fun g => g.node ≠ .null).length := by
  intro G
  induction G with
  | nil => intro i e h; simp at h
  | cons g rest ih =>
    intro i e h he
    cases i with
    | zero =>
      simp only [List.getElem?_cons_zero, Option.some.injEq] at h
      subst h
      simp [List.filter_cons, hz, he]
    | succ j =>
      simp only [List.getElem?_cons_succ] at h
      have := ih j e h he
      simp only [List.set_cons_succ, List.filter_cons]
      split
      · simp only [List.length_cons]
        omega
      · exact this

/-- Changing one entry keeps the entries of the other nodes. -/
theorem mem_set_other (z : gap_t) (q : node_pt) :
    ∀ (G : List gap_t) (i : Nat) (e : gap_t), G[i]? = some e → e.node ≠ q →
      (∃ a ∈ G, a.node = q) → ∃ a ∈ G.set i z, a.node = q := by
  intro G
  induction G with
  | nil => intro i e h; simp at h
  | cons g rest ih =>
    intro i e h he hq
    obtain ⟨a, ha, haq⟩ := hq
    cases i with
    | zero =>
      simp only [List.getElem?_cons_zero, Option.some.injEq] at h
      subst h
      rcases List.mem_cons.mp ha with e1 | e1
      · subst e1; exact absurd haq he
      · exact ⟨a, by simp [e1], haq⟩
    | succ j =>
      simp only [List.getElem?_cons_succ] at h
      rcases List.mem_cons.mp ha with e1 | e1
      · exact ⟨a, by simp [e1], haq⟩
      · obtain ⟨b, hb, hbq⟩ := ih j e h he ⟨a, e1, haq⟩
        exact ⟨b, by simp [hb], hbq⟩

/-- A gap index with fewer live entries than entries has a null entry. -/
theorem exists_null_entry :
    ∀ G : List gap_t, (G.filter fun g => g.node ≠ .null).length < G.length →
      ∃ e ∈ G, e.node = .null := by
  intro G
  induction G with
  | nil => intro h; simp at h
  | cons g rest ih =>
    intro h
    by_cases hg : g.node = .null
    · exact ⟨g, by simp, hg⟩
    · simp only [List.filter_cons, hg, ne_eq, not_false_eq_true, decide_True, if_true,
        List.length_cons, Nat.add_lt_add_iff_right] at h
      obtain ⟨e, he, heq⟩ := ih h
      exact ⟨e, by simp [he], heq⟩

/-- The loop of `_mem_sort_gap_ix` stays inside a gap index that has an entry after
the last one it starts at. -/
theorem sort_loop_some : ∀ (i : Nat) (G : List gap_t), (i = 0 ∨ i < G.length) →
    ∃ r, sort_loop i G = some r ∧ r.length = G.length := by
  intro i
  induction i with
  | zero => intro G _; exact ⟨G, rfl, rfl⟩
  | succ k ih =>
    intro G h
    have hk : k + 1 < G.length := by omega
    have hk0 : k < G.length := by omega
    simp only [sort_loop, List.getElem?_eq_getElem hk, List.getElem?_eq_getElem hk0]
    split
    · obtain ⟨r, hr, hlen⟩ := ih ((G.set k G[k + 1]).set (k + 1) G[k]) (by simp; omega)
      exact ⟨r, hr, by simpa using hlen⟩
    · exact ih G (by omega)

/-- A write to a node of the node heap succeeds and changes the node heap only. -/
theorem node_upd_ok (m : pool_mgr_t) (i : Nat) (f : node_t → node_t)
    (hi : i < m.node_heap.length) :
    ∃ m', node_upd m (.heap i) f = some m' ∧ m'.node_heap.length = m.node_heap.length ∧
      m'.gap_ix = m.gap_ix ∧ m'.pool = m.pool ∧ m'.gap_ix_capacity = m.gap_ix_capacity := by
  refine ⟨{ m with node_heap := m.node_heap.set i (f m.node_heap[i]) }, ?_, by simp, rfl, rfl,
    rfl⟩
  simp [node_upd, List.getElem?_eq_getElem hi]

/-- The merge of `merge_next` succeeds when the node behind has an entry in the gap
index; of the gap index it changes that entry only. -/
theorem merge_next_some (m : pool_mgr_t) (x n i : Nat) (nn : node_t)
    (hxn : x ≠ n) (hx : x < m.node_heap.length) (hn : m.node_heap[n]? = some nn)
    (hv : nn.next = .null ∨ ∃ b, nn.next = .heap b ∧ b < m.node_heap.length)
    (hi : gap_scan (.heap n) m.gap_ix 0 = some i) :
    ∃ m', merge_next m (.heap x) (.heap n) = some m' ∧
      m'.gap_ix = m.gap_ix.set i ⟨0, .null⟩ ∧
      m'.pool = { m.pool with num_gaps := uint_dec m.pool.num_gaps } ∧
      m'.gap_ix_capacity = m.gap_ix_capacity := by
  have hnlt : n < m.node_heap.length := by
    by_contra hc
    rw [List.getElem?_eq_none (by omega)] at hn
    simp at hn
  have hr : _mem_remove_from_gap_ix m 0 (.heap n) =
      some ({ m with gap_ix := m.gap_ix.set i ⟨0, .null⟩
                     pool := { m.pool with num_gaps := uint_dec m.pool.num_gaps } },
            .ALLOC_OK) := by
    simp [_mem_remove_from_gap_ix, hi]
  obtain ⟨m2, hm2, hl2, hg2, hp2, hc2⟩ :=
    node_upd_ok { m with gap_ix := m.gap_ix.set i ⟨0, .null⟩
                         pool := { m.pool with num_gaps := uint_dec m.pool.num_gaps } } x
      (fun r => { r with size := (r.size + nn.size) % SIZE_MOD }) hx
  obtain ⟨m3, hm3, hl3, hg3, hp3, hc3⟩ :=
    node_upd_ok m2 n (fun r => { r with used := 0 }) (by rw [hl2]; exact hnlt)
  have g2 := node_upd_get _ _ _ _ hm2
  have g3 := node_upd_get _ _ _ _ hm3
  have hnx : n ≠ x := fun e => hxn e.symm
  have hn3 : m3.node_heap[n]? = some { nn with used := 0 } := by
    rw [g3 n, g2 n]
    simp [hnx, hn]
  have hlen4 : ({ m3 with used_nodes := uint_dec m3.used_nodes } : pool_mgr_t).node_heap.length
      = m.node_heap.length := by
    show m3.node_heap.length = _
    rw [hl3, hl2]
  -- the relinking of lines 618-628
  have hm6 : ∃ m6, (if ({ nn with used := 0 } : node_t).next ≠ .null then
        (node_upd { m3 with used_nodes := uint_dec m3.used_nodes }
            ({ nn with used := 0 } : node_t).next (fun r => { r with prev := .heap x })).bind
          fun m5 => (node_at m5 (.heap n)).bind
            fun nx2 => node_upd m5 (.heap x) (fun r => { r with next := nx2.next })
      else node_upd { m3 with used_nodes := uint_dec m3.used_nodes } (.heap x)
        (fun r => { r with next := .null })) = some m6 ∧
      m6.node_heap.length = m.node_heap.length ∧ m6.gap_ix = m3.gap_ix ∧ m6.pool = m3.pool ∧
      m6.gap_ix_capacity = m3.gap_ix_capacity := by
    rcases hv with hnull | ⟨b, hb, hblt⟩
    · obtain ⟨m6, hm6, hl6, hg6, hp6, hc6⟩ :=
        node_upd_ok { m3 with used_nodes := uint_dec m3.used_nodes } x
          (fun r => { r with next := .null }) (by rw [hlen4]; exact hx)
      refine ⟨m6, ?_, by rw [hl6, hlen4], hg6, hp6, hc6⟩
      simp only [hnull, ne_eq, not_true_eq_false, if_false]
      exact hm6
    · obtain ⟨m5, hm5, hl5, hg5, hp5, hc5⟩ :=
        node_upd_ok { m3 with used_nodes := uint_dec m3.used_nodes } b
          (fun r => { r with prev := .heap x }) (by rw [hlen4]; exact hblt)
      have hn5 : n < m5.node_heap.length := by rw [hl5, hlen4]; exact hnlt
      obtain ⟨m6, hm6, hl6, hg6, hp6, hc6⟩ :=
        node_upd_ok m5 x (fun r => { r with next := (m5.node_heap[n]).next })
          (by rw [hl5, hlen4]; exact hx)
      refine ⟨m6, ?_, by rw [hl6, hl5, hlen4], by rw [hg6, hg5], by rw [hp6, hp5],
        by rw [hc6, hc5]⟩
      simp only [hb, ne_eq, not_false_eq_true, if_true, hm5, Option.some_bind, node_at,
        List.getElem?_eq_getElem hn5, reduceCtorEq]
      exact hm6
  obtain ⟨m6, hm6, hl6, hg6, hp6, hc6⟩ := hm6
  obtain ⟨m7, hm7, hl7, hg7, hp7, hc7⟩ :=
    node_upd_ok m6 n (fun r => { r with next := .null }) (by rw [hl6]; exact hnlt)
  obtain ⟨m8, hm8, hl8, hg8, hp8, hc8⟩ :=
    node_upd_ok m7 n (fun r => { r with prev := .null }) (by rw [hl7, hl6]; exact hnlt)
  refine ⟨m8, ?_, by rw [hg8, hg7, hg6, hg3, hg2], by rw [hp8, hp7, hp6, hp3, hp2],
    by rw [hc8, hc7, hc6, hc3, hc2]⟩
  unfold merge_next
  simp only [Option.bind_eq_some]
  exact ⟨_, hr, nn, hn, m2, hm2, m3, hm3, _, hn3, m6, hm6, m7, hm7, hm8⟩

/-- The merge of `merge_prev` succeeds when the node in front has an entry in the
gap index; of the gap index it changes that entry only. -/
theorem merge_prev_some (m : pool_mgr_t) (x p i : Nat) (nx : node_t)
    (hpx : p ≠ x) (hp : p < m.node_heap.length) (hx : m.node_heap[x]? = some nx)
    (hv : nx.next = .null ∨ ∃ b, nx.next = .heap b ∧ b < m.node_heap.length)
    (hi : gap_scan (.heap p) m.gap_ix 0 = some i) :
    ∃ m', merge_prev m (.heap x) (.heap p) = some m' ∧
      m'.gap_ix = m.gap_ix.set i ⟨0, .null⟩ ∧
      m'.pool = { m.pool with num_gaps := uint_dec m.pool.num_gaps } ∧
      m'.gap_ix_capacity = m.gap_ix_capacity := by
  have hxlt : x < m.node_heap.length := by
    by_contra hc
    rw [List.getElem?_eq_none (by omega)] at hx
    simp at hx
  have hr : _mem_remove_from_gap_ix m 0 (.heap p) =
      some ({ m with gap_ix := m.gap_ix.set i ⟨0, .null⟩
                     pool := { m.pool with num_gaps := uint_dec m.pool.num_gaps } },
            .ALLOC_OK) := by
    simp [_mem_remove_from_gap_ix, hi]
  obtain ⟨m2, hm2, hl2, hg2, hp2, hc2⟩ :=
    node_upd_ok { m with gap_ix := m.gap_ix.set i ⟨0, .null⟩
                         pool := { m.pool with num_gaps := uint_dec m.pool.num_gaps } } p
      (fun r => { r with size := (r.size + nx.size) % SIZE_MOD }) hp
  obtain ⟨m3, hm3, hl3, hg3, hp3, hc3⟩ :=
    node_upd_ok m2 x (fun r => { r with used := 0 }) (by rw [hl2]; exact hxlt)
  have g2 := node_upd_get _ _ _ _ hm2
  have g3 := node_upd_get _ _ _ _ hm3
  have hxp : x ≠ p := fun e => hpx e.symm
  have hx3 : m3.node_heap[x]? = some { nx with used := 0 } := by
    rw [g3 x, g2 x]
    simp [hxp, hx]
  have hlen4 : ({ m3 with used_nodes := uint_dec m3.used_nodes } : pool_mgr_t).node_heap.length
      = m.node_heap.length := by
    show m3.node_heap.length = _
    rw [hl3, hl2]
  have hm6 : ∃ m6, (if ({ nx with used := 0 } : node_t).next ≠ .null then
        (node_upd { m3 with used_nodes := uint_dec m3.used_nodes } (.heap p)
            (fun r => { r with next := ({ nx with used := 0 } : node_t).next })).bind
          fun m5 => (node_at m5 (.heap x)).bind
            fun td2 => node_upd m5 td2.next (fun r => { r with prev := .heap p })
      else node_upd { m3 with used_nodes := uint_dec m3.used_nodes } (.heap p)
        (fun r => { r with next := .null })) = some m6 ∧
      m6.gap_ix = m3.gap_ix ∧ m6.pool = m3.pool ∧
      m6.gap_ix_capacity = m3.gap_ix_capacity := by
    rcases hv with hnull | ⟨b, hb, hblt⟩
    · obtain ⟨m6, hm6, hl6, hg6, hp6, hc6⟩ :=
        node_upd_ok { m3 with used_nodes := uint_dec m3.used_nodes } p
          (fun r => { r with next := .null }) (by rw [hlen4]; exact hp)
      refine ⟨m6, ?_, hg6, hp6, hc6⟩
      simp only [hnull, ne_eq, not_true_eq_false, if_false]
      exact hm6
    · obtain ⟨m5, hm5, hl5, hg5, hp5, hc5⟩ :=
        node_upd_ok { m3 with used_nodes := uint_dec m3.used_nodes } p
          (fun r => { r with next := .heap b }) (by rw [hlen4]; exact hp)
      have g5 := node_upd_get _ _ _ _ hm5
      have hx5 : m5.node_heap[x]? = some { nx with used := 0 } := by
        rw [g5 x]
        simp only [node_pt.heap.injEq, hxp, if_false]
        exact hx3
      obtain ⟨m6, hm6, hl6, hg6, hp6, hc6⟩ :=
        node_upd_ok m5 b (fun r => { r with prev := .heap p })
          (by rw [hl5, hlen4]; exact hblt)
      refine ⟨m6, ?_, by rw [hg6, hg5], by rw [hp6, hp5], by rw [hc6, hc5]⟩
      simp only [hb, ne_eq, not_false_eq_true, if_true, hm5, Option.some_bind, node_at, hx5,
        reduceCtorEq]
      exact hm6
  obtain ⟨m6, hm6, hg6, hp6, hc6⟩ := hm6
  refine ⟨m6, ?_, by rw [hg6, hg3, hg2], by rw [hp6, hp3, hp2], by rw [hc6, hc3, hc2]⟩
  unfold merge_prev
  simp only [Option.bind_eq_some]
  exact ⟨_, hr, nx, hx, m2, hm2, m3, hm3, _, hx3, hm6⟩

/-- The removal of a live entry leaves room in the gap index. -/
theorem gap_room_removed (m m' : pool_mgr_t) (i : Nat) (e : gap_t)
    (h : gap_room m) (he : m.gap_ix[i]? = some e) (hlive : e.node ≠ .null)
    (hg : m'.gap_ix = m.gap_ix.set i ⟨0, .null⟩)
    (hp : m'.pool = { m.pool with num_gaps := uint_dec m.pool.num_gaps })
    (hc : m'.gap_ix_capacity = m.gap_ix_capacity) : gap_room m' := by
  obtain ⟨h1, h2, h3, h4, h5⟩ := h
  have hcount := live_count_set ⟨0, .null⟩ rfl m.gap_ix i e he hlive
  have hpos : m.pool.num_gaps ≠ 0 := by
    unfold live_gaps at h5
    omega
  have hdec : m'.pool.num_gaps = m.pool.num_gaps - 1 := by
    rw [hp]
    simp [uint_dec, hpos]
  unfold gap_room live_gaps
  rw [hc, hdec, hg]
  unfold live_gaps at h5
  refine ⟨h1, h2, by omega, by rw [List.length_set]; omega, by omega⟩

/-- An entry is added to a gap index that has room. -/
theorem add_to_gap_ix_some (m : pool_mgr_t) (size k : Nat) (h : gap_room m) :
    ∃ r, _mem_add_to_gap_ix m size (.heap k) = some r ∧ r.2 = .ALLOC_OK := by
  obtain ⟨h1, h2, h3, h4, h5⟩ := h
  have hres : _mem_resize_gap_ix m = some (m, .ALLOC_FAIL) := by
    have hdiv : m.pool.num_gaps / m.gap_ix_capacity = 0 := Nat.div_eq_of_lt h3
    have hne : m.gap_ix_capacity ≠ 0 := by omega
    simp [_mem_resize_gap_ix, hne, hdiv]
  have hnull : ∃ e ∈ m.gap_ix, e.node = .null := by
    apply exists_null_entry
    unfold live_gaps at h5
    omega
  obtain ⟨i, hi, _, _⟩ := gap_scan_some .null m.gap_ix 0 hnull
  have hmod : (m.pool.num_gaps + 1) % UINT_MOD = m.pool.num_gaps + 1 :=
    Nat.mod_eq_of_lt (by omega)
  have hdec : uint_dec (m.pool.num_gaps + 1) = m.pool.num_gaps := by
    simp [uint_dec]
  unfold _mem_add_to_gap_ix
  simp only [hres, hi, ne_eq, reduceCtorEq, not_false_eq_true, if_true]
  unfold _mem_sort_gap_ix
  simp only [hmod, hdec]
  by_cases hlim : INT_LIMIT ≤ m.pool.num_gaps
  · simp [hlim]
  · obtain ⟨r, hr, _⟩ := sort_loop_some (m.pool.num_gaps + 1)
      (m.gap_ix.set i ⟨size, .heap k⟩) (Or.inr (by rw [List.length_set]; omega))
    simp [hlim, hr]

/-- The step `del_next_step` succeeds on a node of the segment list when the gap
index has room and holds the node behind, if that one is free; the gap index keeps
room and keeps the entries of the other nodes. -/
theorem del_next_step_some (m : pool_mgr_t) (x : Nat) (pre post : List Nat)
    (hl : linked m.node_heap .null (pre ++ x :: post) .null)
    (hnd : (pre ++ x :: post).Nodup)
    (hroom : gap_room m)
    (hent : ∀ n, post.head? = some n → (m.node_heap[n]?).map alloc_flag = some 0 →
      ∃ e ∈ m.gap_ix, e.node = .heap n) :
    ∃ m3, del_next_step m (.heap x) = some m3 ∧ gap_room m3 ∧
      ∀ q, (∀ n, post.head? = some n → q ≠ n) → (∃ e ∈ m.gap_ix, e.node = .heap q) →
        ∃ e ∈ m3.gap_ix, e.node = .heap q := by
  obtain ⟨nx, hnx, _, hnext, hpost, _⟩ := linked_mid _ _ _ _ _ _ hl
  have hvalid := linked_valid _ _ _ _ hl
  obtain ⟨_, hxpost, _, _, _⟩ := nodup_mid _ _ _ hnd
  cases post with
  | nil =>
    refine ⟨m, ?_, hroom, fun q _ hq => hq⟩
    simp only [first_ptr] at hnext
    simp [del_next_step, node_at, hnx, hnext]
  | cons n B =>
    simp only [first_ptr] at hnext
    obtain ⟨nn, hnn, _, hnnext, _⟩ := (linked_cons _ _ _ _ _).mp hpost
    by_cases hfree : nn.allocated = 0
    · have hflag : (m.node_heap[n]?).map alloc_flag = some 0 := by
        rw [hnn]
        simp [alloc_flag, hfree]
      obtain ⟨i, hi, _, e, he, hen⟩ := gap_scan_some (.heap n) m.gap_ix 0 (hent n rfl hflag)
      simp only [Nat.sub_zero] at he
      have hxn : x ≠ n := fun ec => hxpost (ec ▸ List.mem_cons_self _ _)
      have hv : nn.next = .null ∨ ∃ b, nn.next = .heap b ∧ b < m.node_heap.length := by
        cases B with
        | nil => left; exact hnnext
        | cons b T =>
          right
          exact ⟨b, hnnext, hvalid b (by simp)⟩
      obtain ⟨m3, hm3, hg3, hp3, hc3⟩ :=
        merge_next_some m x n i nn hxn (hvalid x (by simp)) hnn hv hi
      refine ⟨m3, ?_, ?_, ?_⟩
      · simp [del_next_step, node_at, hnx, hnext, hnn, hfree, hm3]
      · exact gap_room_removed m m3 i e hroom he (by rw [hen]; simp) hg3 hp3 hc3
      · intro q hq hex
        rw [hg3]
        refine mem_set_other _ _ _ _ _ he ?_ hex
        rw [hen]
        intro ec
        exact hq n rfl (node_pt.heap.inj ec).symm
    · refine ⟨m, ?_, hroom, fun q _ hq => hq⟩
      simp [del_next_step, node_at, hnx, hnext, hnn, hfree]

/-- The step `del_prev_step` succeeds on a node of the segment list when the gap
index has room and holds the node in front, if that one is free; the gap index
keeps room. -/
theorem del_prev_step_some (m : pool_mgr_t) (x : Nat) (pre post : List Nat)
    (hl : linked m.node_heap .null (pre ++ x :: post) .null)
    (hnd : (pre ++ x :: post).Nodup)
    (hroom : gap_room m)
    (hent : ∀ p, pre.getLast? = some p → (m.node_heap[p]?).map alloc_flag = some 0 →
      ∃ e ∈ m.gap_ix, e.node = .heap p) :
    ∃ r, del_prev_step m (.heap x) = some r ∧ gap_room r.1 := by
  obtain ⟨nx, hnx, hprev, hnext, _, hpre⟩ := linked_mid _ _ _ _ _ _ hl
  have hvalid := linked_valid _ _ _ _ hl
  obtain ⟨hxpre, _, _, _, _⟩ := nodup_mid _ _ _ hnd
  rcases List.eq_nil_or_concat pre with hnil | ⟨A, p, hcat⟩
  · subst hnil
    simp only [last_ptr] at hprev
    refine ⟨(m, .heap x), ?_, hroom⟩
    simp [del_prev_step, node_at, hnx, hprev]
  · rw [List.concat_eq_append] at hcat
    subst hcat
    rw [last_ptr_append_singleton] at hprev
    obtain ⟨np, hnp⟩ := linked_get _ _ _ _ hl p (by simp)
    by_cases hfree : np.allocated = 0
    · have hflag : (m.node_heap[p]?).map alloc_flag = some 0 := by
        rw [hnp]
        simp [alloc_flag, hfree]
      obtain ⟨i, hi, _, e, he, hen⟩ :=
        gap_scan_some (.heap p) m.gap_ix 0 (hent p (by simp) hflag)
      simp only [Nat.sub_zero] at he
      have hpx : p ≠ x := fun ec => hxpre (ec ▸ by simp)
      have hv : nx.next = .null ∨ ∃ b, nx.next = .heap b ∧ b < m.node_heap.length := by
        cases post with
        | nil => left; exact hnext
        | cons b T =>
          right
          exact ⟨b, hnext, hvalid b (by simp)⟩
      obtain ⟨m4, hm4, hg4, hp4, hc4⟩ :=
        merge_prev_some m x p i nx hpx (hvalid p (by simp)) hnx hv hi
      refine ⟨(m4, .heap p), ?_, ?_⟩
      · simp [del_prev_step, node_at, hnx, hprev, hnp, hfree, hm4]
      · exact gap_room_removed m m4 i e hroom he (by rw [hen]; simp) hg4 hp4 hc4
    · refine ⟨(m, .heap x), ?_, hroom⟩
      simp [del_prev_step, node_at, hnx, hprev, hnp, hfree]

/-- Nodes with the same size and flag have the same flag. -/
theorem flag_of_pair (a b : Option node_t) (h : a.map seg_pair = b.map seg_pair) :
    a.map alloc_flag = b.map alloc_flag := by
  cases a <;> cases b <;> simp_all [alloc_flag, seg_pair]

/-- The call `mem_del_alloc` returns `ALLOC_OK` on a node of the segment list when the
gap index has room and holds the free nodes of the list. -/
theorem mem_del_alloc_returns (m : pool_mgr_t) (x : Nat) (pre post : List Nat)
    (hl : linked m.node_heap .null (pre ++ x :: post) .null)
    (hnd : (pre ++ x :: post).Nodup)
    (hx : x < m.total_nodes)
    (hroom : gap_room m) (hlisted : gaps_listed m (pre ++ post)) :
    ∃ m', mem_del_alloc m (.heap x) = some (m', .ALLOC_OK) := by
  obtain ⟨hxpre, hxpost, _, _, hdisj⟩ := nodup_mid _ _ _ hnd
  obtain ⟨nx, hnx⟩ := linked_get _ _ _ _ hl x (by simp)
  have hvalid := linked_valid _ _ _ _ hl
  obtain ⟨m1, hm1, hlen1, hg1, hp1, hc1⟩ :=
    node_upd_ok m x (fun r => { r with allocated := 0 }) (hvalid x (by simp))
  have g1 := node_upd_get _ _ _ _ hm1
  have hx1 : m1.node_heap[x]? = some { nx with allocated := 0 } := by
    rw [g1 x, if_pos rfl, hnx]
    rfl
  have ho1 : ∀ j : Nat, j ≠ x → m1.node_heap[j]? = m.node_heap[j]? := by
    intro j hj
    rw [g1 j]
    simp [hj]
  have hl1 : linked m1.node_heap .null (pre ++ x :: post) .null := by
    refine linked_congr_links m.node_heap m1.node_heap _ _ _ ?_ hl
    intro b _
    rw [g1 b]
    split
    · cases m.node_heap[b]? <;> simp [links]
    · rfl
  have hroom2 : gap_room
      { m1 with pool := { m1.pool with
                            num_allocs := uint_dec m1.pool.num_allocs
                            alloc_size := (m1.pool.alloc_size + SIZE_MOD -
                              ({ nx with allocated := 0 } : node_t).size) % SIZE_MOD } } := by
    unfold gap_room live_gaps at hroom ⊢
    simp only [hg1, hp1, hc1]
    exact hroom
  obtain ⟨m3, hm3, hroom3, hpres⟩ := del_next_step_some _ x pre post (by exact hl1) hnd hroom2
    (by
      intro n hn hflag
      have hnpost : n ∈ post := List.mem_of_mem_head? hn
      have hnx' : n ≠ x := fun ec => hxpost (ec ▸ hnpost)
      have hflag' : (m.node_heap[n]?).map alloc_flag = some 0 := by
        rw [← ho1 n hnx']
        exact hflag
      obtain ⟨e, he, hen⟩ := hlisted n (List.mem_append_right _ hnpost) hflag'
      exact ⟨e, by show e ∈ m1.gap_ix; rw [hg1]; exact he, hen⟩)
  obtain ⟨B, s3, hl3, hnd3, hf3, hp3, _⟩ :=
    del_next_step_sizes _ m3 x pre post _ (by exact hl1) hnd (by exact hx1) hm3
  obtain ⟨n3, hn3, _, _⟩ := (pair_eq_some _ _ _).mp hp3
  obtain ⟨r, hr, hroom4⟩ := del_prev_step_some m3 x pre B hl3 hnd3 hroom3
    (by
      intro p hp hflag
      have hppre : p ∈ pre := List.mem_of_mem_getLast? hp
      have hpx : p ≠ x := fun ec => hxpre (ec ▸ hppre)
      have hflag' : (m.node_heap[p]?).map alloc_flag = some 0 := by
        rw [← ho1 p hpx, ← hflag]
        exact (flag_of_pair _ _ (hf3 p hpx)).symm
      obtain ⟨e, he, hen⟩ := hlisted p (List.mem_append_left _ hppre) hflag'
      refine hpres p ?_ ⟨e, by show e ∈ m1.gap_ix; rw [hg1]; exact he, hen⟩
      intro n hn ec
      exact hdisj p hppre (ec ▸ List.mem_of_mem_head? hn))
  obtain ⟨A, k, hc, hl4, _, _⟩ :=
    del_prev_step_sizes m3 r.1 r.2 x pre B n3 hl3 hnd3 hn3 hr
  obtain ⟨fin, hfin⟩ := linked_get _ _ _ _ hl4 k (by simp)
  obtain ⟨a, ha, hok⟩ := add_to_gap_ix_some r.1 fin.size k hroom4
  refine ⟨a.1, ?_⟩
  unfold mem_del_alloc
  simp only [hx, if_true, Option.bind_eq_some]
  refine ⟨m1, hm1, _, hx1, m3, hm3, r, hr, fin, by rw [hc]; exact hfin, a, by rw [hc]; exact ha, ?_⟩
  simp [hok]

/-- The merge postcondition of deallocation, on the pools whose sizes sum to less
than `2^64`.  Let the segment list of `m` be
the doubly linked list `node_heap[0] :: l` (distinct nodes, `prev` and `next`
consistent, null at both ends), with sizes that sum to less than `2^64`, and let
`node_heap[x]` be one of its segments, with the segments `pre` in front of it and
`post` behind it.  Whenever `mem_del_alloc` on that handle returns `ALLOC_OK`, the
segment list after the call is `merge_run` of the list before: the run made of the
segment in front of `x` (if there is one and it is free), `x`, and the segment
behind `x` (if there is one and it is free) has become one free segment whose size
is the sum of the sizes of the run, and every other segment has kept its place,
size and state; every node of the old list that is no longer in the list is
marked unused.  And the call does return `ALLOC_OK` when `x` is below
`total_nodes`, the gap index has room for an entry and holds the free segments
of the list.  (That the segment `x` is allocated is not needed.) -/
theorem del_alloc_merges (m : pool_mgr_t) (l pre post : List Nat) (x : Nat)
    (hl : linked m.node_heap .null (0 :: l) .null) (hnd : (0 :: l).Nodup)
    (hsplit : 0 :: l = pre ++ x :: post)
    (hsz : seg_total m < SIZE_MOD) :
    (∀ m', mem_del_alloc m (.heap x) = some (m', .ALLOC_OK) →
      ∃ nx, m.node_heap[x]? = some nx ∧
        segments m = pairs m.node_heap pre ++ seg_pair nx :: pairs m.node_heap post ∧
        segments m' = merge_run (pairs m.node_heap pre) nx.size (pairs m.node_heap post) ∧
        ∀ j ∈ 0 :: l, node_pt.heap j ∉ seg_list m' →
          (m'.node_heap[j]?).map (fun r => r.used) = some 0) ∧
    (x < m.total_nodes → gap_room m → gaps_listed m (pre ++ post) →
      ∃ m', mem_del_alloc m (.heap x) = some (m', .ALLOC_OK)) := by
  refine ⟨?_, ?_⟩
  · intro m' hdel
    exact mem_del_alloc_segments m m' l pre post x hl hnd hsplit hsz hdel
  · intro hx hroom hlisted
    rw [hsplit] at hl hnd
    exact mem_del_alloc_returns m x pre post hl hnd hx hroom hlisted

/-- C21: the order of the gap index fails on the code.  After `hole_in_index` on a
`FIRST_FIT` pool of 100 bytes (all handles are the ones returned) the only gap is
`node_heap[0]`, `num_gaps` is 1, and its entry is at position 1 of the gap index,
behind a zeroed entry at position 0.  After `three_gaps` on a `BEST_FIT` pool the
three live entries are at the positions 0 to 2, with the sizes 20, 5, 10: the
entry of 5 bytes comes before the entry of 10 bytes. -/
theorem gap_index_not_dense_not_sorted :
    (run hole_in_index (new_pool_mgr 100 .FIRST_FIT)).map
        (fun m => (segments m, m.pool.num_gaps, m.gap_ix.take 3))
      = some ([(10, 0), (10, 1), (10, 1), (70, 1)], 1,
              [⟨0, .null⟩, ⟨10, .heap 0⟩, ⟨0, .null⟩]) ∧
    (run three_gaps (new_pool_mgr 100 .BEST_FIT)).map
        (fun m => (m.pool.num_gaps, m.gap_ix.take 4))
      = some (3, [⟨20, .heap 2⟩, ⟨5, .heap 5⟩, ⟨10, .heap 0⟩, ⟨0, .null⟩]) :=
  ⟨by decide, by decide⟩

/-- C22: the removal from the gap index does not compact it.  In the pool reached by
the first four calls of `hole_in_index` the gap index is dense: `num_gaps` is 2 and
the entries are `(70, node_heap[3])`, `(10, node_heap[0])`.  After
`_mem_remove_from_gap_ix` for `node_heap[3]`, `num_gaps` is 1 and the entry of
`node_heap[0]` is still at position 1; position 0 is zeroed. -/
theorem remove_from_gap_ix_leaves_hole :
    (run (hole_in_index.take 4) (new_pool_mgr 100 .FIRST_FIT)).map
        (fun m => (m.pool.num_gaps, m.gap_ix.take 3))
      = some (2, [⟨70, .heap 3⟩, ⟨10, .heap 0⟩, ⟨0, .null⟩]) ∧
    (run (hole_in_index.take 4) (new_pool_mgr 100 .FIRST_FIT)).bind
        (fun m => (_mem_remove_from_gap_ix m 70 (.heap 3)).map fun r =>
          (r.2, r.1.pool.num_gaps, r.1.gap_ix.take 3))
      = some (.ALLOC_OK, 1, [⟨0, .null⟩, ⟨10, .heap 0⟩, ⟨0, .null⟩]) :=
  ⟨by decide, by decide⟩

/-- C23, as stated, fails on the code.  In the pool reached by `equal_gaps` the gap
index is dense and sorted, `(60, node_heap[4]), (10, node_heap[0])`.
`_mem_add_to_gap_ix` of the entry `(10, node_heap[2])` puts it at position 2, behind
the entry of the same size that was there; so does `mem_del_alloc` on
`node_heap[2]`, which makes that insertion. -/
theorem equal_entry_goes_last :
    (run equal_gaps (new_pool_mgr 100 .BEST_FIT)).map
        (fun m => (decide (dense_sorted m), m.pool.num_gaps, m.gap_ix.take 3))
      = some (true, 2, [⟨60, .heap 4⟩, ⟨10, .heap 0⟩, ⟨0, .null⟩]) ∧
    (run equal_gaps (new_pool_mgr 100 .BEST_FIT)).bind
        (fun m => (_mem_add_to_gap_ix m 10 (.heap 2)).map fun r => (r.2, r.1.gap_ix.take 4))
      = some (.ALLOC_OK, [⟨60, .heap 4⟩, ⟨10, .heap 0⟩, ⟨10, .heap 2⟩, ⟨0, .null⟩]) ∧
    (run equal_gaps (new_pool_mgr 100 .BEST_FIT)).bind
        (fun m => (mem_del_alloc m (.heap 2)).map fun r => (r.2, r.1.gap_ix.take 4))
      = some (.ALLOC_OK, [⟨60, .heap 4⟩, ⟨10, .heap 0⟩, ⟨10, .heap 2⟩, ⟨0, .null⟩]) :=
  ⟨by decide, by decide, by decide⟩

/-- C24, as stated, fails on the code.  In the `BEST_FIT` pool reached by
`two_equal_gaps` the gap index is dense and sorted,
`(60, node_heap[4]), (10, node_heap[0]), (10, node_heap[2])`: two entries have the
smallest size that holds a request of 10 bytes.  `mem_new_alloc(pool, 10)` returns
`&node_heap[2]`, the entry at position 2, not the one at position 1. -/
theorem best_fit_takes_last_of_equal :
    (run two_equal_gaps (new_pool_mgr 100 .BEST_FIT)).map
        (fun m => (decide (dense_sorted m), m.pool.num_gaps, m.gap_ix.take 4))
      = some (true, 3, [⟨60, .heap 4⟩, ⟨10, .heap 0⟩, ⟨10, .heap 2⟩, ⟨0, .null⟩]) ∧
    (run two_equal_gaps (new_pool_mgr 100 .BEST_FIT)).bind
        (fun m => (mem_new_alloc true m 10).map Prod.snd)
      = some (.heap 2) :=
  ⟨by decide, by decide⟩

/-- C25: segment occupancy fails right after `mem_pool_open`.  In the pool that
`mem_pool_open(100, FIRST_FIT)` returns, the segment list is the node
`node_heap[0]`, whose `used` is 0; `used_nodes` is 1, and no node of the node heap
has `used != 0`. -/
theorem open_leaves_head_unused :
    (mem_pool_open (plain_env 7) store_start 100 .FIRST_FIT).bind
        (fun o => o.2.map fun pm =>
          (seg_list pm.2, (node_at pm.2 (.heap 0)).map (fun n => n.used), pm.2.used_nodes,
           (pm.2.node_heap.filter fun n => n.used ≠ 0).length))
      = some ([.heap 0], some 0, 1, 0) := by
  decide

/-- C26: the growth policy of the node heap fails on the code.  After `thirty_allocs`
on a `FIRST_FIT` pool of 100 bytes, 31 of the 40 nodes are used, more than three
quarters, and `mem_new_alloc(pool, 1)` returns `&node_heap[30]` with `total_nodes`
still 40: the node heap has not grown.  After `fill_heap` on a pool of 40 bytes, 40
of the 40 nodes are used, and `mem_new_alloc(pool, 1)` leaves `total_nodes` at 120,
three times 40, not twice. -/
theorem heap_growth_late_and_threefold :
    (run thirty_allocs (new_pool_mgr 100 .FIRST_FIT)).bind
        (fun m => (mem_new_alloc true m 1).map fun r =>
          (m.used_nodes, m.total_nodes, decide (3 * m.total_nodes < 4 * m.used_nodes), r.2,
           r.1.total_nodes))
      = some (31, 40, true, .heap 30, 40) ∧
    (run fill_heap (new_pool_mgr 40 .FIRST_FIT)).bind
        (fun m => (mem_new_alloc true m 1).map fun r =>
          (m.used_nodes, m.total_nodes, r.2, r.1.total_nodes))
      = some (40, 40, .heap 39, 120) :=
  ⟨by decide, by decide⟩

/-- The capacity after `_mem_resize_gap_ix`: it is doubled exactly when `num_gaps` has
reached the capacity, since the quotient of the test is taken in `unsigned`. -/
theorem resize_gap_ix_capacity (m : pool_mgr_t) (r : pool_mgr_t × alloc_status)
    (h : _mem_resize_gap_ix m = some r) :
    r.1.gap_ix_capacity =
      if m.gap_ix_capacity ≤ m.pool.num_gaps then
        (m.gap_ix_capacity * MEM_GAP_IX_EXPAND_FACTOR) % UINT_MOD
      else m.gap_ix_capacity := by
  unfold _mem_resize_gap_ix at h
  by_cases hz : m.gap_ix_capacity = 0
  · simp [hz] at h
  · rw [if_neg hz] at h
    have hpos : 0 < m.gap_ix_capacity := Nat.pos_of_ne_zero hz
    by_cases hq : 1 ≤ m.pool.num_gaps / m.gap_ix_capacity
    · rw [if_pos hq] at h
      have hle : m.gap_ix_capacity ≤ m.pool.num_gaps := by
        have := (Nat.le_div_iff_mul_le hpos).mp hq
        omega
      simp only [Option.some.injEq] at h
      subst h
      simp [hle]
    · rw [if_neg hq] at h
      have hlt : ¬ m.gap_ix_capacity ≤ m.pool.num_gaps := by
        intro hle
        exact hq ((Nat.le_div_iff_mul_le hpos).mpr (by omega))
      simp only [Option.some.injEq] at h
      subst h
      simp [hlt]

/-- C27: the growth policy of the gap index fails on the code.  After
`repeated_release` on a pool of 100 bytes, `num_gaps` is 31 and `gap_ix_capacity`
is 40: more than three quarters.  `_mem_resize_gap_ix` returns `ALLOC_FAIL` and
leaves the capacity at 40; so does the next `mem_del_alloc`, which calls it before
it adds the 32nd entry. -/
theorem gap_index_growth_late :
    (run repeated_release (new_pool_mgr 100 .FIRST_FIT)).bind
        (fun m => (_mem_resize_gap_ix m).map fun r =>
          (m.pool.num_gaps, m.gap_ix_capacity,
           decide (3 * m.gap_ix_capacity < 4 * m.pool.num_gaps), r.2, r.1.gap_ix_capacity))
      = some (31, 40, true, .ALLOC_FAIL, 40) ∧
    (run repeated_release (new_pool_mgr 100 .FIRST_FIT)).bind
        (fun m => (mem_del_alloc m (.heap 0)).map fun r =>
          (r.2, r.1.pool.num_gaps, r.1.gap_ix_capacity))
      = some (.ALLOC_OK, 32, 40) :=
  ⟨by decide, by decide⟩

/-- C28: a returned handle need not be a gap that holds the request.  On a
`BEST_FIT` pool of 100 bytes with 40 bytes allocated, `node_heap[1]` is in the
segment list, free, in the gap index, and has 60 bytes.  `mem_new_alloc(pool, 70)`
returns `&node_heap[1]`; the remainder `60 - 70` wraps round, and the segment list
becomes `Allocated(40), Allocated(70), Free(2^64 - 10)`. -/
theorem best_fit_returns_too_small_gap :
    (run [.new_alloc true 40] (new_pool_mgr 100 .BEST_FIT)).map
        (fun m => (seg_list m, (node_at m (.heap 1)).map (fun n => (n.size, n.allocated)),
                   m.gap_ix.take 2))
      = some ([.heap 0, .heap 1], some (60, 0), [⟨60, .heap 1⟩, ⟨0, .null⟩]) ∧
    (run [.new_alloc true 40] (new_pool_mgr 100 .BEST_FIT)).bind
        (fun m => (mem_new_alloc true m 70).map fun r => (r.2, segments r.1))
      = some (.heap 1, [(40, 1), (70, 1), (2 ^ 64 - 10, 0)]) :=
  ⟨by decide, by decide⟩

/-! ## Insertion into a dense, sorted gap index -/

/-- The check `size_descending` holds exactly of the lists in which every entry is
at least as large as every entry after it. -/
theorem size_descending_iff : ∀ A : List gap_t,
    size_descending A = true ↔ A.Pairwise (fun a b => b.size ≤ a.size)
  | [] => by simp [size_descending]
  | [a] => by simp [size_descending]
  | a :: b :: t => by
    have ih := size_descending_iff (b :: t)
    simp only [size_descending, Bool.and_eq_true, decide_eq_true_eq, ih]
    constructor
    · rintro ⟨hab, hp⟩
      refine List.pairwise_cons.mpr ⟨?_, hp⟩
      intro x hx
      rcases List.mem_cons.mp hx with e | hxt
      · subst e; exact hab
      · exact le_trans ((List.pairwise_cons.mp hp).1 x hxt) hab
    · intro hp
      obtain ⟨h1, h2⟩ := List.pairwise_cons.mp hp
      exact ⟨h1 b (List.mem_cons_self _ _), h2⟩

/-- The entry right after the first part of an array. -/
theorem getElem?_append_at {α : Type} (Q : List α) (x : α) (R : List α) :
    (Q ++ x :: R)[Q.length]? = some x := by
  induction Q with
  | nil => simp
  | cons q Q ih => simpa using ih

/-- The second entry after the first part of an array. -/
theorem getElem?_append_succ {α : Type} (Q : List α) (x y : α) (R : List α) :
    (Q ++ x :: y :: R)[Q.length + 1]? = some y := by
  induction Q with
  | nil => simp
  | cons q Q ih => simpa using ih

/-- Writing the entry right after the first part of an array. -/
theorem set_append_at {α : Type} (Q : List α) (x z : α) (R : List α) :
    (Q ++ x :: R).set Q.length z = Q ++ z :: R := by
  induction Q with
  | nil => rfl
  | cons q Q ih => simp [ih]

/-- Writing the second entry after the first part of an array. -/
theorem set_append_succ {α : Type} (Q : List α) (x y z : α) (R : List α) :
    (Q ++ x :: y :: R).set (Q.length + 1) z = Q ++ x :: z :: R := by
  induction Q with
  | nil => rfl
  | cons q Q ih => simp [ih]

/-- The loop of `_mem_sort_gap_ix` changes nothing in entries that are in order. -/
theorem sort_loop_sorted : ∀ (P S : List gap_t), P.Pairwise (fun a b => b.size ≤ a.size) →
    sort_loop (P.length - 1) (P ++ S) = some (P ++ S) := by
  intro P
  induction P using List.reverseRecOn with
  | nil => intro S _; rfl
  | append_singleton Q b ih =>
    intro S hp
    rcases List.eq_nil_or_concat Q with hnil | ⟨Q', a, hcat⟩
    · subst hnil
      rfl
    · rw [List.concat_eq_append] at hcat
      subst hcat
      obtain ⟨hQ, _, hrel⟩ := List.pairwise_append.mp hp
      have hba : b.size ≤ a.size := hrel a (by simp) b (by simp)
      have hlen : (Q' ++ [a] ++ [b]).length - 1 = Q'.length + 1 := by simp
      have e0 : Q' ++ [a] ++ [b] ++ S = Q' ++ a :: b :: S := by simp
      have e1 : (Q' ++ [a] ++ [b] ++ S)[Q'.length]? = some a := by
        rw [e0]
        exact getElem?_append_at Q' a (b :: S)
      have e2 : (Q' ++ [a] ++ [b] ++ S)[Q'.length + 1]? = some b := by
        rw [e0]
        exact getElem?_append_succ Q' a b S
      rw [hlen]
      simp only [sort_loop, e1, e2]
      have hnot : ¬ a.size < b.size := by omega
      simp only [hnot, if_false]
      have := ih (b :: S) hQ
      simp only [List.length_append, List.length_singleton, Nat.add_sub_cancel] at this
      simpa using this

/-- The loop of `_mem_sort_gap_ix`, started at the entry in front of a new entry that
follows entries in order: the new entry moves in front of the entries that are
smaller than it, and behind those that are not. -/
theorem sort_loop_bubble (new : gap_t) : ∀ (A R : List gap_t),
    A.Pairwise (fun a b => b.size ≤ a.size) →
    ∃ A1 A2, A = A1 ++ A2 ∧ (∀ e ∈ A1, new.size ≤ e.size) ∧ (∀ e ∈ A2, e.size < new.size) ∧
      sort_loop A.length (A ++ new :: R) = some (A1 ++ new :: (A2 ++ R)) := by
  intro A
  induction A using List.reverseRecOn with
  | nil =>
    intro R _
    exact ⟨[], [], rfl, by simp, by simp, rfl⟩
  | append_singleton Q a ih =>
    intro R hp
    obtain ⟨hQ, _, hrel⟩ := List.pairwise_append.mp hp
    have e0 : Q ++ [a] ++ new :: R = Q ++ a :: new :: R := by simp
    have e1 : (Q ++ [a] ++ new :: R)[Q.length]? = some a := by
      rw [e0]
      exact getElem?_append_at Q a (new :: R)
    have e2 : (Q ++ [a] ++ new :: R)[Q.length + 1]? = some new := by
      rw [e0]
      exact getElem?_append_succ Q a new R
    have hlen : (Q ++ [a]).length = Q.length + 1 := by simp
    rw [hlen]
    simp only [sort_loop, e1, e2]
    by_cases hlt : a.size < new.size
    · simp only [hlt, if_true]
      obtain ⟨A1, A2, hsplit, h1, h2, hs⟩ := ih (a :: R) hQ
      refine ⟨A1, A2 ++ [a], by rw [hsplit]; simp, h1, ?_, ?_⟩
      · intro e he
        rcases List.mem_append.mp he with he | he
        · exact h2 e he
        · simp only [List.mem_singleton] at he
          subst he
          exact hlt
      · rw [e0, set_append_at, set_append_succ, hs]
        simp
    · simp only [hlt, if_false]
      refine ⟨Q ++ [a], [], by simp, ?_, by simp, ?_⟩
      · intro e he
        rcases List.mem_append.mp he with he | he
        · have := hrel e he a (by simp)
          omega
        · simp only [List.mem_singleton] at he
          subst he
          omega
      · have := sort_loop_sorted (Q ++ [a]) (new :: R) hp
        simp only [hlen, Nat.add_sub_cancel] at this
        rw [this]
        simp

/-- The scan of the gap index passes the entries of other nodes and stops at the first
entry of the node. -/
theorem gap_scan_skip (q : node_pt) (z : gap_t) (hz : z.node = q) (Z : List gap_t) :
    ∀ (A : List gap_t) (k : Nat), (∀ e ∈ A, e.node ≠ q) →
      gap_scan q (A ++ z :: Z) k = some (k + A.length) := by
  intro A
  induction A with
  | nil => intro k _; simp [gap_scan, hz]
  | cons a A ih =>
    intro k h
    have ha : a.node ≠ q := h a (List.mem_cons_self _ _)
    have := ih (k + 1) (fun e he => h e (List.mem_cons_of_mem _ he))
    show gap_scan q (a :: (A ++ z :: Z)) k = _
    rw [gap_scan, if_pos ha, this, List.length_cons]
    congr 1
    omega

/-- A dense gap index with two empty entries, taken apart: the live entries, two zeroed
entries, and the rest. -/
theorem dense_split (m : pool_mgr_t) (hds : dense_sorted m)
    (hlen : m.pool.num_gaps + 1 < m.gap_ix.length) :
    ∃ Z, m.gap_ix = m.gap_ix.take m.pool.num_gaps ++ ⟨0, .null⟩ :: ⟨0, .null⟩ :: Z ∧
      m.gap_ix.drop (m.pool.num_gaps + 1) = ⟨0, .null⟩ :: Z ∧
      (m.gap_ix.take m.pool.num_gaps).length = m.pool.num_gaps := by
  obtain ⟨_, _, hzero, _⟩ := hds
  have hl : (m.gap_ix.drop m.pool.num_gaps).length = m.gap_ix.length - m.pool.num_gaps :=
    List.length_drop _ _
  cases hd : m.gap_ix.drop m.pool.num_gaps with
  | nil => rw [hd] at hl; simp at hl; omega
  | cons z Z1 =>
    cases Z1 with
    | nil => rw [hd] at hl; simp at hl; omega
    | cons z1 Z =>
      have hz : z = ⟨0, .null⟩ := hzero z (by rw [hd]; simp)
      have hz1 : z1 = ⟨0, .null⟩ := hzero z1 (by rw [hd]; simp)
      subst hz; subst hz1
      refine ⟨Z, ?_, ?_, ?_⟩
      · rw [← hd, List.take_append_drop]
      · have : m.gap_ix.drop (m.pool.num_gaps + 1) = (m.gap_ix.drop m.pool.num_gaps).drop 1 := by
          rw [List.drop_drop]
        rw [this, hd]
        rfl
      · rw [List.length_take]
        omega

/-- C23, amended: insertion puts the new entry behind the entries of its size.  Let
the gap index of `m` be dense and sorted, with `num_gaps` below the capacity, a
capacity of at most `2^31`, and two entries of the array left after the live ones.
Then `_mem_add_to_gap_ix` of an entry with a non-null node returns `ALLOC_OK`.  The
live entries that were there, `A1 ++ A2`, keep their order, and the new entry is
placed between them: behind `A1`, the entries that are at least as large as it,
and in front of `A2`, the entries that are smaller.  `num_gaps` grows by 1 and the
capacity is unchanged.  So among entries of equal size the most recently inserted
one comes last. -/
theorem add_to_gap_ix_places (m : pool_mgr_t) (size : Nat) (node : node_pt)
    (hnode : node ≠ .null) (hds : dense_sorted m) (hcap : m.pool.num_gaps < m.gap_ix_capacity)
    (hint : m.gap_ix_capacity ≤ INT_LIMIT) (hlen : m.pool.num_gaps + 1 < m.gap_ix.length) :
    ∃ A1 A2 r, m.gap_ix.take m.pool.num_gaps = A1 ++ A2 ∧
      (∀ e ∈ A1, size ≤ e.size) ∧ (∀ e ∈ A2, e.size < size) ∧
      _mem_add_to_gap_ix m size (node) = some (r, .ALLOC_OK) ∧
      r.gap_ix = A1 ++ ⟨size, node⟩ :: (A2 ++ m.gap_ix.drop (m.pool.num_gaps + 1)) ∧
      r.pool.num_gaps = m.pool.num_gaps + 1 ∧ r.gap_ix_capacity = m.gap_ix_capacity := by
  obtain ⟨Z, hG, hdrop, hAlen⟩ := dense_split m hds hlen
  obtain ⟨_, hlive, _, hsorted⟩ := hds
  have hpw := (size_descending_iff _).mp hsorted
  obtain ⟨A1, A2, hsplit, h1, h2, hbub⟩ :=
    sort_loop_bubble ⟨size, node⟩ (m.gap_ix.take m.pool.num_gaps) (⟨0, .null⟩ :: Z) hpw
  rw [hAlen] at hbub
  have hlim : m.pool.num_gaps < INT_LIMIT := by omega
  have hres : _mem_resize_gap_ix m = some (m, .ALLOC_FAIL) := by
    have hdiv : m.pool.num_gaps / m.gap_ix_capacity = 0 := Nat.div_eq_of_lt hcap
    have hne : m.gap_ix_capacity ≠ 0 := by omega
    simp [_mem_resize_gap_ix, hne, hdiv]
  have hscan : gap_scan .null m.gap_ix 0 = some m.pool.num_gaps := by
    have := gap_scan_skip .null ⟨0, .null⟩ rfl (⟨0, .null⟩ :: Z)
      (m.gap_ix.take m.pool.num_gaps) 0 hlive
    rw [← hG, hAlen, Nat.zero_add] at this
    exact this
  have hset : m.gap_ix.set m.pool.num_gaps ⟨size, node⟩ =
      m.gap_ix.take m.pool.num_gaps ++ ⟨size, node⟩ :: ⟨0, .null⟩ :: Z := by
    have := set_append_at (m.gap_ix.take m.pool.num_gaps) (⟨0, .null⟩ : gap_t)
      ⟨size, node⟩ (⟨0, .null⟩ :: Z)
    rw [← hG, hAlen] at this
    exact this
  have hmod : (m.pool.num_gaps + 1) % UINT_MOD = m.pool.num_gaps + 1 := by
    apply Nat.mod_eq_of_lt
    simp only [INT_LIMIT] at hlim
    simp only [UINT_MOD]
    omega
  have hdec : uint_dec (m.pool.num_gaps + 1) = m.pool.num_gaps := by
    simp [uint_dec]
  have hnotlim : ¬ INT_LIMIT ≤ m.pool.num_gaps := by omega
  -- the first step of the loop compares the new entry with the zeroed entry after it
  have hfirst : sort_loop (m.pool.num_gaps + 1)
      (m.gap_ix.take m.pool.num_gaps ++ ⟨size, node⟩ :: ⟨0, .null⟩ :: Z) =
      some (A1 ++ ⟨size, node⟩ :: (A2 ++ ⟨0, .null⟩ :: Z)) := by
    have e1 := getElem?_append_at (m.gap_ix.take m.pool.num_gaps) (⟨size, node⟩ : gap_t)
      (⟨0, .null⟩ :: Z)
    have e2 := getElem?_append_succ (m.gap_ix.take m.pool.num_gaps) (⟨size, node⟩ : gap_t)
      ⟨0, .null⟩ Z
    rw [hAlen] at e1 e2
    simp only [sort_loop, e1, e2, Nat.not_lt_zero, if_false]
    exact hbub
  refine ⟨A1, A2,
    { m with gap_ix := A1 ++ ⟨size, node⟩ :: (A2 ++ ⟨0, .null⟩ :: Z)
             pool := { m.pool with num_gaps := m.pool.num_gaps + 1 } },
    hsplit, h1, h2, ?_, by rw [hdrop], rfl, rfl⟩
  unfold _mem_add_to_gap_ix
  simp only [hres, hscan, ne_eq, hnode, not_false_eq_true, if_true]
  unfold _mem_sort_gap_ix
  simp only [hmod, hdec, hnotlim, if_false, hset, hfirst]

/-! ## Best fit in a dense, sorted gap index -/

/-- The first entry of what is left of an array after `n` entries. -/
theorem drop_eq_cons {α : Type} (l : List α) (n : Nat) (e : α) (t : List α)
    (h : l.drop n = e :: t) : l[n]? = some e ∧ l.drop (n + 1) = t := by
  refine ⟨?_, ?_⟩
  · have := congrArg List.head? h
    simpa [List.head?_drop] using this
  · have : l.drop (n + 1) = (l.drop n).drop 1 := by
      rw [List.drop_drop]
    rw [this, h]
    rfl

/-- Where the loop of the best-fit search stops: every entry it has passed holds the
request, and the entry after the one it stops at does not, unless the loop has
reached `num_gaps`. -/
theorem best_fit_scan_index (g s : Nat) (G : List gap_t) :
    ∀ (rest : List gap_t) (i r : Nat), rest = G.drop (i + 1) →
      best_fit_scan g s rest i = some r →
      i ≤ r ∧ (∀ j, i < j → j ≤ r → ∃ e, G[j]? = some e ∧ s ≤ e.size) ∧
        (r < g → ∀ e, G[r + 1]? = some e → e.size < s) := by
  intro rest
  induction rest with
  | nil =>
    intro i r _ h
    simp only [best_fit_scan] at h
    split at h
    · simp at h
    · simp only [Option.some.injEq] at h
      subst h
      exact ⟨le_refl _, fun j h1 h2 => by omega, fun hlt => by omega⟩
  | cons e rest ih =>
    intro i r hrest h
    obtain ⟨he, hdrop⟩ := drop_eq_cons G (i + 1) e rest hrest.symm
    simp only [best_fit_scan] at h
    by_cases hig : i < g
    · simp only [hig, if_true] at h
      by_cases hfit : s ≤ e.size
      · simp only [hfit, if_true] at h
        obtain ⟨h1, h2, h3⟩ := ih (i + 1) r hdrop.symm h
        refine ⟨by omega, ?_, h3⟩
        intro j hj1 hj2
        by_cases hj : j = i + 1
        · subst hj
          exact ⟨e, he, hfit⟩
        · exact h2 j (by omega) hj2
      · simp only [hfit, if_false, Option.some.injEq] at h
        subst h
        refine ⟨le_refl _, fun j h1 h2 => by omega, ?_⟩
        intro _ e' he'
        rw [he] at he'
        cases he'
        omega
    · simp only [hig, if_false, Option.some.injEq] at h
      subst h
      exact ⟨le_refl _, fun j h1 h2 => by omega, fun hlt => by omega⟩

/-- The loop of the best-fit search stops when an entry ahead does not hold the
request. -/
theorem best_fit_scan_total (g s : Nat) (G : List gap_t) :
    ∀ (rest : List gap_t) (i : Nat), rest = G.drop (i + 1) →
      (∃ j e, i < j ∧ G[j]? = some e ∧ e.size < s) →
      ∃ r, best_fit_scan g s rest i = some r := by
  intro rest
  induction rest with
  | nil =>
    intro i hrest h
    obtain ⟨j, e, hij, he, _⟩ := h
    have hlen : G.length ≤ i + 1 := by
      have := congrArg List.length hrest
      simp at this
      omega
    rw [List.getElem?_eq_none (by omega)] at he
    simp at he
  | cons e rest ih =>
    intro i hrest h
    obtain ⟨he, hdrop⟩ := drop_eq_cons G (i + 1) e rest hrest.symm
    simp only [best_fit_scan]
    by_cases hig : i < g
    · simp only [hig, if_true]
      by_cases hfit : s ≤ e.size
      · simp only [hfit, if_true]
        apply ih (i + 1) hdrop.symm
        obtain ⟨j, e', hij, he', hlt⟩ := h
        refine ⟨j, e', ?_, he', hlt⟩
        by_contra hc
        have hj : j = i + 1 := by omega
        subst hj
        rw [he] at he'
        cases he'
        omega
      · simp [hfit]
    · simp [hig]

/-- A dense and sorted gap index, by positions: the entries below `num_gaps` are live,
the entries from `num_gaps` on are zeroed, and of two live entries the one at the
lower position is at least as large. -/
theorem dense_sorted_index (m : pool_mgr_t) (hds : dense_sorted m) :
    (∀ j e, j < m.pool.num_gaps → m.gap_ix[j]? = some e → e.node ≠ .null) ∧
    (∀ j e, m.pool.num_gaps ≤ j → m.gap_ix[j]? = some e → e = ⟨0, .null⟩) ∧
    (∀ i j ei ej, i < j → j < m.pool.num_gaps → m.gap_ix[i]? = some ei →
      m.gap_ix[j]? = some ej → ej.size ≤ ei.size) := by
  obtain ⟨_, hlive, hzero, hsorted⟩ := hds
  have hpw := (size_descending_iff _).mp hsorted
  refine ⟨?_, ?_, ?_⟩
  · intro j e hj he
    apply hlive e
    apply List.getElem?_mem (n := j)
    rw [List.getElem?_take_of_lt hj]
    exact he
  · intro j e hj he
    apply hzero e
    apply List.getElem?_mem (n := j - m.pool.num_gaps)
    rw [List.getElem?_drop]
    have : m.pool.num_gaps + (j - m.pool.num_gaps) = j := by omega
    rw [this]
    exact he
  · intro i j ei ej hij hj hi' hj'
    rw [List.pairwise_iff_getElem] at hpw
    have hi1 : (m.gap_ix.take m.pool.num_gaps)[i]? = some ei := by
      rw [List.getElem?_take_of_lt (by omega)]
      exact hi'
    have hj1 : (m.gap_ix.take m.pool.num_gaps)[j]? = some ej := by
      rw [List.getElem?_take_of_lt hj]
      exact hj'
    obtain ⟨hil, hie⟩ := List.getElem?_eq_some.mp hi1
    obtain ⟨hjl, hje⟩ := List.getElem?_eq_some.mp hj1
    have := hpw i j hil hjl hij
    rw [hie, hje] at this
    exact this

/-- C24, amended: best fit takes the last of the entries that hold the request.  Let
`m` be a `BEST_FIT` pool whose gap index is dense and sorted, with an entry of the
array left after the live ones, and let a request of `size > 0` bytes be held by
some live entry.  Then the search of `mem_new_alloc` selects the node of the entry
at the highest position `i` among the live entries that hold the request, and a
call that returns a handle returns that node.  The entry has the smallest size that
holds the request, and among the entries of that size it is the one at the highest
position. -/
theorem best_fit_selects_last_fitting (m : pool_mgr_t) (size : Nat)
    (hpol : m.pool.policy = .BEST_FIT) (hds : dense_sorted m)
    (hlen : m.pool.num_gaps < m.gap_ix.length) (hs : 0 < size)
    (hfit : ∃ j ej, j < m.pool.num_gaps ∧ m.gap_ix[j]? = some ej ∧ size ≤ ej.size) :
    ∃ i e, i < m.pool.num_gaps ∧ m.gap_ix[i]? = some e ∧ size ≤ e.size ∧ e.node ≠ .null ∧
      (∀ j ej, j < m.pool.num_gaps → m.gap_ix[j]? = some ej → size ≤ ej.size →
        j ≤ i ∧ e.size ≤ ej.size) ∧
      select_node m size = some e.node ∧
      ∀ ok m' p, mem_new_alloc ok m size = some (m', p) → p ≠ .null → p = e.node := by
  obtain ⟨hlive, hzero, hsorted⟩ := dense_sorted_index m hds
  obtain ⟨j0, ej0, hj0, hej0, hfit0⟩ := hfit
  have hgpos : 0 < m.pool.num_gaps := by omega
  -- the first entry holds the request
  have h0 : ∃ e0, m.gap_ix[0]? = some e0 ∧ size ≤ e0.size := by
    have hex : m.gap_ix[0]? = some m.gap_ix[0] := List.getElem?_eq_getElem (by omega)
    refine ⟨_, hex, ?_⟩
    by_cases hz : j0 = 0
    · subst hz
      have heq := Option.some.inj (hex.symm.trans hej0)
      rw [heq]
      exact hfit0
    · have := hsorted 0 j0 _ ej0 (by omega) hj0 hex hej0
      omega
  obtain ⟨e0, he0, hfit00⟩ := h0
  -- the entry at `num_gaps` stops the loop
  have hzg : m.gap_ix[m.pool.num_gaps]? = some m.gap_ix[m.pool.num_gaps] :=
    List.getElem?_eq_getElem hlen
  have hzz := hzero _ _ (le_refl _) hzg
  obtain ⟨r, hr⟩ := best_fit_scan_total m.pool.num_gaps size m.gap_ix (m.gap_ix.drop 1) 0 rfl
    ⟨m.pool.num_gaps, _, hgpos, hzg, by rw [hzz]; exact hs⟩
  obtain ⟨_, hpass, hstop⟩ :=
    best_fit_scan_index m.pool.num_gaps size m.gap_ix (m.gap_ix.drop 1) 0 r rfl hr
  have hrg : r < m.pool.num_gaps := by
    by_contra hc
    obtain ⟨e, he, hfe⟩ := hpass m.pool.num_gaps hgpos (by omega)
    have heq := Option.some.inj (hzg.symm.trans he)
    rw [← heq, hzz] at hfe
    simp only at hfe
    omega
  have hsel : ∃ e, m.gap_ix[r]? = some e ∧ size ≤ e.size := by
    by_cases hz : r = 0
    · subst hz
      exact ⟨e0, he0, hfit00⟩
    · exact hpass r (by omega) (le_refl _)
  obtain ⟨e, he, hfe⟩ := hsel
  have hselect : select_node m size = some e.node := by
    unfold select_node
    rw [hpol]
    simp only [hgpos, if_true, hr, he]
  refine ⟨r, e, hrg, he, hfe, hlive r e hrg he, ?_, hselect, ?_⟩
  · intro j ej hj hej hfj
    have hjr : j ≤ r := by
      by_contra hc
      have hr1 : r + 1 < m.gap_ix.length := by omega
      have hex : m.gap_ix[r + 1]? = some m.gap_ix[r + 1] := List.getElem?_eq_getElem hr1
      have hsmall := hstop hrg _ hex
      by_cases hjr1 : j = r + 1
      · subst hjr1
        have heq := Option.some.inj (hex.symm.trans hej)
        rw [heq] at hsmall
        omega
      · have := hsorted (r + 1) j _ ej (by omega) hj hex hej
        omega
    refine ⟨hjr, ?_⟩
    by_cases hjr0 : j = r
    · subst hjr0
      have heq := Option.some.inj (he.symm.trans hej)
      rw [heq]
    · exact hsorted j r ej e (by omega) hrg hej he
  · intro ok m' p hnew hp
    obtain ⟨m1, hpool, hgap, _, hs1⟩ := mem_new_alloc_selected ok m m' size p hp hnew
    have : select_node m1 size = select_node m size := by
      simp only [select_node, hpool, hgap, hpol]
    rw [this, hselect] at hs1
    exact (Option.some.inj hs1).symm

/-! ## The number of nodes after an allocation -/

/-- An insertion into the gap index leaves `total_nodes` as it is. -/
theorem add_to_gap_ix_total (m : pool_mgr_t) (size : Nat) (p : node_pt)
    (r : pool_mgr_t × alloc_status) (h : _mem_add_to_gap_ix m size p = some r) :
    r.1.total_nodes = m.total_nodes := by
  unfold _mem_add_to_gap_ix at h
  cases hres : _mem_resize_gap_ix m with
  | none => simp [hres] at h
  | some q =>
    obtain ⟨m1, st⟩ := q
    have e1 : m1.total_nodes = m.total_nodes := by
      unfold _mem_resize_gap_ix at hres
      split at hres
      · simp at hres
      · split at hres
        · simp only [Option.some.injEq, Prod.mk.injEq] at hres
          rw [← hres.1]
        · simp only [Option.some.injEq, Prod.mk.injEq] at hres
          rw [← hres.1]
    simp only [hres] at h
    cases hscan : gap_scan .null m1.gap_ix 0 with
    | none => simp [hscan] at h
    | some i =>
      simp only [hscan] at h
      split at h
      · cases hsort : _mem_sort_gap_ix
            { m1 with
                gap_ix := m1.gap_ix.set i ⟨size, p⟩
                pool := { m1.pool with num_gaps := (m1.pool.num_gaps + 1) % UINT_MOD } } with
        | none => simp [hsort] at h
        | some q2 =>
          obtain ⟨m3, st3⟩ := q2
          simp only [hsort, Option.some.injEq] at h
          subst h
          unfold _mem_sort_gap_ix at hsort
          simp only at hsort
          split at hsort
          · simp only [Option.some.injEq, Prod.mk.injEq] at hsort
            rw [← hsort.1]
            exact e1
          · split at hsort
            · simp only [Option.some.injEq, Prod.mk.injEq] at hsort
              rw [← hsort.1]
              exact e1
            · simp at hsort
      · simp only [Option.some.injEq] at h
        subst h
        exact e1

/-- The split of the chosen node leaves `total_nodes` as it is. -/
theorem split_node_total (m m' : pool_mgr_t) (p : node_pt) (size remainder : Nat)
    (h : split_node m p size remainder = some m') : m'.total_nodes = m.total_nodes := by
  unfold split_node at h
  split at h
  · simp at h
  · rename_i i _
    simp only [Option.bind_eq_some] at h
    obtain ⟨m1, h1, m3, h3, nn, _, m4, h4, nn1, _, m5, h5, m6, h6, m7, h7, r, hr, hres⟩ := h
    simp only [Option.some.injEq] at hres
    subst hres
    have e1 := (node_upd_frame _ _ _ _ h1).2.2.2.2
    have e3 := (node_upd_frame _ _ _ _ h3).2.2.2.2
    have e4 : m4.total_nodes = m3.total_nodes := by
      split at h4
      · exact (node_upd_frame _ _ _ _ h4).2.2.2.2
      · simp only [Option.some.injEq] at h4
        rw [← h4]
    have e5 := (node_upd_frame _ _ _ _ h5).2.2.2.2
    have e6 := (node_upd_frame _ _ _ _ h6).2.2.2.2
    have e7 := (node_upd_frame _ _ _ _ h7).2.2.2.2
    have er := add_to_gap_ix_total _ _ _ _ hr
    rw [er, e7, e6, e5, e4, e3]
    exact e1

/-- The placement of an allocation leaves `total_nodes` as it is. -/
theorem place_alloc_total (m m' : pool_mgr_t) (p q : node_pt) (size : Nat)
    (h : place_alloc m p size = some (m', q)) : m'.total_nodes = m.total_nodes := by
  unfold place_alloc at h
  simp only [Option.bind_eq_some] at h
  obtain ⟨n, _, r, hr, m3, h3, h⟩ := h
  have er : r.1.total_nodes = m.total_nodes := by
    unfold _mem_remove_from_gap_ix at hr
    split at hr
    · simp at hr
    · simp only [Option.some.injEq] at hr
      rw [← hr]
  have e3 := (node_upd_frame _ _ _ _ h3).2.2.2.2
  split at h
  · simp only [Option.bind_eq_some] at h
    obtain ⟨m4, h4, h⟩ := h
    simp only [Option.some.injEq, Prod.mk.injEq] at h
    rw [← h.1, split_node_total _ _ _ _ _ h4, e3, er]
  · simp only [Option.some.injEq, Prod.mk.injEq] at h
    rw [← h.1, e3, er]

/-- The number of nodes after `_mem_resize_node_heap`: when more than three quarters
of the nodes are used and `malloc` succeeds, twice the number is added to it. -/
theorem resize_node_heap_total (ok : Bool) (m m1 : pool_mgr_t) (st : alloc_status)
    (h : _mem_resize_node_heap ok m = some (m1, st)) :
    m1.total_nodes =
      if 3 * m.total_nodes < 4 * m.used_nodes ∧ ok = true then
        (m.total_nodes + (m.total_nodes * MEM_NODE_HEAP_EXPAND_FACTOR) % UINT_MOD) % UINT_MOD
      else m.total_nodes := by
  unfold _mem_resize_node_heap at h
  by_cases hc : 3 * m.total_nodes < 4 * m.used_nodes
  · rw [if_pos hc] at h
    cases ok with
    | false =>
      simp at h
      rw [← h.1]
      simp
    | true =>
      simp only [if_true] at h
      split at h
      · simp at h
      · rename_i last hl
        split at h
        · simp at h
        · rename_i m2 hu
          simp only [Option.some.injEq, Prod.mk.injEq] at h
          rw [← h.1]
          have := (node_upd_frame _ m2 last _ hu).2.2.2.2
          simp only [hc, and_self, if_true]
          exact this
  · rw [if_neg hc] at h
    simp at h
    rw [← h.1]
    simp [hc]

/-- The number of nodes after `mem_new_alloc`, for every pool manager: the node heap
grows exactly when `used_nodes` has reached `total_nodes` (and `malloc` succeeds),
and then `total_nodes` becomes three times what it was. -/
theorem new_alloc_total_nodes (ok : Bool) (m m' : pool_mgr_t) (size : Nat) (p : node_pt)
    (h : mem_new_alloc ok m size = some (m', p)) :
    m'.total_nodes =
      if m.total_nodes ≤ m.used_nodes ∧ ok = true then
        (m.total_nodes + (m.total_nodes * MEM_NODE_HEAP_EXPAND_FACTOR) % UINT_MOD) % UINT_MOD
      else m.total_nodes := by
  unfold mem_new_alloc at h
  by_cases hz : m.total_nodes = 0
  · simp [hz] at h
  · rw [if_neg hz] at h
    have hpos : 0 < m.total_nodes := Nat.pos_of_ne_zero hz
    split at h
    · simp at h
    · rename_i m1 st hres
      have hm1 : m1.total_nodes =
          if m.total_nodes ≤ m.used_nodes ∧ ok = true then
            (m.total_nodes + (m.total_nodes * MEM_NODE_HEAP_EXPAND_FACTOR) % UINT_MOD) % UINT_MOD
          else m.total_nodes := by
        by_cases hq : 1 ≤ m.used_nodes / m.total_nodes
        · rw [if_pos hq] at hres
          have hle : m.total_nodes ≤ m.used_nodes := by
            have := (Nat.le_div_iff_mul_le hpos).mp hq
            omega
          have hfl : 3 * m.total_nodes < 4 * m.used_nodes := by omega
          rw [resize_node_heap_total ok m m1 st hres]
          simp [hle, hfl]
        · rw [if_neg hq] at hres
          have hlt : ¬ m.total_nodes ≤ m.used_nodes := by
            intro hle
            exact hq ((Nat.le_div_iff_mul_le hpos).mpr (by omega))
          simp only [Option.some.injEq, Prod.mk.injEq] at hres
          rw [← hres.1]
          simp [hlt]
      split at h
      · simp only [Option.some.injEq, Prod.mk.injEq] at h
        rw [← h.1]
        exact hm1
      · split at h
        · simp only [Option.some.injEq, Prod.mk.injEq] at h
          rw [← h.1]
          exact hm1
        · split at h
          · simp at h
          · split at h
            · simp only [Option.some.injEq, Prod.mk.injEq] at h
              rw [← h.1]
              exact hm1
            · rw [place_alloc_total _ _ _ _ _ h]
              exact hm1

/-! ## Instances of the theorems -/

/-- C2, an instance: in the layout `Free(10), Allocated(20), Free(70)` the
deallocation of the middle segment merges on both sides and leaves `Free(100)`. -/
theorem del_alloc_no_adjacent_free_witness :
    segments (pool_after gap_on_both_sides 100 .FIRST_FIT) = [(10, 0), (20, 1), (70, 0)] ∧
    segments (after_del (pool_after gap_on_both_sides 100 .FIRST_FIT) (.heap 1)) = [(100, 0)] ∧
    no_adjacent_free (after_del (pool_after gap_on_both_sides 100 .FIRST_FIT) (.heap 1)) :=
  ⟨by decide, by decide,
    del_alloc_no_adjacent_free (pool_after gap_on_both_sides 100 .FIRST_FIT)
      (after_del (pool_after gap_on_both_sides 100 .FIRST_FIT) (.heap 1)) [1, 2] 1
      (by decide) (by decide) (by decide) (by decide) (by decide)⟩

/-- C10, an instance: a fresh pool, with one gap and no allocation, is closed with
`ALLOC_OK` in a pool store that `mem_init` has set up. -/
theorem mem_pool_close_status_witness :
    ∃ g', mem_pool_close (mem_init true ⟨none, 0, 0⟩).1 (some (7, new_pool_mgr 100 .FIRST_FIT))
      = some (g', .ALLOC_OK) :=
  ((mem_pool_close_status (mem_init true ⟨none, 0, 0⟩).1 7 (new_pool_mgr 100 .FIRST_FIT)).2
    (by decide)).2 _ rfl (by decide)

/-- C12 amended, an instance: a null handle is rejected and the pool is left as it
was. -/
theorem del_alloc_rejects_foreign_handle_witness :
    mem_del_alloc (new_pool_mgr 100 .FIRST_FIT) .null
      = some (new_pool_mgr 100 .FIRST_FIT, .ALLOC_FAIL) :=
  del_alloc_rejects_foreign_handle (new_pool_mgr 100 .FIRST_FIT) .null
    (by intro i hi; cases hi)

/-- C15 amended, an instance: the request of 2 bytes in the pool reached by
`fill_heap`, which returns `NULL` after the node heap has grown; the pool record,
the gap index and `used_nodes` are what they were. -/
theorem new_alloc_null_frame_witness :
    (after_new (pool_after fill_heap 40 .FIRST_FIT) 2).pool
        = (pool_after fill_heap 40 .FIRST_FIT).pool ∧
      (after_new (pool_after fill_heap 40 .FIRST_FIT) 2).gap_ix
        = (pool_after fill_heap 40 .FIRST_FIT).gap_ix ∧
      (after_new (pool_after fill_heap 40 .FIRST_FIT) 2).used_nodes
        = (pool_after fill_heap 40 .FIRST_FIT).used_nodes :=
  have h := new_alloc_null_frame true (pool_after fill_heap 40 .FIRST_FIT)
    (after_new (pool_after fill_heap 40 .FIRST_FIT) 2) 2 (by decide)
  ⟨h.1, h.2.1, h.2.2.2.1⟩

/-- C18, an instance: the first pool of a program, opened with 1000 bytes and
`BEST_FIT`. -/
theorem mem_pool_open_post_witness :
    segments (new_pool_mgr 1000 .BEST_FIT) = [(1000, 0)] ∧
    live_gaps (new_pool_mgr 1000 .BEST_FIT) = [⟨1000, .heap 0⟩] :=
  have h := mem_pool_open_post (plain_env 7) store_start
    { pool_store := some ((List.replicate 20 none).set 0 (some 7))
      pool_store_size := 1
      pool_store_capacity := 20 } 1000 .BEST_FIT 7 (new_pool_mgr 1000 .BEST_FIT) (by decide)
  ⟨h.2.1, h.2.2.2.1⟩

/-- C17, an instance: two pools are opened, at the addresses 7 and 8, and the first
is closed; the second is still open, and `mem_free` is refused. -/
theorem mem_free_refused_while_open_witness :
    mem_free
        { pool_store := some ((List.replicate 20 none).set 1 (some 8))
          pool_store_size := 1
          pool_store_capacity := 20 }
      = some ({ pool_store := some ((List.replicate 20 none).set 1 (some 8))
                pool_store_size := 1
                pool_store_capacity := 20 }, .ALLOC_FAIL) :=
  mem_free_refused_while_open
    [.pool_open (plain_env 7) 100 .FIRST_FIT, .pool_open (plain_env 8) 50 .BEST_FIT,
     .pool_close 7 (new_pool_mgr 100 .FIRST_FIT)]
    store_start _ [8] (Or.inl rfl) (by decide) (by decide)

/-- An instance of `del_alloc_merges`: in the layout `Free(10), Allocated(20),
Free(70)` the deallocation of the middle segment, `node_heap[1]`, returns `ALLOC_OK` and merges
on both sides: the segment list is `Free(100)` after it. -/
theorem del_alloc_merges_witness :
    (∃ m', mem_del_alloc (pool_after gap_on_both_sides 100 .FIRST_FIT) (.heap 1)
        = some (m', .ALLOC_OK)) ∧
    ∃ nx, (pool_after gap_on_both_sides 100 .FIRST_FIT).node_heap[1]? = some nx ∧
      segments (pool_after gap_on_both_sides 100 .FIRST_FIT) =
        pairs (pool_after gap_on_both_sides 100 .FIRST_FIT).node_heap [0] ++
          seg_pair nx :: pairs (pool_after gap_on_both_sides 100 .FIRST_FIT).node_heap [2] ∧
      segments (after_del (pool_after gap_on_both_sides 100 .FIRST_FIT) (.heap 1)) =
        merge_run (pairs (pool_after gap_on_both_sides 100 .FIRST_FIT).node_heap [0]) nx.size
          (pairs (pool_after gap_on_both_sides 100 .FIRST_FIT).node_heap [2]) ∧
      ∀ j ∈ [0, 1, 2],
        node_pt.heap j ∉
            seg_list (after_del (pool_after gap_on_both_sides 100 .FIRST_FIT) (.heap 1)) →
          ((after_del (pool_after gap_on_both_sides 100 .FIRST_FIT) (.heap 1)).node_heap[j]?).map
            (fun r => r.used) = some 0 :=
  have h := del_alloc_merges (pool_after gap_on_both_sides 100 .FIRST_FIT) [1, 2] [0] [2] 1
    (by decide) (by decide) (by decide) (by decide)
  ⟨h.2 (by decide) (by decide) (by decide),
    h.1 (after_del (pool_after gap_on_both_sides 100 .FIRST_FIT) (.heap 1)) (by decide)⟩

/-- C23 amended, an instance: the entry `(10, node_heap[2])` is added to the gap index
`(60, node_heap[4]), (10, node_heap[0])` of the pool reached by `equal_gaps`. -/
theorem add_to_gap_ix_places_witness :
    ∃ A1 A2 r, (pool_after equal_gaps 100 .BEST_FIT).gap_ix.take
          (pool_after equal_gaps 100 .BEST_FIT).pool.num_gaps = A1 ++ A2 ∧
      (∀ e ∈ A1, 10 ≤ e.size) ∧ (∀ e ∈ A2, e.size < 10) ∧
      _mem_add_to_gap_ix (pool_after equal_gaps 100 .BEST_FIT) 10 (.heap 2)
        = some (r, .ALLOC_OK) ∧
      r.gap_ix = A1 ++ ⟨10, .heap 2⟩ ::
        (A2 ++ (pool_after equal_gaps 100 .BEST_FIT).gap_ix.drop
          ((pool_after equal_gaps 100 .BEST_FIT).pool.num_gaps + 1)) ∧
      r.pool.num_gaps = (pool_after equal_gaps 100 .BEST_FIT).pool.num_gaps + 1 ∧
      r.gap_ix_capacity = (pool_after equal_gaps 100 .BEST_FIT).gap_ix_capacity :=
  add_to_gap_ix_places (pool_after equal_gaps 100 .BEST_FIT) 10 (.heap 2) (by decide)
    (by decide) (by decide) (by decide) (by decide)

/-- C24 amended, an instance: a request of 10 bytes in the `BEST_FIT` pool reached by
`two_equal_gaps`, whose first entry, of 60 bytes, holds it. -/
theorem best_fit_selects_last_fitting_witness :
    ∃ i e, i < (pool_after two_equal_gaps 100 .BEST_FIT).pool.num_gaps ∧
      (pool_after two_equal_gaps 100 .BEST_FIT).gap_ix[i]? = some e ∧
      10 ≤ e.size ∧ e.node ≠ .null ∧
      (∀ j ej,
        j < (pool_after two_equal_gaps 100 .BEST_FIT).pool.num_gaps →
        (pool_after two_equal_gaps 100 .BEST_FIT).gap_ix[j]? = some ej →
        10 ≤ ej.size → j ≤ i ∧ e.size ≤ ej.size) ∧
      select_node (pool_after two_equal_gaps 100 .BEST_FIT) 10 = some e.node ∧
      ∀ ok m' p,
        mem_new_alloc ok (pool_after two_equal_gaps 100 .BEST_FIT) 10 = some (m', p) →
          p ≠ .null → p = e.node :=
  have hfit : ∃ j ej, j < (pool_after two_equal_gaps 100 .BEST_FIT).pool.num_gaps ∧
      (pool_after two_equal_gaps 100 .BEST_FIT).gap_ix[j]? = some ej ∧ 10 ≤ ej.size :=
    ⟨0, ⟨60, .heap 4⟩, by decide, by decide, by decide⟩
  best_fit_selects_last_fitting (pool_after two_equal_gaps 100 .BEST_FIT) 10
    (by decide) (by decide) (by decide) (by decide) hfit

end MemPool
